import Mathlib

/-!
Interpreted-tail simplifier (`dl_mk_interp_tail_simplifier.cpp`).

A shallow embedding of the rule transformer that simplifies interpreted tails,
together with theorems about its comparator, its connective normalizer and its
per-rule driver.
-/

namespace datalog

/-! ## Terms -/

/-- Sorts of terms; only the distinction boolean / non-boolean is observed by the simplifier. -/
inductive sort where
  | bool : sort
  | other (n : Nat) : sort
  deriving DecidableEq, Repr

/-- Function symbols.  The symbols of the boolean connectives, of the arithmetic comparisons
and of subtraction are unique objects of the term manager; equality has one symbol per sort,
numerals are the symbols of the value constants, and every other symbol is uninterpreted
(a name and the sort of its applications). -/
inductive func_decl where
  | true_decl | false_decl | and_decl | or_decl | not_decl | iff_decl
  | eq_decl (s : sort)
  | le_decl | ge_decl | sub_decl
  | num_decl (value : Int)
  | uninterp (name : Nat) (range : sort)
  deriving DecidableEq, Repr

/-- The sort of the applications of a symbol. -/
def func_decl.get_range : func_decl → sort
  | .sub_decl => .other 0
  | .num_decl _ => .other 0
  | .uninterp _ r => r
  | _ => .bool

/-- Terms: variables, applications of a symbol to arguments, quantifiers.  Terms are
hash-consed in the source, so pointer equality of `expr *` is structural equality here. -/
inductive expr where
  | var (idx : Nat) (s : sort) : expr
  | app (f : func_decl) (args : List expr) : expr
  | quantifier (is_forall : Bool) (num_decls : Nat) (body : expr) : expr

mutual
/-- Pointer equality of terms, decided structurally. -/
def expr.dec_eq : (a b : expr) → Decidable (a = b)
  | .var i s, .var j t =>
    if h : i = j ∧ s = t then isTrue (by rw [h.1, h.2]) else
      isFalse (fun e => h (by cases e; exact ⟨rfl, rfl⟩))
  | .app f as, .app g bs =>
    if h : f = g then
      match expr.dec_eq_list as bs with
      | isTrue h2 => isTrue (by rw [h, h2])
      | isFalse h2 => isFalse (fun e => h2 (by cases e; rfl))
    else isFalse (fun e => h (by cases e; rfl))
  | .quantifier fa n a, .quantifier fb k b =>
    if h : fa = fb ∧ n = k then
      match expr.dec_eq a b with
      | isTrue h2 => isTrue (by rw [h.1, h.2, h2])
      | isFalse h2 => isFalse (fun e => h2 (by cases e; rfl))
    else isFalse (fun e => h (by cases e; exact ⟨rfl, rfl⟩))
  | .var _ _, .app _ _ => isFalse (fun e => by cases e)
  | .var _ _, .quantifier _ _ _ => isFalse (fun e => by cases e)
  | .app _ _, .var _ _ => isFalse (fun e => by cases e)
  | .app _ _, .quantifier _ _ _ => isFalse (fun e => by cases e)
  | .quantifier _ _ _, .var _ _ => isFalse (fun e => by cases e)
  | .quantifier _ _ _, .app _ _ => isFalse (fun e => by cases e)

/-- Equality of argument lists. -/
def expr.dec_eq_list : (as bs : List expr) → Decidable (as = bs)
  | [], [] => isTrue rfl
  | a :: as, b :: bs =>
    match expr.dec_eq a b with
    | isTrue h =>
      match expr.dec_eq_list as bs with
      | isTrue h2 => isTrue (by rw [h, h2])
      | isFalse h2 => isFalse (fun e => h2 (by cases e; rfl))
    | isFalse h => isFalse (fun e => h (by cases e; rfl))
  | [], _ :: _ => isFalse (fun e => by cases e)
  | _ :: _, [] => isFalse (fun e => by cases e)
end

instance : DecidableEq expr := expr.dec_eq

/-- Modelled from the spec: the identity numbers (`get_id()`) that the term manager gives to
terms and to symbols (`ast.h` is not part of the sources). -/
structure ast_manager where
  get_id : expr → Nat
  get_decl_id : func_decl → Nat

/-- The invariant of the term manager: distinct terms and distinct symbols have distinct
identity numbers. -/
def ast_manager.unique_ids (m : ast_manager) : Prop :=
  Function.Injective m.get_id ∧ Function.Injective m.get_decl_id

def is_app : expr → Bool
  | .app _ _ => true
  | _ => false

def is_var : expr → Bool
  | .var _ _ => true
  | _ => false

def get_args : expr → List expr
  | .app _ args => args
  | _ => []

def get_num_args (e : expr) : Nat := (get_args e).length

/-- Modelled from the spec: `is_app_of`, the term is an application of the given symbol. -/
def is_app_of (e : expr) (f : func_decl) : Bool :=
  match e with
  | .app g _ => g == f
  | _ => false

/-- Modelled from the spec: `ast_manager::is_not(e, arg)`; a negation is the application of
`NOT` to one argument, which is returned. -/
def is_not_arg : expr → Option expr
  | .app .not_decl [x] => some x
  | _ => none

/-- Modelled from the spec: `ast_manager::is_not(e)`. -/
def is_not (e : expr) : Bool := (is_not_arg e).isSome

/-- The effect of `b = m.is_not(e, e)`: the flag and the term with one `NOT` removed. -/
def strip_not (e : expr) : Bool × expr :=
  match is_not_arg e with
  | some x => (true, x)
  | none => (false, e)

/-- Modelled from the spec: `ast_manager::get_sort`. -/
def get_sort : expr → sort
  | .var _ s => s
  | .app f _ => f.get_range
  | .quantifier _ _ _ => .bool

/-- Modelled from the spec: `ast_manager::is_bool`, the term is boolean-sorted. -/
def is_bool (e : expr) : Bool := get_sort e == .bool

/-- Modelled from the spec: `ast_manager::mk_not`. -/
def mk_not (e : expr) : expr := .app .not_decl [e]

/-- Modelled from the spec: `ast_manager::mk_eq`, the equality literal `lhs = rhs`. -/
def mk_eq (lhs rhs : expr) : expr := .app (.eq_decl (get_sort lhs)) [lhs, rhs]

/-- Modelled from the spec: `ast_manager::mk_true`. -/
def mk_true : expr := .app .true_decl []

/-- Modelled from the spec: `ast_manager::mk_false`. -/
def mk_false : expr := .app .false_decl []

/-- Modelled from the spec: `ast_manager::mk_and` on an argument list. -/
def mk_and (args : List expr) : expr := .app .and_decl args

/-- Modelled from the spec: `ast_manager::mk_or` on an argument list. -/
def mk_or (args : List expr) : expr := .app .or_decl args

def is_and (e : expr) : Bool := is_app_of e .and_decl
def is_or (e : expr) : Bool := is_app_of e .or_decl
def is_true (e : expr) : Bool := is_app_of e .true_decl
def is_false (e : expr) : Bool := is_app_of e .false_decl

/-- Modelled from the spec: the binary matchers `is_and(e, a1, a2)` and `is_or(e, a1, a2)`:
the term is an application of the symbol to two arguments, which are returned. -/
def match_binary (f : func_decl) : expr → Option (expr × expr)
  | .app g [a1, a2] => if g = f then some (a1, a2) else none
  | _ => none

/-! ## The comparator `normalizer_cfg::expr_cmp` -/

/-- Source `cmp<T>(a, b)`: `(a>b) ? 1 : ((a == b) ? 0 : -1)`. -/
def cmp {T : Type} [LT T] [DecidableRel (fun (a b : T) => a > b)] [DecidableEq T]
    (a b : T) : Int :=
  if a > b then 1 else if a = b then 0 else -1

/-- Conversion of the `unsigned neg_comparison` to the `int` result (wrapping around). -/
def unsigned_to_int (u : Nat) : Int :=
  if u % 2 ^ 32 < 2 ^ 31 then (u % 2 ^ 32 : Nat) else ((u % 2 ^ 32 : Nat) : Int) - 2 ^ 32

theorem sizeOf_strip_not_le (e : expr) : sizeOf (strip_not e).2 ≤ sizeOf e := by
  unfold strip_not is_not_arg
  split
  · next x h =>
    split at h
    · cases h; simp; omega
    · cases h
  · exact le_refl _

mutual
/-- Source `expr_cmp::cmp_expr(ae, be, depth)`. -/
def cmp_expr (m : ast_manager) (ae be : expr) (depth : Int) : Int :=
  if ae = be then 0 else
  -- remove negations
  let a_neg := (strip_not ae).1
  let b_neg := (strip_not be).1
  if (strip_not ae).2 = (strip_not be).2 then cmp a_neg b_neg else
  match h : (strip_not ae).2 with
  | .app fa as =>
    match (strip_not be).2 with
    | .app fb bs =>
      if fa ≠ fb then cmp (m.get_decl_id fa) (m.get_decl_id fb)
      else if as.length ≠ bs.length then cmp as.length bs.length
      else if depth = 0 then
        cmp (m.get_id (.app fa as)) (m.get_id (.app fb bs))
      else
        cmp_args m as bs (depth - 1) 0
          (m.get_id (.app fa as)) (m.get_id (.app fb bs))
    | _ => 1
  | a =>
    match (strip_not be).2 with
    | .app _ _ => -1
    | b => cmp (m.get_id a) (m.get_id b)
termination_by sizeOf ae
decreasing_by
  have := sizeOf_strip_not_le ae
  rw [h] at this
  simp at this
  omega

/-- The argument loop of `cmp_expr` (called with the decremented depth), followed by the code
after the loop; `neg_comparison` is the running `unsigned`, `ia` and `ib` the identity numbers
of the two applications. -/
def cmp_args (m : ast_manager) (as bs : List expr) (depth : Int) (neg_comparison : Nat)
    (ia ib : Nat) : Int :=
  match as, bs with
  | arg_a :: as, arg_b :: bs =>
    -- we normalize away negations
    let a_is_neg := (strip_not arg_a).1
    let b_is_neg := (strip_not arg_b).1
    let neg_comparison :=
      if neg_comparison = 0 ∧ a_is_neg ≠ b_is_neg then
        (if a_is_neg then 2 ^ 32 - 1 else 1)
      else neg_comparison
    let res := cmp_expr m (strip_not arg_a).2 (strip_not arg_b).2 depth
    if res ≠ 0 then res else cmp_args m as bs depth neg_comparison ia ib
  | _, _ =>
    if neg_comparison ≠ 0 then unsigned_to_int neg_comparison
    else cmp ia ib
termination_by sizeOf as
decreasing_by
  · have := sizeOf_strip_not_le arg_a
    simp
    omega
  · simp
end

/-- Source `expr_cmp::operator()`: the strict order handed to `std::sort`. -/
def expr_cmp (m : ast_manager) (ae be : expr) : Bool :=
  cmp_expr m ae be 4 == -1

/-! ## The connective normalizer `normalizer_cfg` -/

/-- Insertion of one element into a sorted list, before the first element that is not
smaller. -/
def ordered_insert (lt : expr → expr → Bool) (x : expr) : List expr → List expr
  | [] => [x]
  | y :: ys => if lt y x then y :: ordered_insert lt x ys else x :: y :: ys

/-- Modelled from the spec: `std::sort(first, last, comp)` (the standard library is not part of
the sources): the arguments sorted with the comparator. -/
def std_sort (lt : expr → expr → Bool) : List expr → List expr
  | [] => []
  | x :: xs => ordered_insert lt x (std_sort lt xs)

/-- The statement `if (write_idx!=read_idx) { v[write_idx] = e; }`. -/
def write_back (v : List expr) (write_idx read_idx : Nat) (e : expr) : List expr :=
  if write_idx ≠ read_idx then v.set write_idx e else v

@[simp] theorem length_write_back (v : List expr) (write_idx read_idx : Nat) (e : expr) :
    (write_back v write_idx read_idx e).length = v.length := by
  unfold write_back; split <;> simp

/-- The loop of `remove_duplicates`: `a` is the last kept term, `read_idx` and `write_idx`
the two cursors into the vector `v`; at the end the vector is shrunk to `write_idx`. -/
def remove_duplicates_loop (v : List expr) (a : expr) (read_idx write_idx : Nat) : List expr :=
  if h : read_idx < v.length then
    if a = v[read_idx] then
      remove_duplicates_loop v a (read_idx + 1) write_idx
    else
      let a := v[read_idx]
      remove_duplicates_loop (write_back v write_idx read_idx a) a (read_idx + 1) (write_idx + 1)
  else
    v.take write_idx
termination_by v.length - read_idx
decreasing_by
  · omega
  · simp; omega

/-- Source `normalizer_cfg::remove_duplicates(v)`.  The source reads `v[0]` first, so it is only
called on a non-empty vector (`reduce_app` has at least two arguments). -/
def remove_duplicates (v : List expr) : List expr :=
  match v with
  | [] => []
  | a :: _ => remove_duplicates_loop v a 1 1

abbrev arg_pair := expr × expr

/-- Source `normalizer_cfg::match_arg_pair(e, pair, seek_conjunction)`. -/
def match_arg_pair (e : expr) (seek_conjunction : Bool) : Option arg_pair :=
  if seek_conjunction then match_binary .and_decl e
  else match_binary .or_decl e

/-- The effect of `m.is_not(e, out)` on an output variable that keeps its old value when the
term is not a negation. -/
def is_not_out (e : expr) (out : Option expr) : Bool × Option expr :=
  match is_not_arg e with
  | some x => (true, some x)
  | none => (false, out)

/-- Source `normalizer_cfg::detect_equivalence(p1, p2, inside_disjunction)`; `none` is the null
result.  If `inside_disjunction` is false, we are inside a conjunction and the argument pairs
represent disjunctions. -/
def detect_equivalence (p1 p2 : arg_pair) (inside_disjunction : Bool) : Option expr :=
  if is_not p1.1 = is_not p2.1 then none else
  if is_not p1.2 = is_not p2.2 then none else
  let first_bare : Option expr := none
  let r1 := is_not_out p1.1 first_bare
  if r1.1 ∧ some p2.1 ≠ r1.2 then none else
  let r2 := is_not_out p2.1 r1.2
  if r2.1 ∧ some p1.1 ≠ r2.2 then none else
  let second_bare : Option expr := none
  let r3 := is_not_out p1.2 second_bare
  if r3.1 ∧ some p2.2 ≠ r3.2 then none else
  let r4 := is_not_out p2.2 r3.2
  if r4.1 ∧ some p1.2 ≠ r4.2 then none else
  match r2.2, r4.2 with
  | some first_bare, some second_bare =>
    if !is_bool first_bare || !is_bool second_bare then none else
    -- both negations are in the same pair
    let negs_together := (is_not p1.1 == is_not p1.2)
    if negs_together = inside_disjunction then
      some (mk_eq first_bare second_bare)
    else
      some (mk_eq first_bare (mk_not second_bare))
  | _, _ => none -- excluded by SASSERT(first_bare), SASSERT(second_bare)

/-- The loop of `detect_equivalences`; returns the vector at the end of the loop together
with the final `read_idx` and `write_idx`. -/
def detect_equivalences_loop (inside_disjunction : Bool) (v : List expr) (have_pair : Bool)
    (prev_pair_idx : Nat) (ap : arg_pair) (read_idx write_idx : Nat) :
    List expr × Nat × Nat :=
  if h : read_idx < v.length then
    let e := v[read_idx]
    match match_arg_pair e inside_disjunction with
    | some new_ap =>
      let neq := if have_pair then detect_equivalence ap new_ap inside_disjunction else none
      match neq with
      | some neq =>
        detect_equivalences_loop inside_disjunction (v.set prev_pair_idx neq) false
          prev_pair_idx ap (read_idx + 1) write_idx
      | none =>
        detect_equivalences_loop inside_disjunction (write_back v write_idx read_idx e) true
          write_idx new_ap
          (read_idx + 1) (write_idx + 1)
    | none =>
      detect_equivalences_loop inside_disjunction (write_back v write_idx read_idx e) false
        prev_pair_idx ap
        (read_idx + 1) (write_idx + 1)
  else
    (v, read_idx, write_idx)
termination_by v.length - read_idx
decreasing_by
  · simp; omega
  · simp; omega
  · simp; omega

/-- Source `normalizer_cfg::detect_equivalences(v, inside_disjunction)`: the shrunk vector and the
returned flag.  `prev_pair_idx` and `ap` are uninitialised in the source while `have_pair` is
false; they are not read then. -/
def detect_equivalences (v : List expr) (inside_disjunction : Bool) : List expr × Bool :=
  let r := detect_equivalences_loop inside_disjunction v false 0 (mk_true, mk_true) 0 0
  (r.1.take r.2.2, r.2.1 != r.2.2)

/-- Result codes of a rewriter configuration. -/
inductive br_status where
  | BR_DONE | BR_REWRITE1 | BR_REWRITE2 | BR_FAILED
  deriving DecidableEq, Repr

/-- The collaborators of `normalizer_cfg` that are not part of the sources: the identity
numbers of the term manager, the builders `mk_and` / `mk_or` of the boolean rewriter
`m_brwr`, and `push_toplevel_junction_negation_inside` (`none` when it answers false). -/
structure normalizer_cfg where
  m : ast_manager
  brwr_mk_and : List expr → expr
  brwr_mk_or : List expr → expr
  push_toplevel_junction_negation_inside : expr → Option expr

/-- Source `normalizer_cfg::reduce_app(f, num, args, result, result_pr)`: the status and, unless the
status is `BR_FAILED`, the result. -/
def normalizer_cfg.reduce_app (cfg : normalizer_cfg) (f : func_decl) (args : List expr) :
    br_status × Option expr :=
  let pushed : Option expr :=
    if f = .not_decl then
      match args with
      | arg0 :: _ =>
        if is_and arg0 || is_or arg0 then
          cfg.push_toplevel_junction_negation_inside (mk_not arg0)
        else none
      | [] => none
    else none
  match pushed with
  | some e => (.BR_REWRITE2, some e)
  | none =>
    if f ≠ .and_decl ∧ f ≠ .or_decl then (.BR_FAILED, none) else
    if args.length < 2 then (.BR_FAILED, none) else
    let m_app_args := std_sort (expr_cmp cfg.m) args
    let m_app_args := remove_duplicates m_app_args
    let de := detect_equivalences m_app_args (f == .or_decl)
    let m_app_args := de.1
    let have_rewritten_args := de.2
    let result :=
      match m_app_args with
      | [e] => e
      | _ => if f = .and_decl then cfg.brwr_mk_and m_app_args else cfg.brwr_mk_or m_app_args
    if have_rewritten_args then (.BR_REWRITE1, some result) else (.BR_DONE, some result)

/-! ## Rules and the per-rule substitution -/

instance : Inhabited expr := ⟨mk_true⟩

/-- Modelled from the spec: a rule (`dl_rule.h` is not part of the sources): a head atom and an
ordered sequence of body literals with their polarities (`true` is negated), of which the
first `uninterp_cnt` are the relational prefix and the rest the constraint suffix.  `obj` is
the identity of the rule object (the pointer compared by the rule-set driver). -/
structure rule where
  obj : Nat
  head : expr
  tail : List (expr × Bool)
  uninterp_cnt : Nat

def rule.get_tail_size (r : rule) : Nat := r.tail.length
def rule.get_uninterpreted_tail_size (r : rule) : Nat := r.uninterp_cnt
def rule.get_tail (r : rule) (i : Nat) : expr := (r.tail.getD i default).1
def rule.is_neg_tail (r : rule) (i : Nat) : Bool := (r.tail.getD i default).2

mutual
/-- The term contains a quantifier. -/
def contains_quantifier : expr → Bool
  | .var _ _ => false
  | .app _ args => contains_quantifier_list args
  | .quantifier _ _ _ => true

/-- One of the terms contains a quantifier. -/
def contains_quantifier_list : List expr → Bool
  | [] => false
  | x :: xs => contains_quantifier x || contains_quantifier_list xs
end

/-- Modelled from the spec: `rule::has_quantifiers()`, the flag for presence of quantifiers. -/
def rule.has_quantifiers (r : rule) : Bool :=
  r.tail.any (fun l => contains_quantifier l.1)

mutual
/-- The largest variable index in a term (0 when there is none). -/
def max_var : expr → Nat
  | .var idx _ => idx
  | .app _ args => max_var_list args
  | .quantifier _ _ body => max_var body

/-- The largest variable index in a list of terms. -/
def max_var_list : List expr → Nat
  | [] => 0
  | x :: xs => max (max_var x) (max_var_list xs)
end

/-- Modelled from the spec: `rule_counter::get_max_rule_var`, the rule's maximum variable
index. -/
def get_max_rule_var (r : rule) : Nat :=
  max (max_var r.head) (max_var_list (r.tail.map Prod.fst))

/-- Modelled from the spec: `ast_manager::is_value`, the term is a value constant. -/
def is_value : expr → Bool
  | .app (.num_decl _) [] => true
  | .app .true_decl [] => true
  | .app .false_decl [] => true
  | _ => false

/-- Source `IS_FLEX(_x)`. -/
def IS_FLEX (x : expr) : Bool := is_var x || is_value x

/-- Modelled from the spec: `arith_util::mk_sub`. -/
def mk_sub (a b : expr) : expr := .app .sub_decl [a, b]

/-- Modelled from the spec: `mk_rule_inliner::remove_duplicate_tails`: removes duplicate body
literals (with polarity), preserving the order of first occurrence. -/
def remove_duplicate_tails : List (expr × Bool) → List (expr × Bool)
  | [] => []
  | l :: ls => l :: (remove_duplicate_tails ls).filter (fun l2 => decide (l2 ≠ l))

/-- The simplifier object with its collaborators that are not part of the sources; `σ` is
the type of the substitution `m_subst`. -/
structure mk_interp_tail_simplifier (σ : Type) where
  /-- the term manager `m` -/
  m : ast_manager
  /-- Source `m_context.is_predicate`: the symbol is a user-defined predicate -/
  is_predicate : func_decl → Bool
  /-- the local simplifier `m_simp` -/
  m_simp : expr → expr
  /-- the rewriting engine `rewriter_tpl<Cfg>`, given the `reduce_app` of its configuration -/
  rewriter_tpl : (func_decl → List expr → br_status × Option expr) → expr → expr
  /-- Source `bool_rewriter::mk_and` -/
  brwr_mk_and : List expr → expr
  /-- Source `bool_rewriter::mk_or` -/
  brwr_mk_or : List expr → expr
  /-- Source `push_toplevel_junction_negation_inside` -/
  push_toplevel_junction_negation_inside : expr → Option expr
  /-- Source `substitution::reset` -/
  subst_reset : σ → σ
  /-- Source `substitution::reserve` -/
  subst_reserve : σ → Nat → Nat → σ
  /-- Source `substitution::apply` -/
  subst_apply : σ → expr → expr
  /-- Source `substitution::reset_cache` -/
  subst_reset_cache : σ → σ
  /-- the two-term unifier `m_unif(e1, e2, subst, false)` -/
  m_unif : expr → expr → σ → Bool × σ
  /-- Source `rule::norm_vars`, as a renumbering of the head and of the body literals -/
  norm_vars : expr → List (expr × Bool) → expr × List (expr × Bool)

/-- The mutable state: the substitution and the rule of `m_rule_subst`, and the identity that
the rule manager gives to the next rule object it creates. -/
structure simplifier_state (σ : Type) where
  m_subst : σ
  m_rule : Option rule
  next_obj : Nat

variable {σ : Type}

/-- The configuration of the connective normalizer used by the simplifier. -/
def mk_interp_tail_simplifier.r_cfg (s : mk_interp_tail_simplifier σ) : normalizer_cfg :=
  ⟨s.m, s.brwr_mk_and, s.brwr_mk_or, s.push_toplevel_junction_negation_inside⟩

/-- The literal is relational: an application of a user-defined predicate. -/
def is_relational (is_predicate : func_decl → Bool) (l : expr × Bool) : Bool :=
  match l.1 with
  | .app f _ => is_predicate f
  | _ => false

/-- Modelled from the spec: `rule_manager::mk(head, n, tail, is_neg)`: constructs a new rule
object (of identity `obj`) from a head and an ordered literal list with polarities; the
literals over user-defined predicates form the relational prefix, the others the constraint
suffix. -/
def rule_manager.mk (is_predicate : func_decl → Bool) (obj : Nat)
    (head : expr) (tail : List (expr × Bool)) : rule :=
  let uninterp := tail.filter (is_relational is_predicate)
  let interp := tail.filter (fun l => !is_relational is_predicate l)
  { obj := obj, head := head, tail := uninterp ++ interp, uninterp_cnt := uninterp.length }

/-- The call `m_context.get_rule_manager().mk(head, n, tail, is_neg)`: the new rule object and
the state in which its identity is used up. -/
def mk_interp_tail_simplifier.mk_rule (s : mk_interp_tail_simplifier σ)
    (st : simplifier_state σ) (head : expr) (tail : List (expr × Bool)) :
    rule × simplifier_state σ :=
  (rule_manager.mk s.is_predicate st.next_obj head tail,
   { st with next_obj := st.next_obj + 1 })

/-- Source `rule_substitution::reset(r)`. -/
def mk_interp_tail_simplifier.reset (s : mk_interp_tail_simplifier σ)
    (st : simplifier_state σ) (r : rule) : simplifier_state σ :=
  let var_cnt := get_max_rule_var r + 1
  let subst := s.subst_reset st.m_subst
  let subst := s.subst_reserve subst 1 var_cnt
  { st with m_subst := subst, m_rule := some r }

/-- Source `rule_substitution::unify(e1, e2)`. -/
def mk_interp_tail_simplifier.unify (s : mk_interp_tail_simplifier σ)
    (st : simplifier_state σ) (e1 e2 : expr) : Bool × simplifier_state σ :=
  -- we need to apply the current substitution in order to ensure the unifier
  -- works in an incremental way
  let e1_s := s.subst_apply st.m_subst e1
  let e2_s := s.subst_apply st.m_subst e2
  -- and we need to reset the cache as we're going to modify the substitution
  let subst := s.subst_reset_cache st.m_subst
  let r := s.m_unif e1_s e2_s subst
  (r.1, { st with m_subst := r.2 })

/-- Source `rule_substitution::apply(a, res)`. -/
def mk_interp_tail_simplifier.apply (s : mk_interp_tail_simplifier σ)
    (st : simplifier_state σ) (a : expr) : expr :=
  s.subst_apply st.m_subst a

/-- Source `rule_substitution::get_result(res)` for the rule `m_rule` given by `reset`. -/
def mk_interp_tail_simplifier.get_result (s : mk_interp_tail_simplifier σ)
    (st : simplifier_state σ) (m_rule : rule) : rule × simplifier_state σ :=
  let new_head := s.apply st m_rule.head
  let tail := m_rule.tail.map (fun l => (s.apply st l.1, l.2))
  let tail := remove_duplicate_tails tail
  let r := s.mk_rule st new_head tail
  let res := r.1
  let nv := s.norm_vars res.head res.tail
  ({ res with head := nv.1, tail := nv.2 }, r.2)

/-- Source `mk_interp_tail_simplifier::simplify_expr(a, res)`. -/
def mk_interp_tail_simplifier.simplify_expr (s : mk_interp_tail_simplifier σ) (a : expr) :
    expr :=
  let simp1_res := s.m_simp a
  let res := s.rewriter_tpl s.r_cfg.reduce_app simp1_res
  s.m_simp res

/-! ## The variable equivalence propagator -/

/-- The loop `while (m.is_not(arg, arg)) neg = !neg;`. -/
def strip_nots : expr → Bool → expr × Bool
  | .app .not_decl [x], neg => strip_nots x (!neg)
  | e, neg => (e, neg)

/-- Modelled from the spec: `ast_manager::is_eq(t, arg1, arg2)`, the term is an equality of
two arguments, which are returned. -/
def is_eq_args : expr → Option (expr × expr)
  | .app (.eq_decl _) [a1, a2] => some (a1, a2)
  | _ => none

/-- The condition `!neg && m.is_eq(t, arg1, arg2) && IS_FLEX(arg1) && IS_FLEX(arg2)` with the
values of `(arg1, arg2)` when it holds. -/
def match_flex_eq (neg : Bool) (t : expr) : Option (expr × expr) :=
  if neg then none else
  match is_eq_args t with
  | some (arg1, arg2) => if IS_FLEX arg1 && IS_FLEX arg2 then some (arg1, arg2) else none
  | none => none

/-- The condition `!neg && (a.is_le(t, arg1, arg2) || a.is_ge(t, arg2, arg1))` with the values
it leaves in `(arg1, arg2)`. -/
def match_le_ge (neg : Bool) (t : expr) : Option (expr × expr) :=
  if neg then none else
  match match_binary .le_decl t with
  | some (a1, a2) => some (a1, a2)
  | none =>
    match match_binary .ge_decl t with
    | some (a2, a1) => some (a1, a2)
    | none => none

/-- The local variables of `propagate_variable_equivalences` that the loop updates. -/
structure propagate_state (σ : Type) where
  st : simplifier_state σ
  found_something : Bool
  leqs : List expr
  trail : List expr

/-- Source `TRY_UNIFY(_x, _y)`. -/
def mk_interp_tail_simplifier.TRY_UNIFY (s : mk_interp_tail_simplifier σ)
    (ps : propagate_state σ) (x y : expr) : propagate_state σ :=
  let r := s.unify ps.st x y
  { ps with st := r.2, found_something := if r.1 then true else ps.found_something }

mutual
/-- The number of nodes of a term. -/
def expr.size : expr → Nat
  | .var _ _ => 1
  | .app _ args => 1 + todo_size args
  | .quantifier _ _ body => 1 + body.size

/-- The measure under which the work-list loop terminates: the number of nodes of the terms
on the work-list, plus one for each of them. -/
def todo_size : List expr → Nat
  | [] => 0
  | e :: todo => e.size + 1 + todo_size todo
end

theorem todo_size_append (l1 l2 : List expr) :
    todo_size (l1 ++ l2) = todo_size l1 + todo_size l2 := by
  induction l1 with
  | nil => simp [todo_size]
  | cons x xs ih => simp [todo_size, ih]; omega

theorem todo_size_reverse (l : List expr) : todo_size l.reverse = todo_size l := by
  induction l with
  | nil => rfl
  | cons x xs ih => simp [todo_size_append, todo_size, ih]; omega

/-- One pass of the body of `while (!todo.empty())` on the popped literal `t0`: the literals
appended to the work-list (in the order of `todo.append`) and the new state. -/
def mk_interp_tail_simplifier.propagate_step (s : mk_interp_tail_simplifier σ)
    (ps : propagate_state σ) (t0 : expr) : List expr × propagate_state σ :=
  let neg := (strip_not t0).1
  let t := (strip_not t0).2
  if is_var t then
    ([], s.TRY_UNIFY ps t (if neg then mk_false else mk_true))
  else if !neg && is_and t then
    (get_args t, ps)
  else
    match match_flex_eq neg t with
    | some (arg1, arg2) => ([], s.TRY_UNIFY ps arg1 arg2)
    | none =>
      match match_binary .iff_decl t with
      | some (arg1, arg2) =>
        -- determine the polarity of the equivalence and remove the negations
        let r1 := strip_nots arg1 neg
        let r2 := strip_nots arg2 r1.2
        let neg := r2.2
        let arg1 := if !is_var r1.1 then r2.1 else r1.1
        let arg2 := if !is_var r1.1 then r1.1 else r2.1
        if !IS_FLEX arg1 || !IS_FLEX arg2 then
          ([], ps)
        else if is_var arg1 && !neg then
          ([], s.TRY_UNIFY ps arg1 arg2)
        else if is_var arg1 && neg && is_true arg2 then
          ([], s.TRY_UNIFY ps arg1 mk_false)
        else if is_var arg1 && neg && is_false arg2 then
          ([], s.TRY_UNIFY ps arg1 mk_true)
        else ([], ps)
      | none =>
        match match_le_ge neg t with
        | some (arg1, arg2) =>
          let tmp1 := mk_sub arg1 arg2
          let tmp2 := mk_sub arg2 arg1
          if false && ps.leqs.contains tmp2 && IS_FLEX arg1 && IS_FLEX arg2 then
            ([], s.TRY_UNIFY ps arg1 arg2)
          else
            ([], { ps with trail := ps.trail ++ [tmp1], leqs := tmp1 :: ps.leqs })
        | none => ([], ps)

theorem propagate_step_size (s : mk_interp_tail_simplifier σ) (ps : propagate_state σ)
    (t0 : expr) : todo_size (s.propagate_step ps t0).1 < t0.size + 1 := by
  unfold mk_interp_tail_simplifier.propagate_step
  simp only
  split
  · simp [todo_size]
  · split
    · next h1 h2 =>
      have h3 : (strip_not t0).2 = t0 := by
        revert h2; unfold strip_not; split <;> simp
      rw [h3]
      cases t0 with
      | app f args => simp [get_args, expr.size]; omega
      | var _ _ => simp [get_args, todo_size]
      | quantifier _ _ _ => simp [get_args, todo_size]
    · split
      · simp [todo_size]
      · split
        · split_ifs <;> simp [todo_size]
        · split
          · split_ifs <;> simp [todo_size]
          · simp [todo_size]

/-- The loop `while (!todo.empty())`; the head of the list is `todo.back()`. -/
def mk_interp_tail_simplifier.propagate_loop (s : mk_interp_tail_simplifier σ)
    (todo : List expr) (ps : propagate_state σ) : propagate_state σ :=
  match todo with
  | [] => ps
  | t0 :: rest =>
    let r := s.propagate_step ps t0
    s.propagate_loop (r.1.reverse ++ rest) r.2
termination_by todo_size todo
decreasing_by
  have := propagate_step_size s ps y
  rw [todo_size_append, todo_size_reverse]
  simp [todo_size] at this ⊢
  omega

/-- Source `mk_interp_tail_simplifier::propagate_variable_equivalences(r, res)`: `none` is the result
false, `some res` the result true with the rule stored in `res`. -/
def mk_interp_tail_simplifier.propagate_variable_equivalences
    (s : mk_interp_tail_simplifier σ) (st : simplifier_state σ) (r : rule) :
    Option rule × simplifier_state σ :=
  let u_len := r.get_uninterpreted_tail_size
  let len := r.get_tail_size
  if u_len = len then (none, st) else
  let todo := ((r.tail.drop u_len).map Prod.fst).reverse
  let st := s.reset st r
  let ps := s.propagate_loop todo ⟨st, false, [], []⟩
  if !ps.found_something then (none, ps.st) else
  let res := s.get_result ps.st r
  (some res.1, res.2)

/-! ## The rule and rule-set transformer -/

/-- What a call of `transform_rule` does: it returns true with the rule `res`, it returns
false, or it throws `default_exception`. -/
inductive transform_result where
  | keep (res : rule) : transform_result
  | drop : transform_result
  | exception (msg : String) : transform_result

/-- The term that `transform_rule` hands to `simplify_expr`: the only interpreted tail, or
the conjunction of the interpreted tails. -/
def rule.interpreted_tail (r : rule) : expr :=
  let u_len := r.get_uninterpreted_tail_size
  let len := r.get_tail_size
  if u_len + 1 = len then r.get_tail u_len
  else mk_and ((r.tail.drop u_len).map Prod.fst)

/-- The body of `transform_rule` from the label `start` on, for the working rule `r`; every
pass through `start` uses one unit of `fuel`, and `none` means that the fuel did not
suffice. -/
def mk_interp_tail_simplifier.transform_rule_from_start (s : mk_interp_tail_simplifier σ) :
    Nat → simplifier_state σ → rule → Option (transform_result × simplifier_state σ)
  | 0, _, _ => none
  | fuel + 1, st, r =>
    let u_len := r.get_uninterpreted_tail_size
    let len := r.get_tail_size
    if u_len = len then some (.keep r, st) else
    let head := r.head
    let tail := r.tail.take u_len
    let modified := false
    -- we have only one interpreted tail, or we conjoin the interpreted tails
    let itail := r.interpreted_tail
    let modified := if u_len + 1 = len then modified else true
    let simp_res := s.simplify_expr itail
    let modified := modified || (itail != simp_res)
    if !is_app simp_res && !is_bool simp_res then
      some (.exception "simplification resulted in non-boolean non-function", st)
    else
    let itail := if is_app simp_res then simp_res else mk_eq simp_res mk_true
    if is_false itail then
      -- the tail member is never true, so we may delete the rule
      some (.drop, st)
    else
    -- if the simplified tail is not a tautology, we add it to the rule
    let tail := if !is_true itail then tail ++ [(itail, false)] else tail
    let modified := if !is_true itail then modified else true
    let res := if modified then s.mk_rule st head tail else (r, st)
    let pro_var_eq_result := s.propagate_variable_equivalences res.2 res.1
    match pro_var_eq_result.1 with
    | some r1 => s.transform_rule_from_start fuel pro_var_eq_result.2 r1
    | none => some (.keep res.1, pro_var_eq_result.2)

/-- Source `mk_interp_tail_simplifier::transform_rule(r0, res)`. -/
def mk_interp_tail_simplifier.transform_rule (s : mk_interp_tail_simplifier σ)
    (fuel : Nat) (st : simplifier_state σ) (r0 : rule) :
    Option (transform_result × simplifier_state σ) :=
  if r0.has_quantifiers then some (.keep r0, st)
  else s.transform_rule_from_start fuel st r0

/-- What a call of `transform_rules` does: it returns the flag `modified` with the rules added
to `tgt`, or an exception of `transform_rule` passes through it. -/
inductive transform_rules_result where
  | returned (modified : Bool) (tgt : List rule) : transform_rules_result
  | exception (msg : String) : transform_rules_result

/-- The loop of `transform_rules` over the rules of `orig` that remain, with the current
`modified` and `tgt`. -/
def mk_interp_tail_simplifier.transform_rules_loop (s : mk_interp_tail_simplifier σ)
    (fuel : Nat) : List rule → simplifier_state σ → Bool → List rule →
    Option (transform_rules_result × simplifier_state σ)
  | [], st, modified, tgt => some (.returned modified tgt, st)
  | rit :: rest, st, modified, tgt =>
    match s.transform_rule fuel st rit with
    | none => none
    | some (.exception msg, st1) => some (.exception msg, st1)
    | some (.keep new_rule, st1) =>
      let is_modified := rit.obj != new_rule.obj
      s.transform_rules_loop fuel rest st1 (modified || is_modified) (tgt ++ [new_rule])
    | some (.drop, st1) =>
      s.transform_rules_loop fuel rest st1 true tgt

/-- Source `mk_interp_tail_simplifier::transform_rules(orig, tgt)` for an empty `tgt`. -/
def mk_interp_tail_simplifier.transform_rules (s : mk_interp_tail_simplifier σ)
    (fuel : Nat) (st : simplifier_state σ) (orig : List rule) :
    Option (transform_rules_result × simplifier_state σ) :=
  s.transform_rules_loop fuel orig st false []

/-- Source `mk_interp_tail_simplifier::operator()(source, mc, pc)`: the returned rule set (`none` is
the null pointer), or the exception. -/
def mk_interp_tail_simplifier.run (s : mk_interp_tail_simplifier σ)
    (fuel : Nat) (st : simplifier_state σ) (source : List rule) :
    Option (Except String (Option (List rule)) × simplifier_state σ) :=
  if source.length = 0 then some (.ok none, st) else
  match s.transform_rules fuel st source with
  | none => none
  | some (.exception msg, st1) => some (.error msg, st1)
  | some (.returned modified res, st1) =>
    if !modified then some (.ok none, st1) else some (.ok (some res), st1)

/-! ## Auxiliary definitions for the proofs -/

/-- The part of `cmp_expr` after the negations are removed and the stripped terms are known
to differ. -/
def cmp_core (m : ast_manager) (a b : expr) (depth : Int) : Int :=
  match a, b with
  | .app fa as, .app fb bs =>
    if fa ≠ fb then cmp (m.get_decl_id fa) (m.get_decl_id fb)
    else if as.length ≠ bs.length then cmp as.length bs.length
    else if depth = 0 then cmp (m.get_id (.app fa as)) (m.get_id (.app fb bs))
    else cmp_args m as bs (depth - 1) 0 (m.get_id (.app fa as)) (m.get_id (.app fb bs))
  | .app _ _, .var _ _ => 1
  | .app _ _, .quantifier _ _ _ => 1
  | .var _ _, .app _ _ => -1
  | .quantifier _ _ _, .app _ _ => -1
  | a, b => cmp (m.get_id a) (m.get_id b)

/-- The first non-zero comparison of corresponding terms of two lists, 0 when there is
none. -/
def lex_cmp (m : ast_manager) (depth : Int) : List expr → List expr → Int
  | x :: xs, y :: ys =>
    if cmp_expr m x y depth ≠ 0 then cmp_expr m x y depth else lex_cmp m depth xs ys
  | _, _ => 0

/-- The sign that the first differing pair of negation flags gives to `neg_comparison`,
0 when the flags agree. -/
def lex_neg : List Bool → List Bool → Int
  | x :: xs, y :: ys => if x ≠ y then (if x then -1 else 1) else lex_neg xs ys
  | _, _ => 0

/-- The effect of the loop of `remove_duplicates` on the terms not yet read, `a` being the last
kept term: a term equal to the last kept one is skipped. -/
def remove_adjacent (a : expr) : List expr → List expr
  | [] => []
  | x :: xs => if a = x then remove_adjacent a xs else x :: remove_adjacent x xs

/-- The meaning of a boolean connective on the truth values of its arguments; `atom` is the
value of the whole term when its symbol is not a connective.  `EQ` on booleans is read as
"if and only if". -/
def interp (f : func_decl) (vals : List Bool) (atom : Bool) : Bool :=
  match f, vals with
  | .not_decl, [x] => !x
  | .and_decl, l => l.all id
  | .or_decl, l => l.any id
  | .eq_decl .bool, [a, b] => a == b
  | .iff_decl, [a, b] => a == b
  | .true_decl, [] => true
  | .false_decl, [] => false
  | _, _ => atom

mutual
/-- The truth value of a term under a valuation `v` of the atoms (the terms that are not
built by a boolean connective). -/
def eval (v : expr → Bool) : expr → Bool
  | .app f args => interp f (eval_list v args) (v (.app f args))
  | e => v e

/-- The truth values of a list of terms. -/
def eval_list (v : expr → Bool) : List expr → List Bool
  | [] => []
  | x :: xs => eval v x :: eval_list v xs
end

/-- A numbering of the sorts. -/
def sort.code : sort → Nat
  | .bool => 0
  | .other n => n + 1

/-- A numbering of the symbols. -/
def func_decl.code : func_decl → Nat
  | .true_decl => 0
  | .false_decl => 1
  | .and_decl => 2
  | .or_decl => 3
  | .not_decl => 4
  | .iff_decl => 5
  | .le_decl => 6
  | .ge_decl => 7
  | .sub_decl => 8
  | .eq_decl s => 9 + 3 * s.code
  | .num_decl v => 10 + 3 * Encodable.encode v
  | .uninterp n r => 11 + 3 * Nat.pair n r.code

mutual
/-- A numbering of the terms. -/
def expr.code : expr → Nat
  | .var i s => 3 * Nat.pair i s.code
  | .app f args => 3 * Nat.pair f.code (code_list args) + 1
  | .quantifier b n body => 3 * Nat.pair (Nat.pair (if b then 1 else 0) n) body.code + 2

/-- A numbering of the lists of terms. -/
def code_list : List expr → Nat
  | [] => 0
  | x :: xs => Nat.pair x.code (code_list xs) + 1
end

/-- A term manager that hands out the numbers above as identity numbers. -/
def code_manager : ast_manager := ⟨expr.code, func_decl.code⟩

/-- A simplifier object whose collaborators do nothing: the local simplifier and the
rewriting engine return their argument, the substitution is empty and stays empty, and the
unifier succeeds on identical terms only.  The user-defined predicates are the uninterpreted
symbols of boolean sort. -/
def idle_simplifier : mk_interp_tail_simplifier Unit where
  m := code_manager
  is_predicate := fun f => match f with
    | .uninterp _ .bool => true
    | _ => false
  m_simp := fun e => e
  rewriter_tpl := fun _ e => e
  brwr_mk_and := mk_and
  brwr_mk_or := mk_or
  push_toplevel_junction_negation_inside := fun _ => none
  subst_reset := fun u => u
  subst_reserve := fun u _ _ => u
  subst_apply := fun _ e => e
  subst_reset_cache := fun u => u
  m_unif := fun e1 e2 u => (decide (e1 = e2), u)
  norm_vars := fun h t => (h, t)

/-- A rule `H(x0) :- A(x0), false` without quantifiers. -/
def sample_rule_false : rule where
  obj := 0
  head := .app (.uninterp 0 .bool) [.var 0 (.other 0)]
  tail := [(.app (.uninterp 1 .bool) [.var 0 (.other 0)], false), (mk_false, false)]
  uninterp_cnt := 1

/-- A rule `H(x0) :- A(x0), not B(x0), true` without quantifiers. -/
def sample_rule_true : rule where
  obj := 0
  head := .app (.uninterp 0 .bool) [.var 0 (.other 0)]
  tail := [(.app (.uninterp 1 .bool) [.var 0 (.other 0)], false),
    (.app (.uninterp 2 .bool) [.var 0 (.other 0)], true), (mk_true, false)]
  uninterp_cnt := 2

/-- What one pass of the body of `transform_rule` from `start` does: it jumps back to `start`
with a new working rule, or it leaves the function. -/
inductive pass_result (σ : Type) where
  | restart (st : simplifier_state σ) (r : rule) : pass_result σ
  | finished (res : transform_result) (st : simplifier_state σ) : pass_result σ

/-- One pass of the body of `transform_rule` from the label `start` to the `goto start` or to
a `return` or `throw`, for the working rule `r`. -/
def mk_interp_tail_simplifier.pass (s : mk_interp_tail_simplifier σ)
    (st : simplifier_state σ) (r : rule) : pass_result σ :=
  let u_len := r.get_uninterpreted_tail_size
  let len := r.get_tail_size
  if u_len = len then .finished (.keep r) st else
  let head := r.head
  let tail := r.tail.take u_len
  let itail := r.interpreted_tail
  let modified := if u_len + 1 = len then false else true
  let simp_res := s.simplify_expr itail
  let modified := modified || (itail != simp_res)
  if !is_app simp_res && !is_bool simp_res then
    .finished (.exception "simplification resulted in non-boolean non-function") st
  else
  let itail := if is_app simp_res then simp_res else mk_eq simp_res mk_true
  if is_false itail then .finished .drop st else
  let tail := if !is_true itail then tail ++ [(itail, false)] else tail
  let modified := if !is_true itail then modified else true
  let res := if modified then s.mk_rule st head tail else (r, st)
  let pro_var_eq_result := s.propagate_variable_equivalences res.2 res.1
  match pro_var_eq_result.1 with
  | some r1 => .restart pro_var_eq_result.2 r1
  | none => .finished (.keep res.1) pro_var_eq_result.2

/-- The working rule (and the state) with which `transform_rule` passes through `start` for
the `k`-th time, counted from 0; `none` when it has left the function before. -/
def mk_interp_tail_simplifier.working_rule (s : mk_interp_tail_simplifier σ)
    (st : simplifier_state σ) (r : rule) : Nat → Option (simplifier_state σ × rule)
  | 0 => some (st, r)
  | k + 1 =>
    match s.working_rule st r k with
    | some (st1, r1) =>
      match s.pass st1 r1 with
      | .restart st2 r2 => some (st2, r2)
      | .finished _ _ => none
    | none => none

/-- A simplifier object like `idle_simplifier`, but whose local simplifier answers the term
`c` whatever it is given. -/
def constant_simplifier (c : expr) : mk_interp_tail_simplifier Unit :=
  { idle_simplifier with m_simp := fun _ => c }

/-- The numeral `n` of the arithmetic sort. -/
def mk_numeral (n : Int) : expr := .app (.num_decl n) []

/-- The inequality `a <= b`. -/
def mk_le (a b : expr) : expr := .app .le_decl [a, b]

/-- The inequality `a >= b`. -/
def mk_ge (a b : expr) : expr := .app .ge_decl [a, b]

/-- A rule `H(x0) :- A(x0), x0 <= 1` without quantifiers. -/
def sample_rule_le : rule where
  obj := 0
  head := .app (.uninterp 0 .bool) [.var 0 (.other 0)]
  tail := [(.app (.uninterp 1 .bool) [.var 0 (.other 0)], false),
    (mk_le (.var 0 (.other 0)) (mk_numeral 1), false)]
  uninterp_cnt := 1

/-- A rule `H(x0) :- A(x0)` without constraint suffix. -/
def sample_rule_relational : rule where
  obj := 0
  head := .app (.uninterp 0 .bool) [.var 0 (.other 0)]
  tail := [(.app (.uninterp 1 .bool) [.var 0 (.other 0)], false)]
  uninterp_cnt := 1

/-- A non-boolean variable, the only kind of term that is neither an application nor
boolean-valued. -/
def sample_arith_var : expr := .var 7 (.other 0)

/-- The successive calls `transform_rule(*rit, new_rule)` that the loop of `transform_rules`
makes when no call throws: every rule of `orig` paired with what its call did, and the state
after the last call; `none` when the fuel of a call did not suffice. -/
def mk_interp_tail_simplifier.rule_outcomes (s : mk_interp_tail_simplifier σ) (fuel : Nat) :
    List rule → simplifier_state σ →
    Option (List (rule × transform_result) × simplifier_state σ)
  | [], st => some ([], st)
  | rit :: rest, st =>
    match s.transform_rule fuel st rit with
    | none => none
    | some (res, st1) =>
      match s.rule_outcomes fuel rest st1 with
      | none => none
      | some (outs, st2) => some ((rit, res) :: outs, st2)

/-- The call threw an exception. -/
def transform_result.is_exception : transform_result → Bool
  | .exception _ => true
  | _ => false

/-- The rule that the call returned with the result true, if it did. -/
def transform_result.kept : transform_result → Option rule
  | .keep res => some res
  | _ => none

/-- The call for the rule `rit` dropped the rule, or kept a rule that is not the same object
as `rit`. -/
def outcome_changed (o : rule × transform_result) : Bool :=
  match o.2 with
  | .keep new_rule => o.1.obj != new_rule.obj
  | .drop => true
  | .exception _ => false

/-- The trace of one pass of the body of `while (!todo.empty())` on the popped literal `t0`,
with the current `leqs`: the literals appended to the work-list, the pairs `(_x, _y)` of the
`TRY_UNIFY(_x, _y)` that the pass executes, and the new `leqs`.  It has the branches of
`propagate_step`, with every `TRY_UNIFY` recorded instead of executed. -/
def propagate_step_calls (leqs : List expr) (t0 : expr) :
    List expr × List (expr × expr) × List expr :=
  let neg := (strip_not t0).1
  let t := (strip_not t0).2
  if is_var t then
    ([], [(t, if neg then mk_false else mk_true)], leqs)
  else if !neg && is_and t then
    (get_args t, [], leqs)
  else
    match match_flex_eq neg t with
    | some (arg1, arg2) => ([], [(arg1, arg2)], leqs)
    | none =>
      match match_binary .iff_decl t with
      | some (arg1, arg2) =>
        let r1 := strip_nots arg1 neg
        let r2 := strip_nots arg2 r1.2
        let neg := r2.2
        let arg1 := if !is_var r1.1 then r2.1 else r1.1
        let arg2 := if !is_var r1.1 then r1.1 else r2.1
        if !IS_FLEX arg1 || !IS_FLEX arg2 then
          ([], [], leqs)
        else if is_var arg1 && !neg then
          ([], [(arg1, arg2)], leqs)
        else if is_var arg1 && neg && is_true arg2 then
          ([], [(arg1, mk_false)], leqs)
        else if is_var arg1 && neg && is_false arg2 then
          ([], [(arg1, mk_true)], leqs)
        else ([], [], leqs)
      | none =>
        match match_le_ge neg t with
        | some (arg1, arg2) =>
          let tmp1 := mk_sub arg1 arg2
          let tmp2 := mk_sub arg2 arg1
          if false && leqs.contains tmp2 && IS_FLEX arg1 && IS_FLEX arg2 then
            ([], [(arg1, arg2)], leqs)
          else
            ([], [], tmp1 :: leqs)
        | none => ([], [], leqs)

theorem propagate_step_calls_size (leqs : List expr) (t0 : expr) :
    todo_size (propagate_step_calls leqs t0).1 < t0.size + 1 := by
  unfold propagate_step_calls
  simp only
  split
  · simp [todo_size]
  · split
    · next h1 h2 =>
      have h3 : (strip_not t0).2 = t0 := by
        revert h2; unfold strip_not; split <;> simp
      rw [h3]
      cases t0 with
      | app f args => simp [get_args, expr.size]; omega
      | var _ _ => simp [get_args, todo_size]
      | quantifier _ _ _ => simp [get_args, todo_size]
    · split
      · simp [todo_size]
      · split
        · split_ifs <;> simp [todo_size]
        · split
          · split_ifs <;> simp [todo_size]
          · simp [todo_size]

/-- The pairs that the loop `while (!todo.empty())` passes to `unify`, in the order of the
calls, for the work-list `todo` (its head is `todo.back()`) and the current `leqs`. -/
def unify_calls (todo : List expr) (leqs : List expr) : List (expr × expr) :=
  match todo with
  | [] => []
  | t0 :: rest =>
    let r := propagate_step_calls leqs t0
    r.2.1 ++ unify_calls (r.1.reverse ++ rest) r.2.2
termination_by todo_size todo
decreasing_by
  have := propagate_step_calls_size leqs y
  rw [todo_size_append, todo_size_reverse]
  simp [todo_size] at this ⊢
  omega

/-- The pairs that `propagate_variable_equivalences(r, res)` passes to `unify`. -/
def rule.propagate_calls (r : rule) : List (expr × expr) :=
  let u_len := r.get_uninterpreted_tail_size
  let len := r.get_tail_size
  if u_len = len then [] else
  unify_calls ((r.tail.drop u_len).map Prod.fst).reverse []

/-- The effect of a sequence of `TRY_UNIFY(_x, _y)` on the substitution state and on
`found_something`. -/
def mk_interp_tail_simplifier.unify_all (s : mk_interp_tail_simplifier σ) :
    List (expr × expr) → simplifier_state σ → Bool → simplifier_state σ × Bool
  | [], st, found_something => (st, found_something)
  | c :: cs, st, found_something =>
    let r := s.unify st c.1 c.2
    s.unify_all cs r.2 (if r.1 then true else found_something)

/-- A rule `H(x0, x1) :- A(x0, x1), x0 <= x1, x1 <= x0`. -/
def sample_rule_antisymmetry : rule where
  obj := 0
  head := .app (.uninterp 0 .bool) [.var 0 (.other 0), .var 1 (.other 0)]
  tail := [(.app (.uninterp 1 .bool) [.var 0 (.other 0), .var 1 (.other 0)], false),
    (mk_le (.var 0 (.other 0)) (.var 1 (.other 0)), false),
    (mk_le (.var 1 (.other 0)) (.var 0 (.other 0)), false)]
  uninterp_cnt := 1

mutual
/-- The term with every variable replaced by the term that the list `b` of bindings (variable
index, term) gives to its index, if any; no variable under a quantifier is replaced. -/
def apply_bindings (b : List (Nat × expr)) : expr → expr
  | .var idx srt =>
    match b.lookup idx with
    | some t => t
    | none => .var idx srt
  | .app f args => .app f (apply_bindings_list b args)
  | .quantifier is_forall num_decls body => .quantifier is_forall num_decls body

/-- The terms of a list with their variables replaced. -/
def apply_bindings_list (b : List (Nat × expr)) : List expr → List expr
  | [] => []
  | x :: xs => apply_bindings b x :: apply_bindings_list b xs
end

/-- A local simplifier that rewrites an equality between two identical terms to `true` and
returns every other term as it is. -/
def fold_trivial_eq : expr → expr
  | .app (.eq_decl srt) [a, b] => if a = b then mk_true else .app (.eq_decl srt) [a, b]
  | e => e

/-- A two-term unifier for flat terms: identical terms unify without a binding, a variable
unifies with a value constant or with another variable by a new binding of the variable,
and nothing else unifies. -/
def bind_flat (e1 e2 : expr) (b : List (Nat × expr)) : Bool × List (Nat × expr) :=
  if e1 = e2 then (true, b) else
  match e1, e2 with
  | .var idx _, t => if is_value t || is_var t then (true, (idx, t) :: b) else (false, b)
  | t, .var idx _ => if is_value t then (true, (idx, t) :: b) else (false, b)
  | _, _ => (false, b)

/-- A simplifier object whose substitution is a list of bindings of variables: the unifier
is `bind_flat`, the local simplifier is `fold_trivial_eq`, the rewriting engine returns its
argument and the variables of a rebuilt rule are not renumbered.  The user-defined
predicates are the uninterpreted symbols of boolean sort. -/
def binding_simplifier : mk_interp_tail_simplifier (List (Nat × expr)) where
  m := code_manager
  is_predicate := fun f => match f with
    | .uninterp _ .bool => true
    | _ => false
  m_simp := fold_trivial_eq
  rewriter_tpl := fun _ e => e
  brwr_mk_and := mk_and
  brwr_mk_or := mk_or
  push_toplevel_junction_negation_inside := fun _ => none
  subst_reset := fun _ => []
  subst_reserve := fun b _ _ => b
  subst_apply := apply_bindings
  subst_reset_cache := fun b => b
  m_unif := bind_flat
  norm_vars := fun h t => (h, t)

/-- A rule `H(x0) :- A(x0), x0 = 5`. -/
def sample_rule_eq : rule where
  obj := 0
  head := .app (.uninterp 0 .bool) [.var 0 (.other 0)]
  tail := [(.app (.uninterp 1 .bool) [.var 0 (.other 0)], false),
    (mk_eq (.var 0 (.other 0)) (mk_numeral 5), false)]
  uninterp_cnt := 1

mutual
/-- The indices of the variables of a term, one for every occurrence. -/
def vars : expr → List Nat
  | .var idx _ => [idx]
  | .app _ args => vars_list args
  | .quantifier _ _ body => vars body

/-- The indices of the variables of a list of terms. -/
def vars_list : List expr → List Nat
  | [] => []
  | x :: xs => vars x ++ vars_list xs
end

/-- The number of distinct variables of a rule. -/
def rule.var_count (r : rule) : Nat :=
  (vars r.head ++ vars_list (r.tail.map Prod.fst)).dedup.length

/-- The arguments are as many, and of the sorts, as a boolean connective, an equality or a
boolean constant requires; nothing is required of the other symbols. -/
def sorts_ok : func_decl → List expr → Bool
  | .not_decl, args => args.length == 1 && args.all is_bool
  | .and_decl, args => args.all is_bool
  | .or_decl, args => args.all is_bool
  | .iff_decl, args => args.length == 2 && args.all is_bool
  | .eq_decl s, args => args.length == 2 && args.all (fun a => get_sort a == s)
  | .true_decl, args => args.isEmpty
  | .false_decl, args => args.isEmpty
  | _, _ => true

mutual
/-- The term is well sorted, as every term of the term manager is: at every application of a
boolean connective, of an equality or of a boolean constant the arguments are `sorts_ok`. -/
def well_sorted : expr → Bool
  | .var _ _ => true
  | .app f args => sorts_ok f args && well_sorted_list args
  | .quantifier _ _ body => is_bool body && well_sorted body

/-- All terms of the list are well sorted. -/
def well_sorted_list : List expr → Bool
  | [] => true
  | x :: xs => well_sorted x && well_sorted_list xs
end

/-- The truth value of an atom under a valuation that consists of truth values `b` for the
boolean atoms and of values `val` for the terms of the other sorts: an equality between two
terms of a non-boolean sort is true exactly when both terms have the same value. -/
def atom_truth (b : expr → Bool) (val : expr → Nat) : expr → Bool
  | .app (.eq_decl (.other _)) [a1, a2] => decide (val a1 = val a2)
  | e => b e

/-- The value of a term under the valuation: its truth value when it is boolean, and what
`val` gives it otherwise. -/
def term_value (b : expr → Bool) (val : expr → Nat) (e : expr) : Bool ⊕ Nat :=
  if is_bool e then .inl (eval (atom_truth b val) e) else .inr (val e)

/-- A rule `H(x0) :- A(x0), x2, NOT x3, (x4 AND x0 = 5), (NOT x5 IFF true), (x6 IFF NOT false)`
with boolean variables `x2` to `x6`. -/
def sample_rule_dispatch : rule where
  obj := 0
  head := .app (.uninterp 0 .bool) [.var 0 (.other 0)]
  tail := [(.app (.uninterp 1 .bool) [.var 0 (.other 0)], false),
    (.var 2 .bool, false),
    (mk_not (.var 3 .bool), false),
    (mk_and [.var 4 .bool, mk_eq (.var 0 (.other 0)) (mk_numeral 5)], false),
    (.app .iff_decl [mk_not (.var 5 .bool), mk_true], false),
    (.app .iff_decl [.var 6 .bool, mk_not mk_false], false)]
  uninterp_cnt := 1

/-- A valuation of the boolean atoms: the variables of even index are true. -/
def even_vars_true : expr → Bool
  | .var idx _ => idx % 2 == 0
  | _ => false

/-- The rule is well formed: the literals of its relational prefix are literals over
user-defined predicates. -/
def rule.well_formed (is_predicate : func_decl → Bool) (r : rule) : Bool :=
  (r.tail.take r.get_uninterpreted_tail_size).all (is_relational is_predicate)

/-- The value of `itail` in `transform_rule` after the simplification, for the working
rule `r`. -/
def mk_interp_tail_simplifier.new_itail (s : mk_interp_tail_simplifier σ) (r : rule) : expr :=
  let simp_res := s.simplify_expr r.interpreted_tail
  if is_app simp_res then simp_res else mk_eq simp_res mk_true

/-- The value of `tail` in `transform_rule` at `if (modified)`, for the working rule `r`. -/
def mk_interp_tail_simplifier.new_tail (s : mk_interp_tail_simplifier σ) (r : rule) :
    List (expr × Bool) :=
  let tail := r.tail.take r.get_uninterpreted_tail_size
  if !is_true (s.new_itail r) then tail ++ [(s.new_itail r, false)] else tail

/-- The value of `modified` in `transform_rule` at `if (modified)`, for the working
rule `r`. -/
def mk_interp_tail_simplifier.is_modified (s : mk_interp_tail_simplifier σ) (r : rule) :
    Bool :=
  let modified := if r.get_uninterpreted_tail_size + 1 = r.get_tail_size then false else true
  let modified := modified || (r.interpreted_tail != s.simplify_expr r.interpreted_tail)
  if !is_true (s.new_itail r) then modified else true

/-- The value of `res` in `transform_rule` before the call of the propagator, for the
working rule `r`, and the state then. -/
def mk_interp_tail_simplifier.rebuilt (s : mk_interp_tail_simplifier σ)
    (st : simplifier_state σ) (r : rule) : rule × simplifier_state σ :=
  if s.is_modified r then s.mk_rule st r.head (s.new_tail r) else (r, st)

/-- The rule is a fixpoint of `transform_rule`: every call for it returns true (Keep) with
the rule itself. -/
def mk_interp_tail_simplifier.stable (s : mk_interp_tail_simplifier σ) (t : rule) : Prop :=
  ∀ (fuel : Nat) (st : simplifier_state σ),
    ∃ st1, s.transform_rule (fuel + 1) st t = some (.keep t, st1)

/-- The rule `H(x0) :- A(x0), x0 <= 1` as another rule object. -/
def sample_rule_le_second : rule := { sample_rule_le with obj := 10 }

/-- A segment of the scan of `detect_equivalences`, in the words of the specification: an
argument that is kept, or two adjacent candidate pairs `e1` and `e2` that one collapse
replaces by the equality literal `neq`. -/
inductive scan_segment where
  | kept (e : expr) : scan_segment
  | collapsed (e1 e2 neq : expr) : scan_segment

/-- The arguments that a segment takes from the argument list. -/
def scan_segment.input : scan_segment → List expr
  | .kept e => [e]
  | .collapsed e1 e2 _ => [e1, e2]

/-- The argument that a segment leaves in the argument list. -/
def scan_segment.output : scan_segment → expr
  | .kept e => e
  | .collapsed _ _ neq => neq

/-- The segment is a collapse. -/
def scan_segment.is_collapse : scan_segment → Bool
  | .kept _ => false
  | .collapsed _ _ _ => true

/-- The arguments that a list of segments takes from the argument list, in order. -/
def segments_input : List scan_segment → List expr
  | [] => []
  | s :: ss => s.input ++ segments_input ss

/-- The equality literal by which two adjacent arguments are replaced: both are candidate
pairs (`match_arg_pair`) and `detect_equivalence` answers for them. -/
def collapse_pair (inside_disjunction : Bool) (e1 e2 : expr) : Option expr :=
  match match_arg_pair e1 inside_disjunction, match_arg_pair e2 inside_disjunction with
  | some p1, some p2 => detect_equivalence p1 p2 inside_disjunction
  | _, _ => none

/-- The collapse of a segment is one that `detect_equivalence` finds for its two candidate
pairs. -/
def scan_segment.justified (inside_disjunction : Bool) : scan_segment → Bool
  | .kept _ => true
  | .collapsed e1 e2 neq => decide (collapse_pair inside_disjunction e1 e2 = some neq)

/-- The scan in the words of the specification: from left to right, two adjacent arguments
that collapse are replaced by their equality literal and the scan resumes after them; any
other argument is kept. -/
def collapse_segments (inside_disjunction : Bool) (v : List expr) : List scan_segment :=
  match v with
  | [] => []
  | [e1] => [.kept e1]
  | e1 :: e2 :: rest =>
    match collapse_pair inside_disjunction e1 e2 with
    | some neq => .collapsed e1 e2 neq :: collapse_segments inside_disjunction rest
    | none => .kept e1 :: collapse_segments inside_disjunction (e2 :: rest)
termination_by v.length
decreasing_by
  · simp; omega
  · simp

/-- The symbol of the junction whose argument list is scanned. -/
def junction_decl (inside_disjunction : Bool) : func_decl :=
  if inside_disjunction then .or_decl else .and_decl

/-- The argument list that the scan of the specification leaves. -/
def collapse_scan (inside_disjunction : Bool) (v : List expr) : List expr :=
  (collapse_segments inside_disjunction v).map scan_segment.output

/-- The argument of a segment that no collapse consumes. -/
def scan_segment.kept_arg : scan_segment → Option expr
  | .kept e => some e
  | .collapsed _ _ _ => none

/-- An argument list `x2, (x0 OR NOT x1), (NOT x0 OR x1), (x0 OR x1), x3` of a conjunction. -/
def sample_scan_args : List expr :=
  [.var 2 .bool,
   mk_or [.var 0 .bool, mk_not (.var 1 .bool)],
   mk_or [mk_not (.var 0 .bool), .var 1 .bool],
   mk_or [.var 0 .bool, .var 1 .bool],
   .var 3 .bool]

/-- The indices of the variables of a rule, one for every occurrence in the head and in the
body literals. -/
def rule.var_list (r : rule) : List Nat := vars r.head ++ vars_list (r.tail.map Prod.fst)

/-- The contract of the collaborators that are not part of the sources (the simplification
pipeline, the substitution, the two-term unifier and the renumbering of variables) on which
the termination of the restart loop of `transform_rule` rests. -/
structure mk_interp_tail_simplifier.propagation_contract (s : mk_interp_tail_simplifier σ) :
    Prop where
  /-- the pipeline adds no variable -/
  simplify_vars : ∀ e i, i ∈ vars (s.simplify_expr e) → i ∈ vars e
  /-- the pipeline leaves no two identical terms for the propagator to unify -/
  simplify_clean : ∀ e, ∀ p ∈ unify_calls [s.simplify_expr e] [], p.1 ≠ p.2
  /-- after `reset` and `reserve` the substitution is empty -/
  reset_apply : ∀ u n e, s.subst_apply (s.subst_reserve (s.subst_reset u) 1 n) e = e
  /-- the reset of the cache does not change what the substitution does -/
  reset_cache_apply : ∀ u e, s.subst_apply (s.subst_reset_cache u) e = s.subst_apply u e
  /-- a failed unification leaves the substitution as it is -/
  unif_failure : ∀ a b u, (s.m_unif a b u).1 = false →
    ∀ e, s.subst_apply (s.m_unif a b u).2 e = s.subst_apply u e
  /-- two identical terms unify without a binding -/
  unif_identical : ∀ a u e, s.subst_apply (s.m_unif a a u).2 e = s.subst_apply u e
  /-- a successful unification of two different terms binds a variable of theirs: that
  variable occurs in no term to which the new substitution is applied, and the new
  substitution brings in no variable other than those of the two terms -/
  unif_binds : ∀ a b u, a ≠ b → (s.m_unif a b u).1 = true →
    ∃ i, (i ∈ vars a ∨ i ∈ vars b) ∧
      (∀ e, i ∉ vars (s.subst_apply (s.m_unif a b u).2 e)) ∧
      ∀ e j, j ∈ vars (s.subst_apply (s.m_unif a b u).2 e) →
        j ∈ vars (s.subst_apply u e) ∨ j ∈ vars a ∨ j ∈ vars b
  /-- the renumbering of the variables keeps the relational literals relational and the
  others not -/
  norm_vars_relational : ∀ h t, (s.norm_vars h t).2.map (is_relational s.is_predicate) =
    t.map (is_relational s.is_predicate)
  /-- the renumbering of the variables does not increase the number of distinct variables -/
  norm_vars_count : ∀ h t,
    (vars (s.norm_vars h t).1 ++ vars_list ((s.norm_vars h t).2.map Prod.fst)).dedup.length ≤
      (vars h ++ vars_list (t.map Prod.fst)).dedup.length

mutual
/-- The term with every occurrence of a variable replaced by what `f` gives for its index
and sort, also inside quantifiers, whose bodies `max_var` and `vars` read like any other
term. -/
def subst_vars (f : Nat → sort → expr) : expr → expr
  | .var idx srt => f idx srt
  | .app g args => .app g (subst_vars_list f args)
  | .quantifier is_forall num_decls body => .quantifier is_forall num_decls (subst_vars f body)

/-- The terms of a list with their variables replaced. -/
def subst_vars_list (f : Nat → sort → expr) : List expr → List expr
  | [] => []
  | x :: xs => subst_vars f x :: subst_vars_list f xs
end

/-- The application of a substitution given as a list of bindings (variable index, term):
a variable that has a binding is replaced by its term. -/
def apply_resolved (b : List (Nat × expr)) (e : expr) : expr :=
  subst_vars (fun idx srt => (b.lookup idx).getD (.var idx srt)) e

/-- The term with the variable `i` replaced by `t`. -/
def subst_one (i : Nat) (t : expr) (e : expr) : expr :=
  subst_vars (fun idx srt => if idx = i then t else .var idx srt) e

/-- The substitution extended by the binding of the variable `i` to `t`; the variable is
replaced in the terms of the bindings already made, so that it is eliminated. -/
def bind_var (i : Nat) (t : expr) (b : List (Nat × expr)) : List (Nat × expr) :=
  (i, t) :: b.map (fun p => (p.1, subst_one i t p.2))

/-- A two-term unifier for flat terms that keeps the substitution resolved: identical terms
unify without a binding, a variable unifies with a value constant or with another variable
by the binding `bind_var`, and nothing else unifies. -/
def bind_resolved (e1 e2 : expr) (b : List (Nat × expr)) : Bool × List (Nat × expr) :=
  if e1 = e2 then (true, b) else
  match e1, e2 with
  | .var idx _, t =>
    if (is_value t || is_var t) && !(vars t).contains idx then (true, bind_var idx t b)
    else (false, b)
  | t, .var idx _ => if is_value t then (true, bind_var idx t b) else (false, b)
  | _, _ => (false, b)

/-- The literal is one for which the propagator would call `unify` on two identical
terms. -/
def has_trivial_call (e : expr) : Bool :=
  (propagate_step_calls [] e).2.1.any (fun p => decide (p.1 = p.2))

/-- The literal itself, or `true` in the place of a literal with a trivial call (an equality
or an equivalence between two identical terms). -/
def drop_trivial_literal (e : expr) : expr :=
  if has_trivial_call e then mk_true else e

mutual
/-- A local simplifier that rewrites to `true`, in a literal and in the arguments of a
conjunction, every equality and equivalence between two identical terms that the
propagator would hand to the unifier. -/
def drop_trivial : expr → expr
  | .var idx srt => drop_trivial_literal (.var idx srt)
  | .app f args =>
    if f = .and_decl then .app .and_decl (drop_trivial_list args)
    else drop_trivial_literal (.app f args)
  | .quantifier is_forall num_decls body =>
    drop_trivial_literal (.quantifier is_forall num_decls body)

/-- The simplified arguments of a conjunction. -/
def drop_trivial_list : List expr → List expr
  | [] => []
  | x :: xs => drop_trivial x :: drop_trivial_list xs
end

/-- A simplifier object that meets `propagation_contract`: its substitution is a list of
bindings kept resolved, its unifier is `bind_resolved`, its local simplifier is
`drop_trivial`, the rewriting engine returns its argument and the variables of a rebuilt
rule are not renumbered.  The user-defined predicates are the uninterpreted symbols of
boolean sort. -/
def resolving_simplifier : mk_interp_tail_simplifier (List (Nat × expr)) where
  m := code_manager
  is_predicate := fun f => match f with
    | .uninterp _ .bool => true
    | _ => false
  m_simp := drop_trivial
  rewriter_tpl := fun _ e => e
  brwr_mk_and := mk_and
  brwr_mk_or := mk_or
  push_toplevel_junction_negation_inside := fun _ => none
  subst_reset := fun _ => []
  subst_reserve := fun b _ _ => b
  subst_apply := apply_resolved
  subst_reset_cache := fun b => b
  m_unif := bind_resolved
  norm_vars := fun h t => (h, t)

/-! ## The comparator: basic facts -/

theorem sort_code_inj : Function.Injective sort.code := by
  intro a b h
  cases a <;> cases b <;> simp [sort.code] at h ⊢
  omega

theorem func_decl_code_inj : Function.Injective func_decl.code := by
  intro a b h
  cases a <;> cases b <;> simp only [func_decl.code] at h
  all_goals first
      | rfl
      | omega
      | (have h2 : ∀ x y : Nat, 9 + 3 * x = 9 + 3 * y → x = y := by omega
         rw [sort_code_inj (h2 _ _ h)])
      | (have h2 : ∀ x y : Nat, 10 + 3 * x = 10 + 3 * y → x = y := by omega
         rw [Encodable.encode_injective (h2 _ _ h)])
      | (have h2 : ∀ x y : Nat, 11 + 3 * x = 11 + 3 * y → x = y := by omega
         have h3 := Nat.pair_eq_pair.mp (h2 _ _ h)
         rw [h3.1, sort_code_inj h3.2])

mutual
theorem expr_code_inj : ∀ a b : expr, a.code = b.code → a = b
  | .var i s, .var j t, h => by
    simp only [expr.code] at h
    have h3 := Nat.pair_eq_pair.mp (by omega : Nat.pair i s.code = Nat.pair j t.code)
    rw [h3.1, sort_code_inj h3.2]
  | .app f as, .app g bs, h => by
    simp only [expr.code] at h
    have h3 := Nat.pair_eq_pair.mp
      (by omega : Nat.pair f.code (code_list as) = Nat.pair g.code (code_list bs))
    rw [func_decl_code_inj h3.1, code_list_inj as bs h3.2]
  | .quantifier b n x, .quantifier c k y, h => by
    simp only [expr.code] at h
    have h3 := Nat.pair_eq_pair.mp
      (by omega : Nat.pair (Nat.pair (if b then 1 else 0) n) x.code =
        Nat.pair (Nat.pair (if c then 1 else 0) k) y.code)
    have h4 := Nat.pair_eq_pair.mp h3.1
    have h5 : b = c := by
      cases b <;> cases c <;> simp at h4 ⊢
    rw [h5, h4.2, expr_code_inj x y h3.2]
  | .var _ _, .app _ _, h => by simp only [expr.code] at h; omega
  | .var _ _, .quantifier _ _ _, h => by simp only [expr.code] at h; omega
  | .app _ _, .var _ _, h => by simp only [expr.code] at h; omega
  | .app _ _, .quantifier _ _ _, h => by simp only [expr.code] at h; omega
  | .quantifier _ _ _, .var _ _, h => by simp only [expr.code] at h; omega
  | .quantifier _ _ _, .app _ _, h => by simp only [expr.code] at h; omega

theorem code_list_inj : ∀ as bs : List expr, code_list as = code_list bs → as = bs
  | [], [], _ => rfl
  | [], _ :: _, h => by simp only [code_list] at h; omega
  | _ :: _, [], h => by simp only [code_list] at h; omega
  | x :: xs, y :: ys, h => by
    simp only [code_list] at h
    have h3 := Nat.pair_eq_pair.mp
      (by omega : Nat.pair x.code (code_list xs) = Nat.pair y.code (code_list ys))
    rw [expr_code_inj x y h3.1, code_list_inj xs ys h3.2]
end

/-- The identity numbers of `code_manager` are unique. -/
theorem code_manager_unique_ids : code_manager.unique_ids :=
  ⟨fun a b h => expr_code_inj a b h, func_decl_code_inj⟩


theorem cmp_nat_eq (a b : Nat) :
    cmp a b = if b < a then 1 else if a = b then 0 else -1 := rfl

theorem cmp_bool_eq (a b : Bool) :
    cmp a b = if b < a then 1 else if a = b then 0 else -1 := rfl

theorem cmp_bool_antisymm (a b : Bool) : cmp b a = - cmp a b := by
  cases a <;> cases b <;> decide

theorem cmp_bool_cases (a b : Bool) :
    (a = b ∧ cmp a b = 0) ∨ (a = false ∧ b = true ∧ cmp a b = -1) ∨
      (a = true ∧ b = false ∧ cmp a b = 1) := by
  cases a <;> cases b <;> decide

theorem cmp_nat_cases (a b : Nat) :
    (a = b ∧ cmp a b = 0) ∨ (a < b ∧ cmp a b = -1) ∨ (b < a ∧ cmp a b = 1) := by
  rw [cmp_nat_eq]
  rcases Nat.lt_trichotomy a b with h | h | h
  · right; left; refine ⟨h, ?_⟩
    rw [if_neg (by omega), if_neg (by omega)]
  · left; refine ⟨h, ?_⟩
    rw [if_neg (by omega), if_pos h]
  · right; right; exact ⟨h, by rw [if_pos h]⟩

theorem is_not_arg_eq_some {e x : expr} :
    is_not_arg e = some x ↔ e = .app .not_decl [x] := by
  constructor
  · intro h
    unfold is_not_arg at h
    split at h
    · cases h; rfl
    · cases h
  · intro h
    subst h
    rfl

theorem strip_not_cases (e : expr) :
    (∃ x, e = .app .not_decl [x] ∧ strip_not e = (true, x)) ∨
      (is_not_arg e = none ∧ strip_not e = (false, e)) := by
  cases h : is_not_arg e with
  | none => right; exact ⟨rfl, by simp [strip_not, h]⟩
  | some x => left; exact ⟨x, is_not_arg_eq_some.mp h, by simp [strip_not, h]⟩

theorem strip_not_inj {a b : expr} (h1 : (strip_not a).2 = (strip_not b).2)
    (h2 : (strip_not a).1 = (strip_not b).1) : a = b := by
  rcases strip_not_cases a with ⟨x, ha, hx⟩ | ⟨_, hx⟩ <;>
  rcases strip_not_cases b with ⟨y, hb, hy⟩ | ⟨_, hy⟩ <;>
  rw [hx, hy] at h1 h2 <;> simp at h1 h2
  · rw [ha, hb, h1]
  · exact h1

theorem strip_not_size_le (e : expr) : (strip_not e).2.size ≤ e.size := by
  rcases strip_not_cases e with ⟨x, ha, hx⟩ | ⟨_, hx⟩
  · rw [hx, ha]; simp [expr.size, todo_size]; omega
  · rw [hx]

theorem size_lt_of_mem {x : expr} {l : List expr} (h : x ∈ l) : x.size < todo_size l := by
  induction l with
  | nil => cases h
  | cons y ys ih =>
    simp only [todo_size]
    rcases List.mem_cons.mp h with h | h
    · subst h; omega
    · have := ih h; omega

theorem unsigned_to_int_one : unsigned_to_int 1 = 1 := by decide

theorem unsigned_to_int_max : unsigned_to_int 4294967295 = -1 := by decide

/-- The comparator, with the match on the stripped terms folded into `cmp_core`. -/
theorem cmp_expr_unfold (m : ast_manager) (a b : expr) (d : Int) :
    cmp_expr m a b d =
      if a = b then 0
      else if (strip_not a).2 = (strip_not b).2 then cmp (strip_not a).1 (strip_not b).1
      else cmp_core m (strip_not a).2 (strip_not b).2 d := by
  rw [cmp_expr]
  by_cases h1 : a = b
  · rw [if_pos h1, if_pos h1]
  · rw [if_neg h1, if_neg h1]
    simp only
    by_cases h2 : (strip_not a).2 = (strip_not b).2
    · rw [if_pos h2, if_pos h2]
    · rw [if_neg h2, if_neg h2]
      split
      · next fa as h =>
        split
        · next fb bs hb => rw [h, hb]; simp only [cmp_core]
        · next y hy =>
          rw [h]
          cases hyb : (strip_not b).2 with
          | app f args => exact (hy f args hyb).elim
          | var _ _ => simp [cmp_core]
          | quantifier _ _ _ => simp [cmp_core]
      · next hx =>
        split
        · next fb bs hb =>
          rw [hb]
          cases hxa : (strip_not a).2 with
          | app f args => exact (hx f args hxa).elim
          | var _ _ => simp [cmp_core]
          | quantifier _ _ _ => simp [cmp_core]
        · next y hy =>
          cases hxa : (strip_not a).2 with
          | app f args => exact (hx f args hxa).elim
          | var _ _ =>
            cases hyb : (strip_not b).2 with
            | app f args => exact (hy f args hyb).elim
            | var _ _ => simp [cmp_core]
            | quantifier _ _ _ => simp [cmp_core]
          | quantifier _ _ _ =>
            cases hyb : (strip_not b).2 with
            | app f args => exact (hy f args hyb).elim
            | var _ _ => simp [cmp_core]
            | quantifier _ _ _ => simp [cmp_core]

/-- The argument loop as a lexicographic comparison of the stripped arguments, then of the
negation flags, then of the identity numbers. -/
theorem cmp_args_eq (m : ast_manager) (d : Int) (ia ib : Nat) :
    ∀ (as bs : List expr) (neg : Nat), cmp_args m as bs d neg ia ib =
      if lex_cmp m d (as.map (fun e => (strip_not e).2)) (bs.map (fun e => (strip_not e).2)) ≠ 0
      then lex_cmp m d (as.map (fun e => (strip_not e).2)) (bs.map (fun e => (strip_not e).2))
      else if neg ≠ 0 then unsigned_to_int neg
      else if lex_neg (as.map (fun e => (strip_not e).1)) (bs.map (fun e => (strip_not e).1)) ≠ 0
      then lex_neg (as.map (fun e => (strip_not e).1)) (bs.map (fun e => (strip_not e).1))
      else cmp ia ib := by
  intro as
  induction as with
  | nil => intro bs neg; simp [cmp_args, lex_cmp, lex_neg]
  | cons x xs ih =>
    intro bs neg
    cases bs with
    | nil => simp [cmp_args, lex_cmp, lex_neg]
    | cons y ys =>
      rw [cmp_args]
      simp only [List.map_cons, lex_cmp, lex_neg]
      by_cases hr : cmp_expr m (strip_not x).2 (strip_not y).2 d = 0
      · simp only [hr, ne_eq, not_true_eq_false, if_false]
        rw [ih]
        by_cases hn : neg = 0
        · subst hn
          rcases Bool.eq_false_or_eq_true (strip_not x).1 with hx | hx <;>
          rcases Bool.eq_false_or_eq_true (strip_not y).1 with hy | hy <;>
            simp [hx, hy, unsigned_to_int_one, unsigned_to_int_max]
        · simp [hn]
      · simp [hr]

theorem cmp_nat_antisymm (a b : Nat) : cmp b a = - cmp a b := by
  rcases cmp_nat_cases a b with h | h | h <;> rcases cmp_nat_cases b a with h2 | h2 | h2 <;>
    omega

theorem cmp_nat_range (a b : Nat) : -1 ≤ cmp a b ∧ cmp a b ≤ 1 := by
  rcases cmp_nat_cases a b with h | h | h <;> omega

theorem cmp_bool_range (a b : Bool) : -1 ≤ cmp a b ∧ cmp a b ≤ 1 := by
  rcases cmp_bool_cases a b with h | h | h <;> omega

theorem expr_size_pos (e : expr) : 0 < e.size := by
  cases e <;> simp [expr.size]

theorem cmp_expr_self (m : ast_manager) (a : expr) (d : Int) : cmp_expr m a a d = 0 := by
  rw [cmp_expr_unfold, if_pos rfl]

/-- The comparator without the initial test for identical terms. -/
theorem cmp_expr_unfold2 (m : ast_manager) (a b : expr) (d : Int) :
    cmp_expr m a b d =
      if (strip_not a).2 = (strip_not b).2 then cmp (strip_not a).1 (strip_not b).1
      else cmp_core m (strip_not a).2 (strip_not b).2 d := by
  rw [cmp_expr_unfold]
  by_cases h : a = b
  · subst h
    rw [if_pos rfl, if_pos rfl]
    rcases cmp_bool_cases (strip_not a).1 (strip_not a).1 with h | h | h
    · exact h.2.symm
    · rw [h.1] at h; simp at h
    · rw [h.1] at h; simp at h
  · rw [if_neg h]

/-- The comparison of two applications with the loop replaced by its lexicographic form. -/
theorem cmp_core_app (m : ast_manager) (fa fb : func_decl) (as bs : List expr) (d : Int) :
    cmp_core m (.app fa as) (.app fb bs) d =
      if fa ≠ fb then cmp (m.get_decl_id fa) (m.get_decl_id fb)
      else if as.length ≠ bs.length then cmp as.length bs.length
      else if d = 0 then cmp (m.get_id (.app fa as)) (m.get_id (.app fb bs))
      else if lex_cmp m (d - 1) (as.map (fun e => (strip_not e).2))
          (bs.map (fun e => (strip_not e).2)) ≠ 0
      then lex_cmp m (d - 1) (as.map (fun e => (strip_not e).2))
          (bs.map (fun e => (strip_not e).2))
      else if lex_neg (as.map (fun e => (strip_not e).1)) (bs.map (fun e => (strip_not e).1)) ≠ 0
      then lex_neg (as.map (fun e => (strip_not e).1)) (bs.map (fun e => (strip_not e).1))
      else cmp (m.get_id (.app fa as)) (m.get_id (.app fb bs)) := by
  simp only [cmp_core]
  rw [cmp_args_eq]
  simp

theorem cmp_core_app_decl (m : ast_manager) {fa fb : func_decl} (as bs : List expr) (d : Int)
    (hf : fa ≠ fb) :
    cmp_core m (.app fa as) (.app fb bs) d = cmp (m.get_decl_id fa) (m.get_decl_id fb) := by
  rw [cmp_core_app, if_pos hf]

theorem cmp_core_app_len (m : ast_manager) (f : func_decl) {as bs : List expr} (d : Int)
    (hl : as.length ≠ bs.length) :
    cmp_core m (.app f as) (.app f bs) d = cmp as.length bs.length := by
  rw [cmp_core_app, if_neg (fun h => h rfl), if_pos hl]

theorem cmp_core_app_zero (m : ast_manager) (f : func_decl) {as bs : List expr}
    (hl : as.length = bs.length) :
    cmp_core m (.app f as) (.app f bs) 0 =
      cmp (m.get_id (.app f as)) (m.get_id (.app f bs)) := by
  rw [cmp_core_app, if_neg (fun h => h rfl), if_neg (fun h => h hl), if_pos rfl]

theorem cmp_core_app_rec (m : ast_manager) (f : func_decl) {as bs : List expr} {d : Int}
    (hl : as.length = bs.length) (hd : d ≠ 0) :
    cmp_core m (.app f as) (.app f bs) d =
      if lex_cmp m (d - 1) (as.map (fun e => (strip_not e).2))
          (bs.map (fun e => (strip_not e).2)) ≠ 0
      then lex_cmp m (d - 1) (as.map (fun e => (strip_not e).2))
          (bs.map (fun e => (strip_not e).2))
      else if lex_neg (as.map (fun e => (strip_not e).1)) (bs.map (fun e => (strip_not e).1)) ≠ 0
      then lex_neg (as.map (fun e => (strip_not e).1)) (bs.map (fun e => (strip_not e).1))
      else cmp (m.get_id (.app f as)) (m.get_id (.app f bs)) := by
  rw [cmp_core_app, if_neg (fun h => h rfl), if_neg (fun h => h hl), if_neg hd]

/-! ### Lexicographic comparisons -/

theorem lex_neg_antisymm : ∀ (X Y : List Bool), lex_neg Y X = - lex_neg X Y
  | [], [] => by simp [lex_neg]
  | [], _ :: _ => by simp [lex_neg]
  | _ :: _, [] => by simp [lex_neg]
  | x :: xs, y :: ys => by
    have ih := lex_neg_antisymm xs ys
    cases x <;> cases y <;> simp [lex_neg, ih]

theorem lex_neg_range : ∀ (X Y : List Bool), -1 ≤ lex_neg X Y ∧ lex_neg X Y ≤ 1
  | [], [] => by simp [lex_neg]
  | [], _ :: _ => by simp [lex_neg]
  | _ :: _, [] => by simp [lex_neg]
  | x :: xs, y :: ys => by
    have ih := lex_neg_range xs ys
    cases x <;> cases y <;> simp [lex_neg, ih]

theorem lex_neg_eq_zero : ∀ (X Y : List Bool), X.length = Y.length → lex_neg X Y = 0 → X = Y
  | [], [], _, _ => rfl
  | [], _ :: _, h, _ => by simp at h
  | _ :: _, [], h, _ => by simp at h
  | x :: xs, y :: ys, h, h0 => by
    have ih := lex_neg_eq_zero xs ys (by simpa using h)
    cases x <;> cases y <;> simp [lex_neg] at h0 ⊢ <;> exact ih h0

theorem lex_neg_self : ∀ (X : List Bool), lex_neg X X = 0
  | [] => rfl
  | x :: xs => by simp [lex_neg, lex_neg_self xs]

theorem lex_neg_trans : ∀ (X Y Z : List Bool), lex_neg X Y = -1 → lex_neg Y Z = -1 →
    lex_neg X Z = -1
  | [], _, _, h, _ => by simp [lex_neg] at h
  | _ :: _, [], _, h, _ => by simp [lex_neg] at h
  | _ :: _, _ :: _, [], _, h => by simp [lex_neg] at h
  | x :: xs, y :: ys, z :: zs, h1, h2 => by
    have ih := lex_neg_trans xs ys zs
    cases x <;> cases y <;> cases z <;> simp [lex_neg] at h1 h2 ⊢ <;> exact ih h1 h2

theorem lex_cmp_self (m : ast_manager) (d : Int) : ∀ (X : List expr), lex_cmp m d X X = 0
  | [] => rfl
  | x :: xs => by simp [lex_cmp, cmp_expr_self, lex_cmp_self m d xs]

theorem lex_cmp_antisymm (m : ast_manager) (d : Int) :
    ∀ (X Y : List expr), (∀ x ∈ X, ∀ y, cmp_expr m y x d = - cmp_expr m x y d) →
      lex_cmp m d Y X = - lex_cmp m d X Y
  | [], [], _ => by simp [lex_cmp]
  | [], _ :: _, _ => by simp [lex_cmp]
  | _ :: _, [], _ => by simp [lex_cmp]
  | x :: xs, y :: ys, H => by
    have ih := lex_cmp_antisymm m d xs ys (fun x hx => H x (List.mem_cons_of_mem _ hx))
    have h := H x (List.mem_cons_self _ _) y
    simp only [lex_cmp, h, ih]
    split_ifs <;> omega

theorem lex_cmp_range (m : ast_manager) (d : Int) :
    ∀ (X Y : List expr), (∀ x ∈ X, ∀ y, -1 ≤ cmp_expr m x y d ∧ cmp_expr m x y d ≤ 1) →
      -1 ≤ lex_cmp m d X Y ∧ lex_cmp m d X Y ≤ 1
  | [], [], _ => by simp [lex_cmp]
  | [], _ :: _, _ => by simp [lex_cmp]
  | _ :: _, [], _ => by simp [lex_cmp]
  | x :: xs, y :: ys, H => by
    have ih := lex_cmp_range m d xs ys (fun x hx => H x (List.mem_cons_of_mem _ hx))
    have h := H x (List.mem_cons_self _ _) y
    simp only [lex_cmp]
    split_ifs <;> omega

theorem lex_cmp_eq_zero (m : ast_manager) (d : Int)
    (hz : ∀ x y, cmp_expr m x y d = 0 → x = y) :
    ∀ (X Y : List expr), X.length = Y.length → lex_cmp m d X Y = 0 → X = Y
  | [], [], _, _ => rfl
  | [], _ :: _, h, _ => by simp at h
  | _ :: _, [], h, _ => by simp at h
  | x :: xs, y :: ys, h, h0 => by
    have ih := lex_cmp_eq_zero m d hz xs ys (by simpa using h)
    simp only [lex_cmp] at h0
    by_cases hxy : cmp_expr m x y d = 0
    · rw [if_neg (by simpa using hxy)] at h0
      rw [hz x y hxy, ih h0]
    · rw [if_pos hxy] at h0
      exact absurd h0 hxy

theorem lex_cmp_trans (m : ast_manager) (d : Int)
    (hz : ∀ x y, cmp_expr m x y d = 0 → x = y) :
    ∀ (X Y Z : List expr),
      (∀ x ∈ X, ∀ y z, cmp_expr m x y d = -1 → cmp_expr m y z d = -1 →
        cmp_expr m x z d = -1) →
      lex_cmp m d X Y = -1 → lex_cmp m d Y Z = -1 → lex_cmp m d X Z = -1
  | [], _, _, _, h, _ => by simp [lex_cmp] at h
  | _ :: _, [], _, _, h, _ => by simp [lex_cmp] at h
  | _ :: _, _ :: _, [], _, _, h => by simp [lex_cmp] at h
  | x :: xs, y :: ys, z :: zs, H, h1, h2 => by
    have ih := lex_cmp_trans m d hz xs ys zs (fun x hx => H x (List.mem_cons_of_mem _ hx))
    have ht := H x (List.mem_cons_self _ _) y z
    simp only [lex_cmp] at h1 h2 ⊢
    by_cases hxy : cmp_expr m x y d = 0
    · have hxy2 := hz x y hxy
      subst hxy2
      rw [if_neg (by simpa using hxy)] at h1
      by_cases hyz : cmp_expr m x z d = 0
      · rw [if_neg (by simpa using hyz)] at h2 ⊢
        exact ih h1 h2
      · rw [if_pos hyz] at h2 ⊢
        exact h2
    · rw [if_pos hxy] at h1
      by_cases hyz : cmp_expr m y z d = 0
      · have hyz2 := hz y z hyz
        subst hyz2
        rw [if_pos hxy]
        exact h1
      · rw [if_pos hyz] at h2
        have := ht h1 h2
        rw [if_pos (by omega)]
        exact this

/-! ### Antisymmetry and range of the comparator -/

theorem cmp_core_antisymm (m : ast_manager) (x y : expr) (d : Int)
    (H : ∀ x1 ∈ (get_args x).map (fun e => (strip_not e).2), ∀ y1 d1,
      cmp_expr m y1 x1 d1 = - cmp_expr m x1 y1 d1) :
    cmp_core m y x d = - cmp_core m x y d := by
  cases x with
  | app fa as =>
    cases y with
    | app fb bs =>
      have hD := cmp_nat_antisymm (m.get_decl_id fa) (m.get_decl_id fb)
      have hLn := cmp_nat_antisymm as.length bs.length
      have hI := cmp_nat_antisymm (m.get_id (.app fa as)) (m.get_id (.app fb bs))
      have hL := lex_cmp_antisymm m (d - 1) (as.map (fun e => (strip_not e).2))
        (bs.map (fun e => (strip_not e).2)) (fun x1 hx1 y1 => H x1 hx1 y1 (d - 1))
      have hN := lex_neg_antisymm (as.map (fun e => (strip_not e).1))
        (bs.map (fun e => (strip_not e).1))
      by_cases hf : fa = fb
      · subst hf
        by_cases hl : as.length = bs.length
        · by_cases hd : d = 0
          · subst hd
            rw [cmp_core_app_zero m fa hl, cmp_core_app_zero m fa hl.symm]; exact hI
          · rw [cmp_core_app_rec m fa hl hd, cmp_core_app_rec m fa hl.symm hd, hL, hN]
            split_ifs <;> omega
        · rw [cmp_core_app_len m fa d hl, cmp_core_app_len m fa d (Ne.symm hl)]; exact hLn
      · rw [cmp_core_app_decl m as bs d hf, cmp_core_app_decl m bs as d (Ne.symm hf)]; exact hD
    | var _ _ => simp [cmp_core]
    | quantifier _ _ _ => simp [cmp_core]
  | var _ _ =>
    cases y with
    | app fb bs => simp [cmp_core]
    | var _ _ => simp only [cmp_core]; exact cmp_nat_antisymm _ _
    | quantifier _ _ _ => simp only [cmp_core]; exact cmp_nat_antisymm _ _
  | quantifier _ _ _ =>
    cases y with
    | app fb bs => simp [cmp_core]
    | var _ _ => simp only [cmp_core]; exact cmp_nat_antisymm _ _
    | quantifier _ _ _ => simp only [cmp_core]; exact cmp_nat_antisymm _ _

theorem mem_args_size {x1 a : expr}
    (h : x1 ∈ (get_args (strip_not a).2).map (fun e => (strip_not e).2)) :
    x1.size < a.size := by
  have h1 := strip_not_size_le a
  rcases List.mem_map.mp h with ⟨e, he, rfl⟩
  have h2 := strip_not_size_le e
  cases hs : (strip_not a).2 with
  | app f args =>
    rw [hs] at he h1
    have := size_lt_of_mem (show e ∈ args from he)
    simp only [expr.size] at h1
    omega
  | var _ _ => rw [hs] at he; simp [get_args] at he
  | quantifier _ _ _ => rw [hs] at he; simp [get_args] at he

theorem cmp_expr_antisymm_aux (m : ast_manager) :
    ∀ (n : Nat) (a : expr), a.size ≤ n → ∀ (b : expr) (d : Int),
      cmp_expr m b a d = - cmp_expr m a b d := by
  intro n
  induction n with
  | zero => intro a ha; have := expr_size_pos a; omega
  | succ n ih =>
    intro a ha b d
    rw [cmp_expr_unfold2 m a b, cmp_expr_unfold2 m b a]
    by_cases h : (strip_not a).2 = (strip_not b).2
    · rw [if_pos h, if_pos h.symm]; exact cmp_bool_antisymm _ _
    · rw [if_neg h, if_neg (Ne.symm h)]
      apply cmp_core_antisymm
      intro x1 hx1 y1 d1
      have := mem_args_size hx1
      exact ih x1 (by omega) y1 d1

/-- Swapping the operands negates the result of the comparator. -/
theorem cmp_expr_antisymm (m : ast_manager) (a b : expr) (d : Int) :
    cmp_expr m b a d = - cmp_expr m a b d :=
  cmp_expr_antisymm_aux m a.size a (le_refl _) b d

theorem cmp_core_range (m : ast_manager) (x y : expr) (d : Int)
    (H : ∀ x1 ∈ (get_args x).map (fun e => (strip_not e).2), ∀ y1 d1,
      -1 ≤ cmp_expr m x1 y1 d1 ∧ cmp_expr m x1 y1 d1 ≤ 1) :
    -1 ≤ cmp_core m x y d ∧ cmp_core m x y d ≤ 1 := by
  cases x with
  | app fa as =>
    cases y with
    | app fb bs =>
      rw [cmp_core_app]
      have hD := cmp_nat_range (m.get_decl_id fa) (m.get_decl_id fb)
      have hLn := cmp_nat_range as.length bs.length
      have hI := cmp_nat_range (m.get_id (.app fa as)) (m.get_id (.app fb bs))
      have hL := lex_cmp_range m (d - 1) (as.map (fun e => (strip_not e).2))
        (bs.map (fun e => (strip_not e).2)) (fun x1 hx1 y1 => H x1 hx1 y1 (d - 1))
      have hN := lex_neg_range (as.map (fun e => (strip_not e).1))
        (bs.map (fun e => (strip_not e).1))
      split_ifs <;> omega
    | var _ _ => simp [cmp_core]
    | quantifier _ _ _ => simp [cmp_core]
  | var _ _ =>
    cases y with
    | app fb bs => simp [cmp_core]
    | var _ _ => simp only [cmp_core]; exact cmp_nat_range _ _
    | quantifier _ _ _ => simp only [cmp_core]; exact cmp_nat_range _ _
  | quantifier _ _ _ =>
    cases y with
    | app fb bs => simp [cmp_core]
    | var _ _ => simp only [cmp_core]; exact cmp_nat_range _ _
    | quantifier _ _ _ => simp only [cmp_core]; exact cmp_nat_range _ _

theorem cmp_expr_range_aux (m : ast_manager) :
    ∀ (n : Nat) (a : expr), a.size ≤ n → ∀ (b : expr) (d : Int),
      -1 ≤ cmp_expr m a b d ∧ cmp_expr m a b d ≤ 1 := by
  intro n
  induction n with
  | zero => intro a ha; have := expr_size_pos a; omega
  | succ n ih =>
    intro a ha b d
    rw [cmp_expr_unfold2 m a b]
    by_cases h : (strip_not a).2 = (strip_not b).2
    · rw [if_pos h]; exact cmp_bool_range _ _
    · rw [if_neg h]
      apply cmp_core_range
      intro x1 hx1 y1 d1
      have := mem_args_size hx1
      exact ih x1 (by omega) y1 d1

/-- The comparator answers -1, 0 or 1. -/
theorem cmp_expr_range (m : ast_manager) (a b : expr) (d : Int) :
    cmp_expr m a b d = -1 ∨ cmp_expr m a b d = 0 ∨ cmp_expr m a b d = 1 := by
  have := cmp_expr_range_aux m a.size a (le_refl _) b d
  omega

/-! ### The comparator is a strict total order on terms with unique identity numbers -/

theorem cmp_nat_eq_zero {a b : Nat} (h : cmp a b = 0) : a = b := by
  rcases cmp_nat_cases a b with h1 | h1 | h1 <;> omega

theorem cmp_nat_lt_iff (a b : Nat) : cmp a b = -1 ↔ a < b := by
  rcases cmp_nat_cases a b with h1 | h1 | h1 <;> omega

theorem cmp_core_eq_zero (m : ast_manager) (hm : m.unique_ids) (x y : expr) (d : Int)
    (h : cmp_core m x y d = 0) : x = y := by
  cases x with
  | app fa as =>
    cases y with
    | app fb bs =>
      by_cases hf : fa = fb
      · subst hf
        by_cases hl : as.length = bs.length
        · by_cases hd : d = 0
          · subst hd
            rw [cmp_core_app_zero m fa hl] at h
            exact hm.1 (cmp_nat_eq_zero h)
          · rw [cmp_core_app_rec m fa hl hd] at h
            split_ifs at h with h1 h2
            · exact absurd h h1
            · exact absurd h h2
            · exact hm.1 (cmp_nat_eq_zero h)
        · rw [cmp_core_app_len m fa d hl] at h
          exact absurd (cmp_nat_eq_zero h) hl
      · rw [cmp_core_app_decl m as bs d hf] at h
        exact absurd (hm.2 (cmp_nat_eq_zero h)) hf
    | var _ _ => simp [cmp_core] at h
    | quantifier _ _ _ => simp [cmp_core] at h
  | var _ _ =>
    cases y with
    | app fb bs => simp [cmp_core] at h
    | var _ _ => simp only [cmp_core] at h; exact hm.1 (cmp_nat_eq_zero h)
    | quantifier _ _ _ => simp only [cmp_core] at h; exact hm.1 (cmp_nat_eq_zero h)
  | quantifier _ _ _ =>
    cases y with
    | app fb bs => simp [cmp_core] at h
    | var _ _ => simp only [cmp_core] at h; exact hm.1 (cmp_nat_eq_zero h)
    | quantifier _ _ _ => simp only [cmp_core] at h; exact hm.1 (cmp_nat_eq_zero h)

/-- With unique identity numbers, only identical terms compare equal. -/
theorem cmp_expr_eq_zero (m : ast_manager) (hm : m.unique_ids) (a b : expr) (d : Int)
    (h : cmp_expr m a b d = 0) : a = b := by
  rw [cmp_expr_unfold2] at h
  by_cases hs : (strip_not a).2 = (strip_not b).2
  · rw [if_pos hs] at h
    apply strip_not_inj hs
    rcases cmp_bool_cases (strip_not a).1 (strip_not b).1 with h1 | h1 | h1
    · exact h1.1
    · omega
    · omega
  · rw [if_neg hs] at h
    exact absurd (cmp_core_eq_zero m hm _ _ d h) hs

theorem cmp_nat_self (a : Nat) : cmp a a = 0 := by
  rcases cmp_nat_cases a a with h1 | h1 | h1 <;> omega

theorem cmp_core_self (m : ast_manager) (x : expr) (d : Int) : cmp_core m x x d = 0 := by
  cases x with
  | app fa as =>
    by_cases hd : d = 0
    · subst hd; rw [cmp_core_app_zero m fa rfl]; exact cmp_nat_self _
    · rw [cmp_core_app_rec m fa rfl hd, lex_cmp_self, lex_neg_self]
      simp [cmp_nat_self]
  | var _ _ => simp only [cmp_core]; exact cmp_nat_self _
  | quantifier _ _ _ => simp only [cmp_core]; exact cmp_nat_self _

/-- Transitivity of a two-level lexicographic combination, on the values of the levels. -/
theorem lex2_trans (Pab Pbc Pac Qab Qbc Qac : Int)
    (hPt : Pab = -1 → Pbc = -1 → Pac = -1) (hP1 : Pab = 0 → Pac = Pbc)
    (hP2 : Pbc = 0 → Pac = Pab) (hQt : Qab = -1 → Qbc = -1 → Qac = -1)
    (h1 : (if Pab ≠ 0 then Pab else Qab) = -1)
    (h2 : (if Pbc ≠ 0 then Pbc else Qbc) = -1) :
    (if Pac ≠ 0 then Pac else Qac) = -1 := by
  by_cases ha : Pab = 0
  · rw [if_neg (by simpa using ha)] at h1
    by_cases hb : Pbc = 0
    · rw [if_neg (by simpa using hb)] at h2
      have hc : Pac = 0 := by rw [hP1 ha, hb]
      rw [if_neg (by simpa using hc)]
      exact hQt h1 h2
    · rw [if_pos hb] at h2
      have hc : Pac = -1 := by rw [hP1 ha, h2]
      rw [if_pos (by rw [hc]; decide), hc]
  · rw [if_pos ha] at h1
    by_cases hb : Pbc = 0
    · have hc : Pac = -1 := by rw [hP2 hb, h1]
      rw [if_pos (by rw [hc]; decide), hc]
    · rw [if_pos hb] at h2
      have hc : Pac = -1 := hPt h1 h2
      rw [if_pos (by rw [hc]; decide), hc]

/-- Transitivity of a three-level lexicographic combination, on the values of the levels. -/
theorem chain_trans (Lab Lbc Lac Nab Nbc Nac Iab Ibc Iac : Int)
    (hLt : Lab = -1 → Lbc = -1 → Lac = -1) (hL1 : Lab = 0 → Lac = Lbc)
    (hL2 : Lbc = 0 → Lac = Lab)
    (hNt : Nab = -1 → Nbc = -1 → Nac = -1) (hN1 : Nab = 0 → Nac = Nbc)
    (hN2 : Nbc = 0 → Nac = Nab)
    (hIt : Iab = -1 → Ibc = -1 → Iac = -1)
    (h1 : (if Lab ≠ 0 then Lab else if Nab ≠ 0 then Nab else Iab) = -1)
    (h2 : (if Lbc ≠ 0 then Lbc else if Nbc ≠ 0 then Nbc else Ibc) = -1) :
    (if Lac ≠ 0 then Lac else if Nac ≠ 0 then Nac else Iac) = -1 :=
  lex2_trans Lab Lbc Lac _ _ _ hLt hL1 hL2
    (lex2_trans Nab Nbc Nac Iab Ibc Iac hNt hN1 hN2 hIt) h1 h2

theorem cmp_core_trans (m : ast_manager) (hm : m.unique_ids) (x y z : expr) (d : Int)
    (H : ∀ x1 ∈ (get_args x).map (fun e => (strip_not e).2), ∀ y1 z1 d1,
      cmp_expr m x1 y1 d1 = -1 → cmp_expr m y1 z1 d1 = -1 → cmp_expr m x1 z1 d1 = -1)
    (h1 : cmp_core m x y d = -1) (h2 : cmp_core m y z d = -1) :
    cmp_core m x z d = -1 := by
  cases x with
  | app fa as =>
    cases y with
    | app fb bs =>
      cases z with
      | app fc cs =>
        by_cases hab : fa = fb
        · subst hab
          by_cases hbc : fa = fc
          · subst hbc
            by_cases lab : as.length = bs.length
            · by_cases lbc : bs.length = cs.length
              · have lac : as.length = cs.length := lab.trans lbc
                by_cases hd : d = 0
                · subst hd
                  rw [cmp_core_app_zero m fa lab] at h1
                  rw [cmp_core_app_zero m fa lbc] at h2
                  rw [cmp_core_app_zero m fa lac]
                  rw [cmp_nat_lt_iff] at h1 h2 ⊢
                  omega
                · rw [cmp_core_app_rec m fa lab hd] at h1
                  rw [cmp_core_app_rec m fa lbc hd] at h2
                  rw [cmp_core_app_rec m fa lac hd]
                  have hz := fun x y => cmp_expr_eq_zero m hm x y (d - 1)
                  have hLt := lex_cmp_trans m (d - 1) hz (as.map (fun e => (strip_not e).2))
                    (bs.map (fun e => (strip_not e).2)) (cs.map (fun e => (strip_not e).2))
                    (fun x1 hx1 y1 z1 => H x1 hx1 y1 z1 (d - 1))
                  have hL1 : lex_cmp m (d - 1) (as.map (fun e => (strip_not e).2))
                      (bs.map (fun e => (strip_not e).2)) = 0 →
                      lex_cmp m (d - 1) (as.map (fun e => (strip_not e).2))
                        (cs.map (fun e => (strip_not e).2)) =
                      lex_cmp m (d - 1) (bs.map (fun e => (strip_not e).2))
                        (cs.map (fun e => (strip_not e).2)) := by
                    intro h0
                    rw [lex_cmp_eq_zero m (d - 1) hz _ _ (by simp [lab]) h0]
                  have hL2 : lex_cmp m (d - 1) (bs.map (fun e => (strip_not e).2))
                      (cs.map (fun e => (strip_not e).2)) = 0 →
                      lex_cmp m (d - 1) (as.map (fun e => (strip_not e).2))
                        (cs.map (fun e => (strip_not e).2)) =
                      lex_cmp m (d - 1) (as.map (fun e => (strip_not e).2))
                        (bs.map (fun e => (strip_not e).2)) := by
                    intro h0
                    rw [lex_cmp_eq_zero m (d - 1) hz _ _ (by simp [lbc]) h0]
                  have hNt := lex_neg_trans (as.map (fun e => (strip_not e).1))
                    (bs.map (fun e => (strip_not e).1)) (cs.map (fun e => (strip_not e).1))
                  have hN1 : lex_neg (as.map (fun e => (strip_not e).1))
                      (bs.map (fun e => (strip_not e).1)) = 0 →
                      lex_neg (as.map (fun e => (strip_not e).1))
                        (cs.map (fun e => (strip_not e).1)) =
                      lex_neg (bs.map (fun e => (strip_not e).1))
                        (cs.map (fun e => (strip_not e).1)) := by
                    intro h0
                    rw [lex_neg_eq_zero _ _ (by simp [lab]) h0]
                  have hN2 : lex_neg (bs.map (fun e => (strip_not e).1))
                      (cs.map (fun e => (strip_not e).1)) = 0 →
                      lex_neg (as.map (fun e => (strip_not e).1))
                        (cs.map (fun e => (strip_not e).1)) =
                      lex_neg (as.map (fun e => (strip_not e).1))
                        (bs.map (fun e => (strip_not e).1)) := by
                    intro h0
                    rw [lex_neg_eq_zero _ _ (by simp [lbc]) h0]
                  have hIt : cmp (m.get_id (.app fa as)) (m.get_id (.app fa bs)) = -1 →
                      cmp (m.get_id (.app fa bs)) (m.get_id (.app fa cs)) = -1 →
                      cmp (m.get_id (.app fa as)) (m.get_id (.app fa cs)) = -1 := by
                    rw [cmp_nat_lt_iff, cmp_nat_lt_iff, cmp_nat_lt_iff]
                    omega
                  exact chain_trans _ _ _ _ _ _ _ _ _ hLt hL1 hL2 hNt hN1 hN2 hIt h1 h2
              · rw [cmp_core_app_len m fa d lbc] at h2
                rw [cmp_core_app_len m fa d (by omega), lab]
                exact h2
            · rw [cmp_core_app_len m fa d lab] at h1
              by_cases lbc : bs.length = cs.length
              · rw [cmp_core_app_len m fa d (by omega), ← lbc]
                exact h1
              · rw [cmp_core_app_len m fa d lbc] at h2
                rw [cmp_nat_lt_iff] at h1 h2
                rw [cmp_core_app_len m fa d (by omega), cmp_nat_lt_iff]
                omega
          · rw [cmp_core_app_decl m bs cs d hbc] at h2
            rw [cmp_core_app_decl m as cs d hbc]
            exact h2
        · rw [cmp_core_app_decl m as bs d hab] at h1
          by_cases hbc : fb = fc
          · subst hbc
            rw [cmp_core_app_decl m as cs d hab]
            exact h1
          · rw [cmp_core_app_decl m bs cs d hbc] at h2
            rw [cmp_nat_lt_iff] at h1 h2
            have hac : fa ≠ fc := by
              intro h
              subst h
              omega
            rw [cmp_core_app_decl m as cs d hac, cmp_nat_lt_iff]
            omega
      | var _ _ => simp [cmp_core] at h2
      | quantifier _ _ _ => simp [cmp_core] at h2
    | var _ _ => simp [cmp_core] at h1
    | quantifier _ _ _ => simp [cmp_core] at h1
  | var _ _ =>
    cases y with
    | app fb bs =>
      cases z with
      | app fc cs => simp [cmp_core]
      | var _ _ => simp [cmp_core] at h2
      | quantifier _ _ _ => simp [cmp_core] at h2
    | var _ _ =>
      cases z with
      | app fc cs => simp [cmp_core]
      | var _ _ =>
        simp only [cmp_core, cmp_nat_lt_iff] at h1 h2 ⊢; omega
      | quantifier _ _ _ =>
        simp only [cmp_core, cmp_nat_lt_iff] at h1 h2 ⊢; omega
    | quantifier _ _ _ =>
      cases z with
      | app fc cs => simp [cmp_core]
      | var _ _ =>
        simp only [cmp_core, cmp_nat_lt_iff] at h1 h2 ⊢; omega
      | quantifier _ _ _ =>
        simp only [cmp_core, cmp_nat_lt_iff] at h1 h2 ⊢; omega
  | quantifier _ _ _ =>
    cases y with
    | app fb bs =>
      cases z with
      | app fc cs => simp [cmp_core]
      | var _ _ => simp [cmp_core] at h2
      | quantifier _ _ _ => simp [cmp_core] at h2
    | var _ _ =>
      cases z with
      | app fc cs => simp [cmp_core]
      | var _ _ =>
        simp only [cmp_core, cmp_nat_lt_iff] at h1 h2 ⊢; omega
      | quantifier _ _ _ =>
        simp only [cmp_core, cmp_nat_lt_iff] at h1 h2 ⊢; omega
    | quantifier _ _ _ =>
      cases z with
      | app fc cs => simp [cmp_core]
      | var _ _ =>
        simp only [cmp_core, cmp_nat_lt_iff] at h1 h2 ⊢; omega
      | quantifier _ _ _ =>
        simp only [cmp_core, cmp_nat_lt_iff] at h1 h2 ⊢; omega

theorem cmp_expr_trans_aux (m : ast_manager) (hm : m.unique_ids) :
    ∀ (n : Nat) (a : expr), a.size ≤ n → ∀ (b c : expr) (d : Int),
      cmp_expr m a b d = -1 → cmp_expr m b c d = -1 → cmp_expr m a c d = -1 := by
  intro n
  induction n with
  | zero => intro a ha; have := expr_size_pos a; omega
  | succ n ih =>
    intro a ha b c d h1 h2
    rw [cmp_expr_unfold2] at h1 h2 ⊢
    by_cases hab : (strip_not a).2 = (strip_not b).2
    · by_cases hbc : (strip_not b).2 = (strip_not c).2
      · rw [if_pos hab] at h1
        rw [if_pos hbc] at h2
        rcases cmp_bool_cases (strip_not a).1 (strip_not b).1 with h3 | h3 | h3 <;>
        rcases cmp_bool_cases (strip_not b).1 (strip_not c).1 with h4 | h4 | h4 <;>
        first
          | omega
          | (rw [h3.2.1] at h4; simp at h4)
      · rw [if_neg hbc] at h2
        rw [hab, if_neg hbc]
        exact h2
    · rw [if_neg hab] at h1
      by_cases hbc : (strip_not b).2 = (strip_not c).2
      · rw [← hbc, if_neg hab]
        exact h1
      · rw [if_neg hbc] at h2
        have h3 := cmp_core_trans m hm _ _ _ d (by
          intro x1 hx1 y1 z1 d1
          have := mem_args_size hx1
          exact ih x1 (by omega) y1 z1 d1) h1 h2
        have hac : (strip_not a).2 ≠ (strip_not c).2 := by
          intro h
          rw [h, cmp_core_self] at h3
          omega
        rw [if_neg hac]
        exact h3

theorem is_not_eq_false {t : expr} (h : is_not t = false) : strip_not t = (false, t) := by
  rcases strip_not_cases t with ⟨x, ht, _⟩ | ⟨_, hx⟩
  · subst ht; simp [is_not, is_not_arg] at h
  · exact hx

theorem strip_not_mk_not (t : expr) : strip_not (mk_not t) = (true, t) := rfl

theorem ne_mk_not {t : expr} (h : is_not t = false) : t ≠ mk_not t := by
  intro h2
  rw [h2] at h
  simp [is_not, is_not_arg, mk_not] at h

/-! ## Sorting and duplicate removal -/

theorem take_succ_set (v : List expr) (w : Nat) (e : expr) (hw : w < v.length) :
    (v.set w e).take (w + 1) = v.take w ++ [e] := by
  rw [List.set_eq_take_append_cons_drop, if_pos hw, List.take_append_eq_append_take]
  simp [List.length_take, Nat.min_eq_left (Nat.le_of_lt hw)]

theorem take_succ_self (v : List expr) (r : Nat) (hr : r < v.length) :
    v.take (r + 1) = v.take r ++ [v[r]] := by
  rw [List.take_succ]; simp [hr]

theorem write_back_take (v : List expr) (w r : Nat) (hw : w ≤ r) (hr : r < v.length) :
    (write_back v w r v[r]).take (w + 1) = v.take w ++ [v[r]] := by
  unfold write_back
  by_cases h : w = r
  · subst h; rw [if_neg (by simp)]; exact take_succ_self v w hr
  · rw [if_pos h]; exact take_succ_set v w _ (by omega)

theorem write_back_drop (v : List expr) (w r : Nat) (e : expr) (hw : w ≤ r) :
    (write_back v w r e).drop (r + 1) = v.drop (r + 1) := by
  unfold write_back
  split
  · exact List.drop_set_of_lt e v (by omega)
  · rfl

/-- The loop of `remove_duplicates` keeps what is written and removes adjacent duplicates
from what is still to be read. -/
theorem remove_duplicates_loop_eq :
    ∀ (k : Nat) (v : List expr) (a : expr) (read_idx write_idx : Nat),
      v.length - read_idx = k → write_idx ≤ read_idx → read_idx ≤ v.length →
      remove_duplicates_loop v a read_idx write_idx =
        v.take write_idx ++ remove_adjacent a (v.drop read_idx) := by
  intro k
  induction k with
  | zero =>
    intro v a r w hk hw hr
    have hrl : r = v.length := by omega
    rw [remove_duplicates_loop, dif_neg (by omega), hrl]
    simp [remove_adjacent]
  | succ k ih =>
    intro v a r w hk hw hr
    have hlt : r < v.length := by omega
    rw [remove_duplicates_loop, dif_pos hlt, List.drop_eq_getElem_cons hlt]
    by_cases ha : a = v[r]
    · rw [if_pos ha, ih v a (r + 1) w (by omega) (by omega) (by omega)]
      simp only [remove_adjacent]
      rw [if_pos ha]
    · rw [if_neg ha, ih _ _ (r + 1) (w + 1) (by simp; omega) (by omega) (by simp; omega),
        write_back_take v w r hw hlt, write_back_drop v w r _ hw]
      simp only [remove_adjacent]
      rw [if_neg ha]
      simp

theorem remove_duplicates_cons (a : expr) (l : List expr) :
    remove_duplicates (a :: l) = a :: remove_adjacent a l := by
  simp only [remove_duplicates]
  rw [remove_duplicates_loop_eq _ (a :: l) a 1 1 rfl (le_refl _) (by simp)]
  simp

theorem mem_remove_adjacent : ∀ (l : List expr) (a z : expr),
    z ∈ a :: remove_adjacent a l ↔ z ∈ a :: l
  | [], _, _ => by simp [remove_adjacent]
  | x :: xs, a, z => by
    have ih1 := mem_remove_adjacent xs a z
    have ih2 := mem_remove_adjacent xs x z
    simp only [remove_adjacent]
    by_cases h : a = x
    · subst h; rw [if_pos rfl, ih1]; simp
    · rw [if_neg h]
      simp only [List.mem_cons] at ih1 ih2 ⊢
      rw [ih2]

theorem mem_ordered_insert (lt : expr → expr → Bool) (x z : expr) :
    ∀ l : List expr, z ∈ ordered_insert lt x l ↔ z = x ∨ z ∈ l
  | [] => by simp [ordered_insert]
  | y :: ys => by
    have ih := mem_ordered_insert lt x z ys
    simp only [ordered_insert]
    split
    · simp only [List.mem_cons, ih]; tauto
    · simp

theorem mem_std_sort (lt : expr → expr → Bool) (z : expr) :
    ∀ l : List expr, z ∈ std_sort lt l ↔ z ∈ l
  | [] => by simp [std_sort]
  | x :: xs => by
    simp only [std_sort, mem_ordered_insert, mem_std_sort lt z xs, List.mem_cons]

theorem std_sort_ne_nil (lt : expr → expr → Bool) {l : List expr} (h : l ≠ []) :
    std_sort lt l ≠ [] := by
  cases l with
  | nil => exact absurd rfl h
  | cons x xs =>
    intro h2
    have := (mem_std_sort lt x (x :: xs)).mpr (List.mem_cons_self _ _)
    rw [h2] at this
    cases this

/-- The comparator's "less or equal" is transitive. -/
theorem cmp_expr_le_trans (m : ast_manager) (hm : m.unique_ids) (d : Int) (x y z : expr)
    (h1 : cmp_expr m x y d ≠ 1) (h2 : cmp_expr m y z d ≠ 1) : cmp_expr m x z d ≠ 1 := by
  intro h3
  rcases cmp_expr_range m x y d with hxy | hxy | hxy
  · rcases cmp_expr_range m y z d with hyz | hyz | hyz
    · have := cmp_expr_trans_aux m hm x.size x (le_refl _) y z d hxy hyz
      omega
    · rw [← cmp_expr_eq_zero m hm y z d hyz] at h3; omega
    · exact h2 hyz
  · rw [cmp_expr_eq_zero m hm x y d hxy] at h3; exact h2 h3
  · exact h1 hxy

/-- A "less" followed by a "less or equal" gives "less". -/
theorem cmp_expr_lt_of_lt_of_le (m : ast_manager) (hm : m.unique_ids) (d : Int) (x y z : expr)
    (h1 : cmp_expr m x y d = -1) (h2 : cmp_expr m y z d ≠ 1) : cmp_expr m x z d = -1 := by
  rcases cmp_expr_range m y z d with hyz | hyz | hyz
  · exact cmp_expr_trans_aux m hm x.size x (le_refl _) y z d h1 hyz
  · rw [← cmp_expr_eq_zero m hm y z d hyz]; exact h1
  · exact absurd hyz h2

theorem ordered_insert_sorted (m : ast_manager) (hm : m.unique_ids) (x : expr) :
    ∀ l : List expr, l.Pairwise (fun a b => cmp_expr m a b 4 ≠ 1) →
      (ordered_insert (expr_cmp m) x l).Pairwise (fun a b => cmp_expr m a b 4 ≠ 1)
  | [], _ => by simp [ordered_insert]
  | y :: ys, h => by
    have ih := ordered_insert_sorted m hm x ys (List.Pairwise.of_cons h)
    have hy : ∀ z ∈ ys, cmp_expr m y z 4 ≠ 1 := fun z hz => List.rel_of_pairwise_cons h hz
    simp only [ordered_insert]
    by_cases hlt : expr_cmp m y x = true
    · rw [if_pos hlt]
      refine List.Pairwise.cons ?_ ih
      intro z hz
      rcases (mem_ordered_insert _ x z ys).mp hz with hz | hz
      · subst hz
        have : cmp_expr m y z 4 = -1 := by simpa [expr_cmp] using hlt
        omega
      · exact hy z hz
    · rw [if_neg hlt]
      have hxy : cmp_expr m x y 4 ≠ 1 := by
        have h1 : cmp_expr m y x 4 ≠ -1 := by simpa [expr_cmp] using hlt
        have h2 := cmp_expr_antisymm m x y 4
        omega
      refine List.Pairwise.cons ?_ h
      intro z hz
      rcases List.mem_cons.mp hz with hz | hz
      · subst hz; exact hxy
      · exact cmp_expr_le_trans m hm 4 x y z hxy (hy z hz)

theorem std_sort_sorted (m : ast_manager) (hm : m.unique_ids) :
    ∀ l : List expr, (std_sort (expr_cmp m) l).Pairwise (fun a b => cmp_expr m a b 4 ≠ 1)
  | [] => by simp [std_sort]
  | x :: xs => by
    simp only [std_sort]
    exact ordered_insert_sorted m hm x _ (std_sort_sorted m hm xs)

theorem remove_adjacent_sorted (m : ast_manager) (hm : m.unique_ids) :
    ∀ (l : List expr) (a : expr), (a :: l).Pairwise (fun a b => cmp_expr m a b 4 ≠ 1) →
      (a :: remove_adjacent a l).Pairwise (fun a b => cmp_expr m a b 4 = -1)
  | [], _, _ => by simp [remove_adjacent]
  | x :: xs, a, h => by
    have hax : cmp_expr m a x 4 ≠ 1 := List.rel_of_pairwise_cons h (List.mem_cons_self _ _)
    have hxs : (x :: xs).Pairwise (fun a b => cmp_expr m a b 4 ≠ 1) := List.Pairwise.of_cons h
    simp only [remove_adjacent]
    by_cases hx : a = x
    · subst hx
      rw [if_pos rfl]
      exact remove_adjacent_sorted m hm xs a hxs
    · rw [if_neg hx]
      have ih := remove_adjacent_sorted m hm xs x hxs
      have hlt : cmp_expr m a x 4 = -1 := by
        rcases cmp_expr_range m a x 4 with h1 | h1 | h1
        · exact h1
        · exact absurd (cmp_expr_eq_zero m hm a x 4 h1) hx
        · exact absurd h1 hax
      refine List.Pairwise.cons ?_ ih
      intro z hz
      rcases List.mem_cons.mp ((mem_remove_adjacent xs x z).mp hz) with hz | hz
      · subst hz; exact hlt
      · exact cmp_expr_lt_of_lt_of_le m hm 4 a x z hlt (List.rel_of_pairwise_cons hxs hz)

/-- After sorting with the comparator, `remove_duplicates` leaves a strictly increasing list
with the elements of the input. -/
theorem sort_remove_duplicates_spec (m : ast_manager) (hm : m.unique_ids) (v : List expr)
    (hv : v ≠ []) :
    (remove_duplicates (std_sort (expr_cmp m) v)).Pairwise
        (fun a b => cmp_expr m a b 4 = -1) ∧
      ∀ e, e ∈ remove_duplicates (std_sort (expr_cmp m) v) ↔ e ∈ v := by
  have hs := std_sort_sorted m hm v
  have hne := std_sort_ne_nil (expr_cmp m) hv
  have hmem := fun e => mem_std_sort (expr_cmp m) e v
  cases hsv : std_sort (expr_cmp m) v with
  | nil => exact absurd hsv hne
  | cons a l =>
    rw [hsv] at hs hmem
    rw [remove_duplicates_cons]
    exact ⟨remove_adjacent_sorted m hm l a hs,
      fun e => (mem_remove_adjacent l a e).trans (hmem e)⟩

theorem nodup_of_strictly_sorted (m : ast_manager) {l : List expr}
    (h : l.Pairwise (fun a b => cmp_expr m a b 4 = -1)) : l.Nodup := by
  refine List.Pairwise.imp ?_ h
  intro a b hab heq
  subst heq
  rw [cmp_expr_self] at hab
  omega

/-! ## The comparator: the claims -/

/-- C4: the comparator is transitive.  For a term manager whose identity numbers are unique,
every depth `d` and all terms `a`, `b`, `c`: if `cmp_expr(a,b,d)` is less (-1) and
`cmp_expr(b,c,d)` is less, then `cmp_expr(a,c,d)` is less. -/
theorem cmp_expr_transitive (m : ast_manager) (hm : m.unique_ids) (d : Int) (a b c : expr)
    (h1 : cmp_expr m a b d = -1) (h2 : cmp_expr m b c d = -1) : cmp_expr m a c d = -1 :=
  cmp_expr_trans_aux m hm a.size a (le_refl _) b c d h1 h2

theorem cmp_expr_transitive_witness :
    code_manager.unique_ids ∧
    cmp_expr code_manager (.var 0 .bool) (mk_not (.var 0 .bool)) 4 = -1 ∧
    cmp_expr code_manager (mk_not (.var 0 .bool)) (.var 1 .bool) 4 = -1 ∧
    cmp_expr code_manager (.var 0 .bool) (.var 1 .bool) 4 = -1 :=
  have h1 : cmp_expr code_manager (.var 0 .bool) (mk_not (.var 0 .bool)) 4 = -1 := by
    simp [cmp_expr, strip_not, is_not_arg, mk_not, cmp]
  have h2 : cmp_expr code_manager (mk_not (.var 0 .bool)) (.var 1 .bool) 4 = -1 := by
    simp [cmp_expr, strip_not, is_not_arg, mk_not, cmp, code_manager, expr.code, sort.code,
      Nat.pair]
  ⟨code_manager_unique_ids, h1, h2,
    cmp_expr_transitive code_manager code_manager_unique_ids 4 _ _ _ h1 h2⟩

/-- C5: for a term manager whose identity numbers are unique, `cmp_expr(a,b,d)` is equal (0)
if and only if `a` and `b` are the same term; in particular `cmp_expr(a,a,d)` is equal, and
two different terms that become alike once one negation is stripped from each are ordered
strictly (the result is -1 or 1). -/
theorem cmp_expr_equal_iff_same (m : ast_manager) (hm : m.unique_ids) (a b : expr) (d : Int) :
    (cmp_expr m a b d = 0 ↔ a = b) ∧ cmp_expr m a a d = 0 ∧
      (a ≠ b → (strip_not a).2 = (strip_not b).2 →
        cmp_expr m a b d = -1 ∨ cmp_expr m a b d = 1) := by
  refine ⟨⟨cmp_expr_eq_zero m hm a b d, fun h => by rw [h]; exact cmp_expr_self m b d⟩,
    cmp_expr_self m a d, ?_⟩
  intro hne _
  have h0 : cmp_expr m a b d ≠ 0 := fun h => hne (cmp_expr_eq_zero m hm a b d h)
  rcases cmp_expr_range m a b d with h | h | h
  · exact Or.inl h
  · exact absurd h h0
  · exact Or.inr h

theorem cmp_expr_equal_iff_same_witness :
    code_manager.unique_ids ∧
    ((cmp_expr code_manager (.var 0 .bool) (mk_not (.var 0 .bool)) 4 = 0 ↔
        expr.var 0 .bool = mk_not (.var 0 .bool)) ∧
      cmp_expr code_manager (.var 0 .bool) (.var 0 .bool) 4 = 0 ∧
      (expr.var 0 .bool ≠ mk_not (.var 0 .bool) →
        (strip_not (.var 0 .bool)).2 = (strip_not (mk_not (.var 0 .bool))).2 →
        cmp_expr code_manager (.var 0 .bool) (mk_not (.var 0 .bool)) 4 = -1 ∨
          cmp_expr code_manager (.var 0 .bool) (mk_not (.var 0 .bool)) 4 = 1)) :=
  ⟨code_manager_unique_ids,
    cmp_expr_equal_iff_same code_manager code_manager_unique_ids _ _ 4⟩

/-- C6: the comparator is antisymmetric.  For all terms `a`, `b` and every depth `d`,
`cmp_expr(a,b,d)` is less (-1) if and only if `cmp_expr(b,a,d)` is greater (1); the result of
swapping the operands is the negated result. -/
theorem cmp_expr_less_iff_swap_greater (m : ast_manager) (a b : expr) (d : Int) :
    (cmp_expr m a b d = -1 ↔ cmp_expr m b a d = 1) ∧
      cmp_expr m b a d = - cmp_expr m a b d := by
  have h := cmp_expr_antisymm m a b d
  exact ⟨by omega, h⟩

/-- C7: negation tie-break, un-negated first.  For every term `t` that is not itself a
negation and every depth `d`, `cmp_expr(t, NOT(t), d)` is less (-1) and
`cmp_expr(NOT(t), t, d)` is greater (1). -/
theorem cmp_expr_unnegated_first (m : ast_manager) (t : expr) (d : Int)
    (ht : is_not t = false) :
    cmp_expr m t (mk_not t) d = -1 ∧ cmp_expr m (mk_not t) t d = 1 := by
  have h1 : cmp_expr m t (mk_not t) d = -1 := by
    rw [cmp_expr_unfold, if_neg (ne_mk_not ht), is_not_eq_false ht, strip_not_mk_not,
      if_pos rfl]
    rfl
  have h2 := cmp_expr_antisymm m t (mk_not t) d
  exact ⟨h1, by omega⟩

theorem cmp_expr_unnegated_first_witness :
    is_not (.var 0 .bool) = false ∧
    cmp_expr code_manager (.var 0 .bool) (mk_not (.var 0 .bool)) 4 = -1 ∧
    cmp_expr code_manager (mk_not (.var 0 .bool)) (.var 0 .bool) 4 = 1 :=
  ⟨rfl, cmp_expr_unnegated_first code_manager (.var 0 .bool) 4 rfl⟩

/-- C8, as stated, fails: the negation `NOT(x0)` is an application term, the variable `x1` is
not, and `cmp_expr(NOT(x0), x1, 4)` is less (-1), because the negation is stripped before the
kinds of the terms are looked at and the variables are then compared by identity number. -/
theorem cmp_expr_app_less_than_var :
    ¬ (∀ (m : ast_manager) (a b : expr) (d : Int), is_app a = true → is_app b = false →
      cmp_expr m a b d ≠ -1) := by
  intro h
  refine h code_manager (mk_not (.var 0 .bool)) (.var 1 .bool) 4 rfl rfl ?_
  simp [cmp_expr, strip_not, is_not_arg, mk_not, cmp, code_manager, expr.code, sort.code,
    Nat.pair]

/-- C8, amended: for every term `a` that is an application term once one leading negation is
removed from it, every non-application term `b` (a variable or quantifier) and every depth
`d`, `cmp_expr(a,b,d)` is never less (it is not -1). -/
theorem cmp_expr_stripped_app_not_less (m : ast_manager) (a b : expr) (d : Int)
    (ha : is_app (strip_not a).2 = true) (hb : is_app b = false) :
    cmp_expr m a b d ≠ -1 := by
  have hb2 : strip_not b = (false, b) := by
    rcases strip_not_cases b with ⟨x, hx, _⟩ | ⟨_, hx⟩
    · subst hx; simp [is_app] at hb
    · exact hx
  rw [cmp_expr_unfold2, hb2]
  have hne : (strip_not a).2 ≠ b := by
    intro h; rw [h, hb] at ha; cases ha
  rw [if_neg hne]
  cases hsa : (strip_not a).2 with
  | app f args =>
    cases b with
    | app _ _ => simp [is_app] at hb
    | var _ _ => simp [cmp_core]
    | quantifier _ _ _ => simp [cmp_core]
  | var _ _ => rw [hsa] at ha; simp [is_app] at ha
  | quantifier _ _ _ => rw [hsa] at ha; simp [is_app] at ha

theorem cmp_expr_stripped_app_not_less_witness :
    is_app (strip_not (mk_not (mk_and [.var 0 .bool, .var 1 .bool]))).2 = true ∧
    is_app (.var 1 .bool) = false ∧
    cmp_expr code_manager (mk_not (mk_and [.var 0 .bool, .var 1 .bool])) (.var 1 .bool) 4 ≠ -1 :=
  ⟨rfl, rfl, cmp_expr_stripped_app_not_less code_manager _ _ 4 rfl rfl⟩

/-! ## The connective normalizer: the claims -/

/-- C3: for a term manager whose identity numbers are unique and every non-empty argument
list `v`, sorting `v` with the comparator (depth 4) and then applying `remove_duplicates`
yields a list in which no term occurs twice and whose elements are exactly the elements of
`v`; in particular the arguments `a, a, b` (with `a` and `b` different) become exactly the two
arguments `a` and `b`, in some order. -/
theorem sort_then_remove_duplicates (m : ast_manager) (hm : m.unique_ids) (v : List expr)
    (hv : v ≠ []) :
    (remove_duplicates (std_sort (expr_cmp m) v)).Nodup ∧
      (∀ e, e ∈ remove_duplicates (std_sort (expr_cmp m) v) ↔ e ∈ v) ∧
      (∀ a b, a ≠ b → v = [a, a, b] →
        (remove_duplicates (std_sort (expr_cmp m) v)).Perm [a, b]) := by
  have h := sort_remove_duplicates_spec m hm v hv
  have hnd := nodup_of_strictly_sorted m h.1
  refine ⟨hnd, h.2, ?_⟩
  intro a b hab hvab
  rw [List.perm_ext_iff_of_nodup hnd (by simp [hab])]
  intro e
  rw [h.2 e, hvab]
  simp

theorem sort_then_remove_duplicates_witness :
    code_manager.unique_ids ∧ [expr.var 1 .bool, .var 1 .bool, .var 0 .bool] ≠ [] ∧
    ((remove_duplicates (std_sort (expr_cmp code_manager)
        [.var 1 .bool, .var 1 .bool, .var 0 .bool])).Nodup ∧
      (∀ e, e ∈ remove_duplicates (std_sort (expr_cmp code_manager)
          [.var 1 .bool, .var 1 .bool, .var 0 .bool]) ↔
        e ∈ [expr.var 1 .bool, .var 1 .bool, .var 0 .bool]) ∧
      (∀ a b, a ≠ b → [expr.var 1 .bool, .var 1 .bool, .var 0 .bool] = [a, a, b] →
        (remove_duplicates (std_sort (expr_cmp code_manager)
          [.var 1 .bool, .var 1 .bool, .var 0 .bool])).Perm [a, b])) :=
  ⟨code_manager_unique_ids, by simp,
    sort_then_remove_duplicates code_manager code_manager_unique_ids _ (by simp)⟩

theorem is_not_arg_of_is_not_false {t : expr} (h : is_not t = false) : is_not_arg t = none := by
  cases h2 : is_not_arg t with
  | none => rfl
  | some x => simp [is_not, h2] at h

theorem is_not_arg_mk_not (t : expr) : is_not_arg (mk_not t) = some t := rfl

theorem is_not_mk_not (t : expr) : is_not (mk_not t) = true := rfl

theorem std_sort_pair (lt : expr → expr → Bool) (x y : expr) :
    std_sort lt [x, y] = [x, y] ∨ std_sort lt [x, y] = [y, x] := by
  simp only [std_sort, ordered_insert]
  split
  · right; rfl
  · left; rfl

theorem remove_duplicates_pair {x y : expr} (h : x ≠ y) : remove_duplicates [x, y] = [x, y] := by
  rw [remove_duplicates_cons]
  simp [remove_adjacent, h]

theorem detect_equivalences_pair (a1 b1 a2 b2 e : expr)
    (h : detect_equivalence (a1, b1) (a2, b2) false = some e) :
    detect_equivalences [mk_or [a1, b1], mk_or [a2, b2]] false = ([e], true) := by
  simp [detect_equivalences, detect_equivalences_loop, match_arg_pair, match_binary, mk_or,
    write_back, h]

/-- One step of the normalizer on a conjunction of two different disjunctions of two
arguments that `detect_equivalence` collapses, in both orders, into the same literal. -/
theorem reduce_app_and_pair (cfg : normalizer_cfg) (a1 b1 a2 b2 e : expr)
    (hne : mk_or [a1, b1] ≠ mk_or [a2, b2])
    (h12 : detect_equivalence (a1, b1) (a2, b2) false = some e)
    (h21 : detect_equivalence (a2, b2) (a1, b1) false = some e) :
    cfg.reduce_app .and_decl [mk_or [a1, b1], mk_or [a2, b2]] = (.BR_REWRITE1, some e) := by
  have hb : (func_decl.and_decl == func_decl.or_decl) = false := rfl
  unfold normalizer_cfg.reduce_app
  simp only [reduceCtorEq, if_false, ne_eq, not_true_eq_false, false_and, List.length_cons,
    List.length_nil, hb]
  rcases std_sort_pair (expr_cmp cfg.m) (mk_or [a1, b1]) (mk_or [a2, b2]) with hs | hs
  · rw [hs, remove_duplicates_pair hne, detect_equivalences_pair _ _ _ _ e h12]
    simp
  · rw [hs, remove_duplicates_pair (Ne.symm hne), detect_equivalences_pair _ _ _ _ e h21]
    simp

/-- C1: for all boolean terms `p` and `q` that are not themselves negations, one step of the
connective normalizer (`reduce_app`) on AND with the two arguments `OR(p,q)` and
`OR(NOT p, NOT q)`, given in either order, produces exactly `EQ(p, NOT q)`; and on AND with
the two arguments `OR(p, NOT q)` and `OR(NOT p, q)`, given in either order, it produces
exactly `EQ(p, q)`.  In each case the status asks for one more rewrite (`BR_REWRITE1`). -/
theorem reduce_app_equivalence_collapsing (cfg : normalizer_cfg) (p q : expr)
    (hp : is_bool p = true) (hq : is_bool q = true)
    (hnp : is_not p = false) (hnq : is_not q = false) :
    cfg.reduce_app .and_decl [mk_or [p, q], mk_or [mk_not p, mk_not q]] =
        (.BR_REWRITE1, some (mk_eq p (mk_not q))) ∧
      cfg.reduce_app .and_decl [mk_or [mk_not p, mk_not q], mk_or [p, q]] =
        (.BR_REWRITE1, some (mk_eq p (mk_not q))) ∧
      cfg.reduce_app .and_decl [mk_or [p, mk_not q], mk_or [mk_not p, q]] =
        (.BR_REWRITE1, some (mk_eq p q)) ∧
      cfg.reduce_app .and_decl [mk_or [mk_not p, q], mk_or [p, mk_not q]] =
        (.BR_REWRITE1, some (mk_eq p q)) := by
  have hap := is_not_arg_of_is_not_false hnp
  have haq := is_not_arg_of_is_not_false hnq
  have hpn : p ≠ mk_not p := ne_mk_not hnp
  have hqn : q ≠ mk_not q := ne_mk_not hnq
  have e1 : detect_equivalence (p, q) (mk_not p, mk_not q) false =
      some (mk_eq p (mk_not q)) := by
    simp [detect_equivalence, is_not_out, is_not_arg_mk_not, is_not_mk_not, hap, haq, hnp, hnq,
      hp, hq]
  have e2 : detect_equivalence (mk_not p, mk_not q) (p, q) false =
      some (mk_eq p (mk_not q)) := by
    simp [detect_equivalence, is_not_out, is_not_arg_mk_not, is_not_mk_not, hap, haq, hnp, hnq,
      hp, hq]
  have e3 : detect_equivalence (p, mk_not q) (mk_not p, q) false = some (mk_eq p q) := by
    simp [detect_equivalence, is_not_out, is_not_arg_mk_not, is_not_mk_not, hap, haq, hnp, hnq,
      hp, hq]
  have e4 : detect_equivalence (mk_not p, q) (p, mk_not q) false = some (mk_eq p q) := by
    simp [detect_equivalence, is_not_out, is_not_arg_mk_not, is_not_mk_not, hap, haq, hnp, hnq,
      hp, hq]
  have n1 : mk_or [p, q] ≠ mk_or [mk_not p, mk_not q] := by
    intro h; simp [mk_or] at h; exact hpn h.1
  have n2 : mk_or [p, mk_not q] ≠ mk_or [mk_not p, q] := by
    intro h; simp [mk_or] at h; exact hpn h.1
  exact ⟨reduce_app_and_pair cfg _ _ _ _ _ n1 e1 e2,
    reduce_app_and_pair cfg _ _ _ _ _ (Ne.symm n1) e2 e1,
    reduce_app_and_pair cfg _ _ _ _ _ n2 e3 e4,
    reduce_app_and_pair cfg _ _ _ _ _ (Ne.symm n2) e4 e3⟩

theorem reduce_app_equivalence_collapsing_witness :
    is_bool (.var 0 .bool) = true ∧ is_bool (.var 1 .bool) = true ∧
    is_not (.var 0 .bool) = false ∧ is_not (.var 1 .bool) = false ∧
    normalizer_cfg.reduce_app ⟨code_manager, mk_and, mk_or, fun _ => none⟩ .and_decl
        [mk_or [.var 0 .bool, .var 1 .bool],
          mk_or [mk_not (.var 0 .bool), mk_not (.var 1 .bool)]] =
      (.BR_REWRITE1, some (mk_eq (.var 0 .bool) (mk_not (.var 1 .bool)))) :=
  ⟨rfl, rfl, rfl, rfl,
    (reduce_app_equivalence_collapsing ⟨code_manager, mk_and, mk_or, fun _ => none⟩
      (.var 0 .bool) (.var 1 .bool) rfl rfl rfl rfl).1⟩

theorem is_not_cases (t : expr) :
    (∃ x, t = mk_not x ∧ is_not_arg t = some x ∧ is_not t = true) ∨
      (is_not_arg t = none ∧ is_not t = false) := by
  cases h : is_not_arg t with
  | none => right; exact ⟨rfl, by simp [is_not, h]⟩
  | some x => left; exact ⟨x, is_not_arg_eq_some.mp h, rfl, by simp [is_not, h]⟩

theorem eval_mk_not (v : expr → Bool) (x : expr) : eval v (mk_not x) = !eval v x := by
  simp [mk_not, eval, eval_list, interp]

theorem eval_mk_eq (v : expr → Bool) (x y : expr) (hx : is_bool x = true) :
    eval v (mk_eq x y) = (eval v x == eval v y) := by
  have hs : get_sort x = .bool := by simpa [is_bool] using hx
  simp [mk_eq, hs, eval, eval_list, interp]

/-- C2: whenever `detect_equivalence` returns a literal for two candidate pairs `(a1,b1)` and
`(a2,b2)`, that literal is logically equivalent to what it replaces: under every boolean
valuation of the atoms (reading `EQ` on booleans as "if and only if"), inside a conjunction
the literal is true exactly when `(a1 OR b1) AND (a2 OR b2)` is true, and inside a disjunction
exactly when `(a1 AND b1) OR (a2 AND b2)` is true. -/
theorem detect_equivalence_sound (a1 b1 a2 b2 lit : expr) (inside_disjunction : Bool)
    (h : detect_equivalence (a1, b1) (a2, b2) inside_disjunction = some lit)
    (v : expr → Bool) :
    eval v lit =
      if inside_disjunction then (eval v a1 && eval v b1) || (eval v a2 && eval v b2)
      else (eval v a1 || eval v b1) && (eval v a2 || eval v b2) := by
  rcases is_not_cases a1 with ⟨x1, e1, n1, i1⟩ | ⟨n1, i1⟩ <;>
  rcases is_not_cases a2 with ⟨x2, e2, n2, i2⟩ | ⟨n2, i2⟩ <;>
  rcases is_not_cases b1 with ⟨y1, e3, n3, i3⟩ | ⟨n3, i3⟩ <;>
  rcases is_not_cases b2 with ⟨y2, e4, n4, i4⟩ | ⟨n4, i4⟩ <;>
  simp [detect_equivalence, is_not_out, n1, i1, n2, i2, n3, i3, n4, i4] at h
  · obtain ⟨ha, hb, ⟨hbx, hby⟩, hl⟩ := h
    subst e1 e3 ha hb
    cases inside_disjunction <;> simp at hl <;> subst hl <;>
      simp only [eval_mk_eq _ _ _ hbx, eval_mk_not] <;>
      cases eval v a2 <;> cases eval v b2 <;> rfl
  · obtain ⟨ha, hb, ⟨hbx, hby⟩, hl⟩ := h
    subst e1 e4 ha hb
    cases inside_disjunction <;> simp at hl <;> subst hl <;>
      simp only [eval_mk_eq _ _ _ hbx, eval_mk_not] <;>
      cases eval v a2 <;> cases eval v b1 <;> rfl
  · obtain ⟨ha, hb, ⟨hbx, hby⟩, hl⟩ := h
    subst e2 e3 ha hb
    cases inside_disjunction <;> simp at hl <;> subst hl <;>
      simp only [eval_mk_eq _ _ _ hbx, eval_mk_not] <;>
      cases eval v a1 <;> cases eval v b2 <;> rfl
  · obtain ⟨ha, hb, ⟨hbx, hby⟩, hl⟩ := h
    subst e2 e4 ha hb
    cases inside_disjunction <;> simp at hl <;> subst hl <;>
      simp only [eval_mk_eq _ _ _ hbx, eval_mk_not] <;>
      cases eval v a1 <;> cases eval v b1 <;> rfl

theorem detect_equivalence_sound_witness :
    detect_equivalence (.var 0 .bool, .var 1 .bool)
        (mk_not (.var 0 .bool), mk_not (.var 1 .bool)) false =
      some (mk_eq (.var 0 .bool) (mk_not (.var 1 .bool))) ∧
    eval (fun e => e == .var 0 .bool) (mk_eq (.var 0 .bool) (mk_not (.var 1 .bool))) =
      if false then
        (eval (fun e => e == .var 0 .bool) (.var 0 .bool) &&
          eval (fun e => e == .var 0 .bool) (.var 1 .bool)) ||
        (eval (fun e => e == .var 0 .bool) (mk_not (.var 0 .bool)) &&
          eval (fun e => e == .var 0 .bool) (mk_not (.var 1 .bool)))
      else
        (eval (fun e => e == .var 0 .bool) (.var 0 .bool) ||
          eval (fun e => e == .var 0 .bool) (.var 1 .bool)) &&
        (eval (fun e => e == .var 0 .bool) (mk_not (.var 0 .bool)) ||
          eval (fun e => e == .var 0 .bool) (mk_not (.var 1 .bool))) :=
  have h : detect_equivalence (.var 0 .bool, .var 1 .bool)
      (mk_not (.var 0 .bool), mk_not (.var 1 .bool)) false =
      some (mk_eq (.var 0 .bool) (mk_not (.var 1 .bool))) := by
    simp [detect_equivalence, is_not_out, is_not, is_not_arg, mk_not, is_bool, get_sort]
  ⟨h, detect_equivalence_sound _ _ _ _ _ false h (fun e => e == .var 0 .bool)⟩

/-! ## The rule transformer: the claims -/

theorem is_false_not_is_true {e : expr} (h : is_true e = true) : is_false e = false := by
  cases e with
  | app f args =>
    simp only [is_true, is_false, is_app_of, beq_iff_eq] at h ⊢
    subst h
    rfl
  | var _ _ => rfl
  | quantifier _ _ _ => rfl

theorem is_app_of_is_app_of {e : expr} {f : func_decl} (h : is_app_of e f = true) :
    is_app e = true := by
  cases e with
  | app g args => rfl
  | var _ _ => simp [is_app_of] at h
  | quantifier _ _ _ => simp [is_app_of] at h

/-- C9: for every rule without quantifiers and with a non-empty constraint suffix, if the
simplification pipeline applied to the conjoined constraint suffix returns the constant false
(a term that `is_false` recognises), then `transform_rule` returns false (Drop), whatever the
fuel for the restarts, and the rule-set driver goes on with the next rules without adding
anything to the output set, with `modified` set. -/
theorem transform_rule_drops_infeasible (s : mk_interp_tail_simplifier σ) (fuel : Nat)
    (st : simplifier_state σ) (r : rule)
    (hq : r.has_quantifiers = false)
    (hne : r.get_uninterpreted_tail_size < r.get_tail_size)
    (hf : is_false (s.simplify_expr r.interpreted_tail) = true) :
    s.transform_rule (fuel + 1) st r = some (.drop, st) ∧
      ∀ (rest : List rule) (modified : Bool) (tgt : List rule),
        s.transform_rules_loop (fuel + 1) (r :: rest) st modified tgt =
          s.transform_rules_loop (fuel + 1) rest st true tgt := by
  have h1 : s.transform_rule (fuel + 1) st r = some (.drop, st) := by
    have happ := is_app_of_is_app_of hf
    simp only [mk_interp_tail_simplifier.transform_rule, hq,
      mk_interp_tail_simplifier.transform_rule_from_start]
    simp [Nat.ne_of_lt hne, happ, hf]
  refine ⟨h1, ?_⟩
  intro rest modified tgt
  simp only [mk_interp_tail_simplifier.transform_rules_loop, h1]

theorem transform_rule_drops_infeasible_witness :
    sample_rule_false.has_quantifiers = false ∧
    sample_rule_false.get_uninterpreted_tail_size < sample_rule_false.get_tail_size ∧
    is_false (idle_simplifier.simplify_expr sample_rule_false.interpreted_tail) = true ∧
    idle_simplifier.transform_rule (0 + 1) ⟨(), none, 1⟩ sample_rule_false =
      some (.drop, ⟨(), none, 1⟩) :=
  have hq : sample_rule_false.has_quantifiers = false := by decide
  have hne : sample_rule_false.get_uninterpreted_tail_size <
      sample_rule_false.get_tail_size := by decide
  have hf : is_false (idle_simplifier.simplify_expr sample_rule_false.interpreted_tail) =
      true := by decide
  ⟨hq, hne, hf,
    (transform_rule_drops_infeasible idle_simplifier 0 ⟨(), none, 1⟩ sample_rule_false
      hq hne hf).1⟩

/-- The rule manager builds, from a list of relational literals, a rule whose body is that
list and whose constraint suffix is empty. -/
theorem rule_manager_mk_relational (is_predicate : func_decl → Bool) (obj : Nat) (head : expr)
    (tail : List (expr × Bool)) (h : ∀ l ∈ tail, is_relational is_predicate l = true) :
    rule_manager.mk is_predicate obj head tail =
      { obj := obj, head := head, tail := tail, uninterp_cnt := tail.length } := by
  have h1 : tail.filter (is_relational is_predicate) = tail := List.filter_eq_self.mpr h
  have h2 : tail.filter (fun l => !is_relational is_predicate l) = [] := by
    rw [List.filter_eq_nil_iff]
    intro l hl
    simp [h l hl]
  simp only [rule_manager.mk, h1, h2, List.append_nil]

/-- C10: for every rule without quantifiers and with a non-empty constraint suffix (whose
relational prefix consists of literals over user-defined predicates), if the simplification
pipeline applied to the conjoined constraint suffix returns the constant true, then
`transform_rule` returns true (Keep), whatever the fuel for the restarts, with a rebuilt rule
(a new rule object) whose head is the input head and whose body is exactly the relational
prefix (same literals, same order, same polarities) with an empty constraint suffix. -/
theorem transform_rule_removes_vacuous_constraint (s : mk_interp_tail_simplifier σ)
    (fuel : Nat) (st : simplifier_state σ) (r : rule)
    (hq : r.has_quantifiers = false)
    (hne : r.get_uninterpreted_tail_size < r.get_tail_size)
    (hrel : ∀ l ∈ r.tail.take r.get_uninterpreted_tail_size,
      is_relational s.is_predicate l = true)
    (ht : is_true (s.simplify_expr r.interpreted_tail) = true) :
    ∃ res : rule,
      s.transform_rule (fuel + 1) st r =
        some (.keep res, { st with next_obj := st.next_obj + 1 }) ∧
      res.obj = st.next_obj ∧ res.head = r.head ∧
      res.tail = r.tail.take r.get_uninterpreted_tail_size ∧
      res.get_uninterpreted_tail_size = res.get_tail_size := by
  refine ⟨⟨st.next_obj, r.head, r.tail.take r.get_uninterpreted_tail_size,
    (r.tail.take r.get_uninterpreted_tail_size).length⟩, ?_, rfl, rfl, rfl, rfl⟩
  have happ := is_app_of_is_app_of ht
  have hnf := is_false_not_is_true ht
  simp only [rule.get_uninterpreted_tail_size, rule.get_tail_size] at hne hrel ⊢
  have hmk := rule_manager_mk_relational s.is_predicate st.next_obj r.head _ hrel
  simp only [mk_interp_tail_simplifier.transform_rule, hq,
    mk_interp_tail_simplifier.transform_rule_from_start]
  simp [rule.get_uninterpreted_tail_size, rule.get_tail_size, Nat.ne_of_lt hne, happ, hnf, ht,
    mk_interp_tail_simplifier.mk_rule, hmk,
    mk_interp_tail_simplifier.propagate_variable_equivalences]

theorem transform_rule_removes_vacuous_constraint_witness :
    sample_rule_true.has_quantifiers = false ∧
    sample_rule_true.get_uninterpreted_tail_size < sample_rule_true.get_tail_size ∧
    (∀ l ∈ sample_rule_true.tail.take sample_rule_true.get_uninterpreted_tail_size,
      is_relational idle_simplifier.is_predicate l = true) ∧
    is_true (idle_simplifier.simplify_expr sample_rule_true.interpreted_tail) = true ∧
    ∃ res : rule,
      idle_simplifier.transform_rule (0 + 1) ⟨(), none, 1⟩ sample_rule_true =
        some (.keep res, { (⟨(), none, 1⟩ : simplifier_state Unit) with next_obj := 1 + 1 }) ∧
      res.obj = 1 ∧ res.head = sample_rule_true.head ∧
      res.tail = sample_rule_true.tail.take sample_rule_true.get_uninterpreted_tail_size ∧
      res.get_uninterpreted_tail_size = res.get_tail_size :=
  have hq : sample_rule_true.has_quantifiers = false := by decide
  have hne : sample_rule_true.get_uninterpreted_tail_size <
      sample_rule_true.get_tail_size := by decide
  have hrel : ∀ l ∈ sample_rule_true.tail.take sample_rule_true.get_uninterpreted_tail_size,
      is_relational idle_simplifier.is_predicate l = true := by decide
  have ht : is_true (idle_simplifier.simplify_expr sample_rule_true.interpreted_tail) =
      true := by decide
  ⟨hq, hne, hrel, ht,
    transform_rule_removes_vacuous_constraint idle_simplifier 0 ⟨(), none, 1⟩
      sample_rule_true hq hne hrel ht⟩

/-! ## The restart loop of `transform_rule` -/

/-- The body of `transform_rule` from `start` is one pass, followed by the rest of the loop
when the pass jumps back to `start`. -/
theorem transform_rule_from_start_succ (s : mk_interp_tail_simplifier σ) (fuel : Nat)
    (st : simplifier_state σ) (r : rule) :
    s.transform_rule_from_start (fuel + 1) st r =
      match s.pass st r with
      | .restart st1 r1 => s.transform_rule_from_start fuel st1 r1
      | .finished res st1 => some (res, st1) := by
  simp only [mk_interp_tail_simplifier.transform_rule_from_start,
    mk_interp_tail_simplifier.pass]
  split_ifs <;> try rfl
  all_goals (split <;> simp_all)

theorem transform_rule_of_finished (s : mk_interp_tail_simplifier σ) (fuel : Nat)
    (st st1 : simplifier_state σ) (r : rule) (res : transform_result)
    (hq : r.has_quantifiers = false) (h : s.pass st r = .finished res st1) :
    s.transform_rule (fuel + 1) st r = some (res, st1) := by
  simp only [mk_interp_tail_simplifier.transform_rule, hq, transform_rule_from_start_succ, h]
  rfl

/-- C13: for every rule that has quantifiers, and for every rule whose constraint suffix is
empty, `transform_rule` returns true (Keep) with the input rule itself; the answer and the
unchanged state are the same for every simplification pipeline and every propagator, so
neither is invoked. -/
theorem transform_rule_keeps_out_of_scope (s : mk_interp_tail_simplifier σ) (fuel : Nat)
    (st : simplifier_state σ) (r : rule)
    (h : r.has_quantifiers = true ∨ r.get_uninterpreted_tail_size = r.get_tail_size) :
    s.transform_rule (fuel + 1) st r = some (.keep r, st) := by
  by_cases hq : r.has_quantifiers = true
  · simp [mk_interp_tail_simplifier.transform_rule, hq]
  · have hu : r.get_uninterpreted_tail_size = r.get_tail_size := by
      rcases h with h | h
      · exact absurd h hq
      · exact h
    apply transform_rule_of_finished s fuel st st r _ (by simpa using hq)
    unfold mk_interp_tail_simplifier.pass
    simp only [hu, if_true]

theorem transform_rule_keeps_out_of_scope_witness :
    (sample_rule_relational.has_quantifiers = true ∨
      sample_rule_relational.get_uninterpreted_tail_size =
        sample_rule_relational.get_tail_size) ∧
    idle_simplifier.transform_rule (0 + 1) ⟨(), none, 1⟩ sample_rule_relational =
      some (.keep sample_rule_relational, ⟨(), none, 1⟩) :=
  ⟨Or.inr rfl,
    transform_rule_keeps_out_of_scope idle_simplifier 0 ⟨(), none, 1⟩ _ (Or.inr rfl)⟩

/-! ## The outcome of the simplification: the claims -/

/-- C11, as stated, fails: the pipeline of `constant_simplifier (mk_numeral 5)` returns the
numeral 5, which is not boolean-valued, for the constraint `x0 <= 1` of the rule
`H(x0) :- A(x0), x0 <= 1`, and `transform_rule` returns true (Keep) with the rebuilt rule
`H(x0) :- A(x0), 5`: an application term is taken as the new constraint literal without a
test of its sort. -/
theorem transform_rule_keeps_non_boolean_application :
    sample_rule_le.has_quantifiers = false ∧
    sample_rule_le.get_uninterpreted_tail_size < sample_rule_le.get_tail_size ∧
    is_bool ((constant_simplifier (mk_numeral 5)).simplify_expr
      sample_rule_le.interpreted_tail) = false ∧
    (constant_simplifier (mk_numeral 5)).transform_rule (0 + 1) ⟨(), none, 1⟩ sample_rule_le =
      some (.keep ⟨1, sample_rule_le.head,
          [(.app (.uninterp 1 .bool) [.var 0 (.other 0)], false), (mk_numeral 5, false)], 1⟩,
        ⟨(), some ⟨1, sample_rule_le.head,
          [(.app (.uninterp 1 .bool) [.var 0 (.other 0)], false), (mk_numeral 5, false)], 1⟩,
          2⟩) := by
  refine ⟨by decide, by decide, by decide, ?_⟩
  apply transform_rule_of_finished _ _ _ _ _ _ (by decide)
  simp [mk_interp_tail_simplifier.pass, constant_simplifier, idle_simplifier,
    mk_interp_tail_simplifier.simplify_expr, sample_rule_le, rule.interpreted_tail,
    rule.get_uninterpreted_tail_size, rule.get_tail_size, rule.get_tail, mk_numeral, mk_le,
    is_app, is_bool, get_sort, func_decl.get_range, is_false, is_true, is_app_of,
    mk_interp_tail_simplifier.mk_rule, rule_manager.mk, is_relational,
    mk_interp_tail_simplifier.propagate_variable_equivalences,
    mk_interp_tail_simplifier.propagate_loop, mk_interp_tail_simplifier.propagate_step,
    mk_interp_tail_simplifier.reset, strip_not, is_not_arg, is_var, is_and, match_flex_eq,
    is_eq_args, match_binary, match_le_ge]

/-- C11, amended: for every rule without quantifiers and with a non-empty constraint suffix,
if the simplification pipeline returns a term that is neither an application term nor
boolean-valued, `transform_rule` throws the exception "simplification resulted in non-boolean
non-function" (it neither keeps nor drops the rule), the exception passes through the
rule-set driver, which adds no further rule, and through the top-level operator. -/
theorem transform_rule_throws_on_non_boolean_non_function (s : mk_interp_tail_simplifier σ)
    (fuel : Nat) (st : simplifier_state σ) (r : rule)
    (hq : r.has_quantifiers = false)
    (hne : r.get_uninterpreted_tail_size < r.get_tail_size)
    (happ : is_app (s.simplify_expr r.interpreted_tail) = false)
    (hbool : is_bool (s.simplify_expr r.interpreted_tail) = false) :
    s.transform_rule (fuel + 1) st r =
        some (.exception "simplification resulted in non-boolean non-function", st) ∧
      (∀ (rest : List rule) (modified : Bool) (tgt : List rule),
        s.transform_rules_loop (fuel + 1) (r :: rest) st modified tgt =
          some (.exception "simplification resulted in non-boolean non-function", st)) ∧
      ∀ rest : List rule, s.run (fuel + 1) st (r :: rest) =
        some (.error "simplification resulted in non-boolean non-function", st) := by
  have h1 : s.transform_rule (fuel + 1) st r =
      some (.exception "simplification resulted in non-boolean non-function", st) := by
    apply transform_rule_of_finished s fuel st st r _ hq
    unfold mk_interp_tail_simplifier.pass
    simp only [Nat.ne_of_lt hne, if_false, happ, hbool, Bool.not_false, Bool.and_self, if_true]
  refine ⟨h1, ?_, ?_⟩
  · intro rest modified tgt
    simp only [mk_interp_tail_simplifier.transform_rules_loop, h1]
  · intro rest
    simp [mk_interp_tail_simplifier.run, mk_interp_tail_simplifier.transform_rules,
      mk_interp_tail_simplifier.transform_rules_loop, h1]

theorem transform_rule_throws_on_non_boolean_non_function_witness :
    sample_rule_le.has_quantifiers = false ∧
    sample_rule_le.get_uninterpreted_tail_size < sample_rule_le.get_tail_size ∧
    is_app ((constant_simplifier sample_arith_var).simplify_expr
      sample_rule_le.interpreted_tail) = false ∧
    is_bool ((constant_simplifier sample_arith_var).simplify_expr
      sample_rule_le.interpreted_tail) = false ∧
    (constant_simplifier sample_arith_var).transform_rule (0 + 1) ⟨(), none, 1⟩
        sample_rule_le =
      some (.exception "simplification resulted in non-boolean non-function",
        ⟨(), none, 1⟩) :=
  ⟨by decide, by decide, by decide, by decide,
    (transform_rule_throws_on_non_boolean_non_function (constant_simplifier sample_arith_var)
      0 ⟨(), none, 1⟩ sample_rule_le (by decide) (by decide) (by decide) (by decide)).1⟩

/-- C12: identity preservation.  For every rule without quantifiers whose constraint suffix
is a single literal (an application term, as every body literal is) that the simplification
pipeline returns unchanged and that is neither true nor false, and for which the propagator
finds no binding, `transform_rule` returns true (Keep) with the very same rule object as its
input, and the rule-set driver adds that rule to the output set without changing
`modified`. -/
theorem transform_rule_preserves_identity (s : mk_interp_tail_simplifier σ) (fuel : Nat)
    (st : simplifier_state σ) (r : rule)
    (hq : r.has_quantifiers = false)
    (h1 : r.get_uninterpreted_tail_size + 1 = r.get_tail_size)
    (happ : is_app (r.get_tail r.get_uninterpreted_tail_size) = true)
    (hs : s.simplify_expr (r.get_tail r.get_uninterpreted_tail_size) =
      r.get_tail r.get_uninterpreted_tail_size)
    (hnt : is_true (r.get_tail r.get_uninterpreted_tail_size) = false)
    (hnf : is_false (r.get_tail r.get_uninterpreted_tail_size) = false)
    (hp : (s.propagate_variable_equivalences st r).1 = none) :
    s.transform_rule (fuel + 1) st r =
        some (.keep r, (s.propagate_variable_equivalences st r).2) ∧
      ∀ (rest : List rule) (modified : Bool) (tgt : List rule),
        s.transform_rules_loop (fuel + 1) (r :: rest) st modified tgt =
          s.transform_rules_loop (fuel + 1) rest (s.propagate_variable_equivalences st r).2
            modified (tgt ++ [r]) := by
  have hit : r.interpreted_tail = r.get_tail r.get_uninterpreted_tail_size := by
    simp [rule.interpreted_tail, h1]
  have h2 : s.transform_rule (fuel + 1) st r =
      some (.keep r, (s.propagate_variable_equivalences st r).2) := by
    apply transform_rule_of_finished s fuel st _ r _ hq
    unfold mk_interp_tail_simplifier.pass
    have hne : r.get_uninterpreted_tail_size ≠ r.get_tail_size := by omega
    simp only [hne, if_false, h1, if_true, hit, hs, happ, hnt, hnf, bne_self_eq_false,
      Bool.or_self, Bool.not_true, Bool.false_and, Bool.not_false]
    simp only [Bool.false_eq_true, if_false]
    rw [hp]
  refine ⟨h2, ?_⟩
  intro rest modified tgt
  simp only [mk_interp_tail_simplifier.transform_rules_loop, h2]
  simp

theorem transform_rule_preserves_identity_witness :
    sample_rule_le.has_quantifiers = false ∧
    sample_rule_le.get_uninterpreted_tail_size + 1 = sample_rule_le.get_tail_size ∧
    is_app (sample_rule_le.get_tail sample_rule_le.get_uninterpreted_tail_size) = true ∧
    idle_simplifier.simplify_expr
        (sample_rule_le.get_tail sample_rule_le.get_uninterpreted_tail_size) =
      sample_rule_le.get_tail sample_rule_le.get_uninterpreted_tail_size ∧
    is_true (sample_rule_le.get_tail sample_rule_le.get_uninterpreted_tail_size) = false ∧
    is_false (sample_rule_le.get_tail sample_rule_le.get_uninterpreted_tail_size) = false ∧
    (idle_simplifier.propagate_variable_equivalences ⟨(), none, 1⟩ sample_rule_le).1 = none ∧
    idle_simplifier.transform_rule (0 + 1) ⟨(), none, 1⟩ sample_rule_le =
      some (.keep sample_rule_le,
        (idle_simplifier.propagate_variable_equivalences ⟨(), none, 1⟩ sample_rule_le).2) :=
  have hp : (idle_simplifier.propagate_variable_equivalences ⟨(), none, 1⟩
      sample_rule_le).1 = none := by
    simp [mk_interp_tail_simplifier.propagate_variable_equivalences, sample_rule_le,
      rule.get_uninterpreted_tail_size, rule.get_tail_size,
      mk_interp_tail_simplifier.propagate_loop, mk_interp_tail_simplifier.propagate_step,
      strip_not, is_not_arg, is_var, is_and, is_app_of, mk_le, match_flex_eq, is_eq_args,
      match_binary, match_le_ge]
  ⟨by decide, by decide, by decide, by decide, by decide, by decide, hp,
    (transform_rule_preserves_identity idle_simplifier 0 ⟨(), none, 1⟩ sample_rule_le
      (by decide) (by decide) (by decide) (by decide) (by decide) (by decide) hp).1⟩

/-! ## The rule-set driver -/

theorem transform_rules_loop_outcomes (s : mk_interp_tail_simplifier σ) (fuel : Nat)
    (orig : List rule) :
    ∀ (st : simplifier_state σ) (modified : Bool) (tgt : List rule) (modified1 : Bool)
      (tgt1 : List rule) (st1 : simplifier_state σ),
    s.transform_rules_loop fuel orig st modified tgt = some (.returned modified1 tgt1, st1) ↔
    ∃ outs, s.rule_outcomes fuel orig st = some (outs, st1) ∧
      (∀ o ∈ outs, o.2.is_exception = false) ∧
      tgt1 = tgt ++ outs.filterMap (fun o => o.2.kept) ∧
      modified1 = (modified || outs.any outcome_changed) := by
  induction orig with
  | nil =>
    intro st modified tgt modified1 tgt1 st1
    simp only [mk_interp_tail_simplifier.transform_rules_loop,
      mk_interp_tail_simplifier.rule_outcomes]
    constructor
    · intro h
      simp only [Option.some.injEq, Prod.mk.injEq, transform_rules_result.returned.injEq] at h
      exact ⟨[], by simp [h.2], by simp, by simp [h.1.2], by simp [h.1.1]⟩
    · rintro ⟨outs, h1, -, h3, h4⟩
      simp only [Option.some.injEq, Prod.mk.injEq] at h1
      rw [← h1.1] at h3 h4
      simp at h3 h4
      simp [h1.2, h3, h4]
  | cons rit rest ih =>
    intro st modified tgt modified1 tgt1 st1
    simp only [mk_interp_tail_simplifier.transform_rules_loop,
      mk_interp_tail_simplifier.rule_outcomes]
    cases hr : s.transform_rule fuel st rit with
    | none => simp
    | some p =>
      obtain ⟨res, st2⟩ := p
      cases res with
      | exception msg =>
        constructor
        · intro h
          simp at h
        · rintro ⟨outs, h, h2, -⟩
          cases ho : s.rule_outcomes fuel rest st2 with
          | none => simp [ho] at h
          | some q =>
            simp only [ho, Option.some.injEq, Prod.mk.injEq] at h
            have := h2 (rit, .exception msg) (by rw [← h.1]; simp)
            simp [transform_result.is_exception] at this
      | drop =>
        simp only [ih]
        constructor
        · rintro ⟨outs, h1, h2, h3, h4⟩
          refine ⟨(rit, .drop) :: outs, by simp [h1], ?_, ?_, ?_⟩
          · intro o ho
            rcases List.mem_cons.1 ho with rfl | ho
            · rfl
            · exact h2 o ho
          · simp [h3, transform_result.kept]
          · simp [h4, outcome_changed]
        · rintro ⟨outs, h1, h2, h3, h4⟩
          cases ho : s.rule_outcomes fuel rest st2 with
          | none => simp [ho] at h1
          | some q =>
            obtain ⟨outs2, st3⟩ := q
            simp only [ho, Option.some.injEq, Prod.mk.injEq] at h1
            obtain ⟨rfl, rfl⟩ := h1
            refine ⟨outs2, rfl, fun o ho => h2 o (List.mem_cons_of_mem _ ho), ?_, ?_⟩
            · simpa [transform_result.kept] using h3
            · simpa [outcome_changed] using h4
      | keep new_rule =>
        simp only [ih]
        constructor
        · rintro ⟨outs, h1, h2, h3, h4⟩
          refine ⟨(rit, .keep new_rule) :: outs, by simp [h1], ?_, ?_, ?_⟩
          · intro o ho
            rcases List.mem_cons.1 ho with rfl | ho
            · rfl
            · exact h2 o ho
          · simp [h3, transform_result.kept]
          · simp [h4, outcome_changed, Bool.or_assoc]
        · rintro ⟨outs, h1, h2, h3, h4⟩
          cases ho : s.rule_outcomes fuel rest st2 with
          | none => simp [ho] at h1
          | some q =>
            obtain ⟨outs2, st3⟩ := q
            simp only [ho, Option.some.injEq, Prod.mk.injEq] at h1
            obtain ⟨rfl, rfl⟩ := h1
            refine ⟨outs2, rfl, fun o ho => h2 o (List.mem_cons_of_mem _ ho), ?_, ?_⟩
            · simpa [transform_result.kept] using h3
            · simpa [outcome_changed, Bool.or_assoc] using h4

/-- C17: the rule-set driver returns `modified` with the output set `tgt` exactly when the
calls of `transform_rule` for the source rules, made in iteration order, all return without
exception, `tgt` holds the rules of the calls that answered Keep, one per such source rule
and in that order, and `modified` says that some rule was dropped or some kept rule is not
the same object as its input rule; the top-level operator returns no rule set exactly
when the source is empty or the driver reports that nothing was modified. -/
theorem transform_rules_keeps_exactly_kept_rules (s : mk_interp_tail_simplifier σ)
    (fuel : Nat) (st st1 : simplifier_state σ) (source : List rule) :
    (∀ modified tgt,
      s.transform_rules fuel st source = some (.returned modified tgt, st1) ↔
      ∃ outs, s.rule_outcomes fuel source st = some (outs, st1) ∧
        (∀ o ∈ outs, o.2.is_exception = false) ∧
        tgt = outs.filterMap (fun o => o.2.kept) ∧
        modified = outs.any outcome_changed) ∧
    (s.run fuel st source = some (.ok none, st1) ↔
      (source = [] ∧ st1 = st) ∨
      ∃ tgt, s.transform_rules fuel st source = some (.returned false tgt, st1)) := by
  constructor
  · intro modified tgt
    have h := transform_rules_loop_outcomes s fuel source st false [] modified tgt st1
    simpa [mk_interp_tail_simplifier.transform_rules] using h
  · unfold mk_interp_tail_simplifier.run
    cases source with
    | nil =>
      simp [mk_interp_tail_simplifier.transform_rules,
        mk_interp_tail_simplifier.transform_rules_loop, eq_comm]
    | cons r rest =>
      simp only [List.length_cons, Nat.add_one_ne_zero, if_false, false_and, false_or,
        reduceCtorEq]
      cases ht : s.transform_rules fuel st (r :: rest) with
      | none => simp
      | some p =>
        obtain ⟨res, st2⟩ := p
        cases res with
        | exception msg => simp
        | returned modified tgt =>
          cases modified <;> simp

/-! ## The calls of the propagator to the unifier -/

theorem unify_all_append (s : mk_interp_tail_simplifier σ) (l1 l2 : List (expr × expr)) :
    ∀ (st : simplifier_state σ) (f : Bool),
    s.unify_all (l1 ++ l2) st f = s.unify_all l2 (s.unify_all l1 st f).1 (s.unify_all l1 st f).2 := by
  induction l1 with
  | nil => intro st f; rfl
  | cons c cs ih => intro st f; simp [mk_interp_tail_simplifier.unify_all, ih]

/-- One pass of the loop body does what its trace says. -/
theorem propagate_step_trace (s : mk_interp_tail_simplifier σ) (ps : propagate_state σ)
    (t0 : expr) :
    (s.propagate_step ps t0).1 = (propagate_step_calls ps.leqs t0).1 ∧
    (s.propagate_step ps t0).2.leqs = (propagate_step_calls ps.leqs t0).2.2 ∧
    ((s.propagate_step ps t0).2.st, (s.propagate_step ps t0).2.found_something) =
      s.unify_all (propagate_step_calls ps.leqs t0).2.1 ps.st ps.found_something := by
  unfold mk_interp_tail_simplifier.propagate_step propagate_step_calls
  simp only
  split
  · simp [mk_interp_tail_simplifier.unify_all, mk_interp_tail_simplifier.TRY_UNIFY]
  · split
    · simp [mk_interp_tail_simplifier.unify_all]
    · split
      · simp [mk_interp_tail_simplifier.unify_all, mk_interp_tail_simplifier.TRY_UNIFY]
      · split
        · split_ifs <;>
            simp [mk_interp_tail_simplifier.unify_all, mk_interp_tail_simplifier.TRY_UNIFY]
        · split
          · split_ifs <;>
              simp [mk_interp_tail_simplifier.unify_all, mk_interp_tail_simplifier.TRY_UNIFY]
          · simp [mk_interp_tail_simplifier.unify_all]

/-- The loop of the propagator executes `TRY_UNIFY` on the pairs of `unify_calls`, in their
order, and nothing else changes the substitution state or `found_something`. -/
theorem propagate_loop_trace (s : mk_interp_tail_simplifier σ) :
    ∀ (n : Nat) (todo : List expr) (ps : propagate_state σ), todo_size todo ≤ n →
    ((s.propagate_loop todo ps).st, (s.propagate_loop todo ps).found_something) =
      s.unify_all (unify_calls todo ps.leqs) ps.st ps.found_something := by
  intro n
  induction n with
  | zero =>
    intro todo ps h
    cases todo with
    | nil => simp [mk_interp_tail_simplifier.propagate_loop, unify_calls,
        mk_interp_tail_simplifier.unify_all]
    | cons t rest => simp [todo_size] at h
  | succ n ih =>
    intro todo ps h
    cases todo with
    | nil => simp [mk_interp_tail_simplifier.propagate_loop, unify_calls,
        mk_interp_tail_simplifier.unify_all]
    | cons t rest =>
      obtain ⟨h1, h2, h3⟩ := propagate_step_trace s ps t
      have hsz := propagate_step_size s ps t
      rw [mk_interp_tail_simplifier.propagate_loop, unify_calls]
      rw [ih _ _ (by
        rw [todo_size_append, todo_size_reverse]
        simp only [todo_size] at h
        omega)]
      rw [unify_all_append, ← h3, h1, h2]

/-- The propagator in terms of its calls to the unifier. -/
theorem propagate_variable_equivalences_trace (s : mk_interp_tail_simplifier σ)
    (st : simplifier_state σ) (r : rule)
    (h : r.get_uninterpreted_tail_size ≠ r.get_tail_size) :
    s.propagate_variable_equivalences st r =
      if !(s.unify_all r.propagate_calls (s.reset st r) false).2 then
        (none, (s.unify_all r.propagate_calls (s.reset st r) false).1)
      else
        ((s.get_result (s.unify_all r.propagate_calls (s.reset st r) false).1 r).1,
         (s.get_result (s.unify_all r.propagate_calls (s.reset st r) false).1 r).2) := by
  have ht := propagate_loop_trace s _
    ((r.tail.drop r.get_uninterpreted_tail_size).map Prod.fst).reverse
    ⟨s.reset st r, false, [], []⟩ (le_refl _)
  simp only [Prod.ext_iff] at ht
  unfold mk_interp_tail_simplifier.propagate_variable_equivalences rule.propagate_calls
  simp only [h, if_false]
  rw [← ht.1, ← ht.2]

theorem propagate_step_calls_le (leqs : List expr) (a b : expr) :
    propagate_step_calls leqs (mk_le a b) = ([], [], mk_sub a b :: leqs) := by
  simp [propagate_step_calls, mk_le, strip_not, is_not_arg, is_var, is_and, is_app_of,
    match_flex_eq, is_eq_args, match_binary, match_le_ge]

theorem propagate_step_calls_ge (leqs : List expr) (a b : expr) :
    propagate_step_calls leqs (mk_ge a b) = ([], [], mk_sub b a :: leqs) := by
  simp [propagate_step_calls, mk_ge, strip_not, is_not_arg, is_var, is_and, is_app_of,
    match_flex_eq, is_eq_args, match_binary, match_le_ge]

theorem unify_calls_inequalities (todo : List expr) :
    ∀ (leqs : List expr), (∀ t ∈ todo, ∃ a b, t = mk_le a b ∨ t = mk_ge a b) →
    unify_calls todo leqs = [] := by
  induction todo with
  | nil => intro leqs _; simp [unify_calls]
  | cons t rest ih =>
    intro leqs h
    obtain ⟨a, b, hab⟩ := h t (List.mem_cons_self _ _)
    have hrest := fun leqs1 => ih leqs1 (fun t1 h1 => h t1 (List.mem_cons_of_mem _ h1))
    rcases hab with rfl | rfl
    · rw [unify_calls, propagate_step_calls_le]
      simpa using hrest _
    · rw [unify_calls, propagate_step_calls_ge]
      simpa using hrest _

/-- C16: for every rule whose constraint literals are all linear inequalities `a <= b` or
`a >= b` (not under a NOT), whatever their polarity flags and also when both `x <= y` and
`y <= x` are among them, `propagate_variable_equivalences` passes no pair to `unify` and
returns false ("no change"). -/
theorem propagate_variable_equivalences_inert_on_inequalities
    (s : mk_interp_tail_simplifier σ) (st : simplifier_state σ) (r : rule)
    (h : ∀ l ∈ r.tail.drop r.get_uninterpreted_tail_size,
      ∃ a b, l.1 = mk_le a b ∨ l.1 = mk_ge a b) :
    r.propagate_calls = [] ∧ (s.propagate_variable_equivalences st r).1 = none := by
  have hc : r.propagate_calls = [] := by
    unfold rule.propagate_calls
    simp only
    split_ifs with hu
    · rfl
    · apply unify_calls_inequalities
      intro t ht
      simp only [List.mem_reverse, List.mem_map] at ht
      obtain ⟨l, hl, rfl⟩ := ht
      exact h l hl
  refine ⟨hc, ?_⟩
  by_cases hu : r.get_uninterpreted_tail_size = r.get_tail_size
  · simp [mk_interp_tail_simplifier.propagate_variable_equivalences, hu]
  · rw [propagate_variable_equivalences_trace s st r hu, hc]
    simp [mk_interp_tail_simplifier.unify_all]

theorem propagate_variable_equivalences_inert_on_inequalities_witness :
    (∀ l ∈ sample_rule_antisymmetry.tail.drop
        sample_rule_antisymmetry.get_uninterpreted_tail_size,
      ∃ a b, l.1 = mk_le a b ∨ l.1 = mk_ge a b) ∧
    sample_rule_antisymmetry.propagate_calls = [] ∧
    (idle_simplifier.propagate_variable_equivalences ⟨(), none, 1⟩
      sample_rule_antisymmetry).1 = none :=
  have h : ∀ l ∈ sample_rule_antisymmetry.tail.drop
      sample_rule_antisymmetry.get_uninterpreted_tail_size,
      ∃ a b, l.1 = mk_le a b ∨ l.1 = mk_ge a b := by
    intro l hl
    simp only [sample_rule_antisymmetry, rule.get_uninterpreted_tail_size, List.drop_succ_cons,
      List.drop_zero, List.mem_cons, List.mem_singleton, List.not_mem_nil, or_false] at hl
    rcases hl with rfl | rfl
    · exact ⟨_, _, Or.inl rfl⟩
    · exact ⟨_, _, Or.inl rfl⟩
  ⟨h, propagate_variable_equivalences_inert_on_inequalities idle_simplifier ⟨(), none, 1⟩
    sample_rule_antisymmetry h⟩

/-! ## Propagation of a binding -/

theorem is_value_cases (c : expr) (h : is_value c = true) :
    (∃ v, c = mk_numeral v) ∨ c = mk_true ∨ c = mk_false := by
  unfold is_value at h
  split at h
  · exact Or.inl ⟨_, rfl⟩
  · exact Or.inr (Or.inl rfl)
  · exact Or.inr (Or.inr rfl)
  · simp at h

theorem transform_rule_of_restart (s : mk_interp_tail_simplifier σ) (fuel : Nat)
    (st st1 : simplifier_state σ) (r r1 : rule)
    (h : s.pass st r = .restart st1 r1) :
    s.transform_rule_from_start (fuel + 1) st r = s.transform_rule_from_start fuel st1 r1 := by
  rw [transform_rule_from_start_succ, h]

/-- One pass on a rule with a single constraint literal, an application that the pipeline
returns unchanged and that is neither true nor false: the rule is not rebuilt, and the
propagator decides between a restart and the return. -/
theorem pass_unmodified (s : mk_interp_tail_simplifier σ) (st : simplifier_state σ) (r : rule)
    (h1 : r.get_uninterpreted_tail_size + 1 = r.get_tail_size)
    (happ : is_app (r.get_tail r.get_uninterpreted_tail_size) = true)
    (hs : s.simplify_expr (r.get_tail r.get_uninterpreted_tail_size) =
      r.get_tail r.get_uninterpreted_tail_size)
    (hnt : is_true (r.get_tail r.get_uninterpreted_tail_size) = false)
    (hnf : is_false (r.get_tail r.get_uninterpreted_tail_size) = false) :
    s.pass st r =
      match (s.propagate_variable_equivalences st r).1 with
      | some r1 => .restart (s.propagate_variable_equivalences st r).2 r1
      | none => .finished (.keep r) (s.propagate_variable_equivalences st r).2 := by
  have hit : r.interpreted_tail = r.get_tail r.get_uninterpreted_tail_size := by
    simp [rule.interpreted_tail, h1]
  have hne : r.get_uninterpreted_tail_size ≠ r.get_tail_size := by omega
  unfold mk_interp_tail_simplifier.pass
  simp only [hne, if_false, h1, if_true, hit, hs, happ, hnt, hnf, bne_self_eq_false,
    Bool.or_self, Bool.not_true, Bool.false_and, Bool.not_false]
  simp only [Bool.false_eq_true, if_false]

/-- The two passes of `transform_rule` on a rule `H :- A(x), x = c`: the first one restarts
with the rule to which the binding of `x` to `c` is applied, the second one removes the
constraint `c = c` and returns. -/
theorem propagates_binding_passes (s : mk_interp_tail_simplifier σ)
    (st : simplifier_state σ) (r : rule) (subst : σ)
    (obj : Nat) (h : expr) (a : func_decl) (i : Nat) (srt : sort) (c : expr)
    (hr : r = ⟨obj, h, [(.app a [.var i srt], false), (mk_eq (.var i srt) c, false)], 1⟩)
    (ha : s.is_predicate a = true) (he : s.is_predicate (.eq_decl srt) = false)
    (hc : is_value c = true)
    (hs1 : s.simplify_expr (mk_eq (.var i srt) c) = mk_eq (.var i srt) c)
    (hs2 : s.simplify_expr (.app (.eq_decl srt) [c, c]) = mk_true)
    (hu : s.unify (s.reset st r) (.var i srt) c = (true, ⟨subst, some r, st.next_obj⟩))
    (hx : s.subst_apply subst (.var i srt) = c)
    (hcc : s.subst_apply subst c = c)
    (happ : ∀ f args, s.subst_apply subst (.app f args) =
      .app f (args.map (s.subst_apply subst)))
    (hn : s.norm_vars (s.subst_apply subst h)
        [(.app a [c], false), (.app (.eq_decl srt) [c, c], false)] =
      (s.subst_apply subst h, [(.app a [c], false), (.app (.eq_decl srt) [c, c], false)])) :
    r.has_quantifiers = false ∧
    s.pass st r = .restart ⟨subst, some r, st.next_obj + 1⟩
      ⟨st.next_obj, s.subst_apply subst h,
        [(.app a [c], false), (.app (.eq_decl srt) [c, c], false)], 1⟩ ∧
    s.pass ⟨subst, some r, st.next_obj + 1⟩
      ⟨st.next_obj, s.subst_apply subst h,
        [(.app a [c], false), (.app (.eq_decl srt) [c, c], false)], 1⟩ =
      .finished (.keep ⟨st.next_obj + 1, s.subst_apply subst h, [(.app a [c], false)], 1⟩)
        ⟨subst, some r, st.next_obj + 2⟩ := by
  have hcq : contains_quantifier c = false := by
    rcases is_value_cases c hc with ⟨v, rfl⟩ | rfl | rfl <;> rfl
  have hq : r.has_quantifiers = false := by
    rw [hr]
    simp [rule.has_quantifiers, contains_quantifier, contains_quantifier_list, mk_eq, hcq]
  have hflex : IS_FLEX c = true := by simp [IS_FLEX, hc]
  -- the calls of the propagator on the input rule
  have hcalls : r.propagate_calls = [(.var i srt, c)] := by
    rw [hr]
    simp [rule.propagate_calls, rule.get_uninterpreted_tail_size, rule.get_tail_size,
      unify_calls, propagate_step_calls, mk_eq, strip_not, is_not_arg, is_var, is_and,
      is_app_of, match_flex_eq, is_eq_args, IS_FLEX, hc, get_sort]
  have hne : r.get_uninterpreted_tail_size ≠ r.get_tail_size := by
    rw [hr]; simp [rule.get_uninterpreted_tail_size, rule.get_tail_size]
  have hrel : is_relational s.is_predicate (expr.app a [c], false) = true := by
    simp [is_relational, ha]
  have hnrel : is_relational s.is_predicate (expr.app (.eq_decl srt) [c, c], false) = false := by
    simp [is_relational, he]
  have hneq : (expr.app (.eq_decl srt) [c, c], false) ≠ (expr.app a [c], false) := by
    intro hh
    rw [hh, hrel] at hnrel
    exact Bool.noConfusion hnrel
  -- the first pass restarts with the rule to which the binding is applied
  have hp1 : s.propagate_variable_equivalences st r =
      (some ⟨st.next_obj, s.subst_apply subst h,
        [(.app a [c], false), (.app (.eq_decl srt) [c, c], false)], 1⟩,
       ⟨subst, some r, st.next_obj + 1⟩) := by
    rw [propagate_variable_equivalences_trace s st r hne, hcalls]
    simp only [mk_interp_tail_simplifier.unify_all, hu, if_true, Bool.not_true,
      Bool.false_eq_true, if_false]
    have ht : (r.tail.map (fun l => (s.subst_apply subst l.1, l.2))) =
        [(.app a [c], false), (.app (.eq_decl srt) [c, c], false)] := by
      rw [hr]
      simp [mk_eq, happ, hx, hcc, get_sort]
    have hd : remove_duplicate_tails
        [(expr.app a [c], false), (expr.app (.eq_decl srt) [c, c], false)] =
        [(.app a [c], false), (.app (.eq_decl srt) [c, c], false)] := by
      simp [remove_duplicate_tails, hneq]
    have hm : rule_manager.mk s.is_predicate st.next_obj (s.subst_apply subst h)
        [(expr.app a [c], false), (expr.app (.eq_decl srt) [c, c], false)] =
        ⟨st.next_obj, s.subst_apply subst h,
          [(.app a [c], false), (.app (.eq_decl srt) [c, c], false)], 1⟩ := by
      simp [rule_manager.mk, List.filter, hrel, hnrel]
    have hh : r.head = h := by rw [hr]
    simp only [mk_interp_tail_simplifier.get_result, mk_interp_tail_simplifier.apply, ht, hd,
      mk_interp_tail_simplifier.mk_rule, hm, hn, hh]
  have hpass1 : s.pass st r = .restart ⟨subst, some r, st.next_obj + 1⟩
      ⟨st.next_obj, s.subst_apply subst h,
        [(.app a [c], false), (.app (.eq_decl srt) [c, c], false)], 1⟩ := by
    have hl : r.get_tail r.get_uninterpreted_tail_size = mk_eq (.var i srt) c := by
      rw [hr]; rfl
    rw [pass_unmodified s st r (by rw [hr]; rfl) (by rw [hl]; rfl) (by rw [hl]; exact hs1)
      (by rw [hl]; rfl) (by rw [hl]; rfl), hp1]
  -- the second pass removes the constraint `c = c` and returns
  have hpass2 : s.pass ⟨subst, some r, st.next_obj + 1⟩
      ⟨st.next_obj, s.subst_apply subst h,
        [(.app a [c], false), (.app (.eq_decl srt) [c, c], false)], 1⟩ =
      .finished (.keep ⟨st.next_obj + 1, s.subst_apply subst h, [(.app a [c], false)], 1⟩)
        ⟨subst, some r, st.next_obj + 2⟩ := by
    have hm : rule_manager.mk s.is_predicate (st.next_obj + 1) (s.subst_apply subst h)
        [(expr.app a [c], false)] =
        ⟨st.next_obj + 1, s.subst_apply subst h, [(.app a [c], false)], 1⟩ := by
      simp [rule_manager.mk, List.filter, hrel]
    simp [mk_interp_tail_simplifier.pass, rule.get_uninterpreted_tail_size,
      rule.get_tail_size, rule.interpreted_tail, rule.get_tail, hs2, mk_true, is_app,
      is_true, is_false, is_app_of, mk_interp_tail_simplifier.mk_rule, hm,
      mk_interp_tail_simplifier.propagate_variable_equivalences]
  exact ⟨hq, hpass1, hpass2⟩

/-- C14: for every rule whose body is the relational literal `A(x)` followed by the single
constraint literal `x = c`, with `x` a variable and `c` a value constant, `transform_rule`
returns true (Keep) with a rule whose body is the relational literal `A(c)` alone, its
constraint suffix being empty, when the pipeline leaves `x = c` as it is and rewrites
`c = c` to true, the unifier succeeds on `x` and `c`, the resulting substitution maps `x` to
`c`, leaves `c` and distributes over applications, and the renumbering of the variables
leaves the rebuilt rule as it is.  Two passes through `start` are needed. -/
theorem transform_rule_propagates_binding (s : mk_interp_tail_simplifier σ) (fuel : Nat)
    (st : simplifier_state σ) (r : rule) (subst : σ)
    (obj : Nat) (h : expr) (a : func_decl) (i : Nat) (srt : sort) (c : expr)
    (hr : r = ⟨obj, h, [(.app a [.var i srt], false), (mk_eq (.var i srt) c, false)], 1⟩)
    (ha : s.is_predicate a = true) (he : s.is_predicate (.eq_decl srt) = false)
    (hc : is_value c = true)
    (hs1 : s.simplify_expr (mk_eq (.var i srt) c) = mk_eq (.var i srt) c)
    (hs2 : s.simplify_expr (.app (.eq_decl srt) [c, c]) = mk_true)
    (hu : s.unify (s.reset st r) (.var i srt) c = (true, ⟨subst, some r, st.next_obj⟩))
    (hx : s.subst_apply subst (.var i srt) = c)
    (hcc : s.subst_apply subst c = c)
    (happ : ∀ f args, s.subst_apply subst (.app f args) =
      .app f (args.map (s.subst_apply subst)))
    (hn : s.norm_vars (s.subst_apply subst h)
        [(.app a [c], false), (.app (.eq_decl srt) [c, c], false)] =
      (s.subst_apply subst h, [(.app a [c], false), (.app (.eq_decl srt) [c, c], false)])) :
    s.transform_rule (fuel + 2) st r =
      some (.keep ⟨st.next_obj + 1, s.subst_apply subst h, [(.app a [c], false)], 1⟩,
        ⟨subst, some r, st.next_obj + 2⟩) := by
  obtain ⟨hq, hpass1, hpass2⟩ :=
    propagates_binding_passes s st r subst obj h a i srt c hr ha he hc hs1 hs2 hu hx hcc happ hn
  simp only [mk_interp_tail_simplifier.transform_rule, hq, Bool.false_eq_true, if_false]
  rw [transform_rule_of_restart s (fuel + 1) st _ r _ hpass1, transform_rule_from_start_succ,
    hpass2]

theorem apply_bindings_list_eq_map (b : List (Nat × expr)) (args : List expr) :
    apply_bindings_list b args = args.map (apply_bindings b) := by
  induction args with
  | nil => rfl
  | cons x xs ih => simp [apply_bindings_list, ih]

theorem apply_bindings_app (b : List (Nat × expr)) (f : func_decl) (args : List expr) :
    binding_simplifier.subst_apply b (.app f args) =
      .app f (args.map (binding_simplifier.subst_apply b)) := by
  simp [binding_simplifier, apply_bindings, apply_bindings_list_eq_map]

theorem transform_rule_propagates_binding_witness :
    binding_simplifier.is_predicate (.uninterp 1 .bool) = true ∧
    binding_simplifier.is_predicate (.eq_decl (.other 0)) = false ∧
    is_value (mk_numeral 5) = true ∧
    binding_simplifier.simplify_expr (mk_eq (.var 0 (.other 0)) (mk_numeral 5)) =
      mk_eq (.var 0 (.other 0)) (mk_numeral 5) ∧
    binding_simplifier.simplify_expr (.app (.eq_decl (.other 0)) [mk_numeral 5, mk_numeral 5]) =
      mk_true ∧
    binding_simplifier.unify (binding_simplifier.reset ⟨[], none, 1⟩ sample_rule_eq)
        (.var 0 (.other 0)) (mk_numeral 5) =
      (true, ⟨[(0, mk_numeral 5)], some sample_rule_eq, 1⟩) ∧
    binding_simplifier.transform_rule (0 + 2) ⟨[], none, 1⟩ sample_rule_eq =
      some (.keep ⟨2, .app (.uninterp 0 .bool) [mk_numeral 5],
          [(.app (.uninterp 1 .bool) [mk_numeral 5], false)], 1⟩,
        ⟨[(0, mk_numeral 5)], some sample_rule_eq, 3⟩) :=
  ⟨rfl, rfl, rfl, rfl, rfl, rfl,
    transform_rule_propagates_binding binding_simplifier 0 ⟨[], none, 1⟩ sample_rule_eq
      [(0, mk_numeral 5)] 0 (.app (.uninterp 0 .bool) [.var 0 (.other 0)]) (.uninterp 1 .bool)
      0 (.other 0) (mk_numeral 5) rfl rfl rfl rfl rfl rfl rfl rfl rfl
      (apply_bindings_app _) rfl⟩

/-! ## Termination of the restart loop -/

mutual
theorem vars_le_max_var : ∀ (e : expr) (i : Nat), i ∈ vars e → i ≤ max_var e
  | .var idx s, i, h => by
    simp only [vars, List.mem_singleton] at h
    simp [max_var, h]
  | .app f args, i, h => by
    simp only [vars] at h
    simp only [max_var]
    exact vars_list_le_max_var args i h
  | .quantifier _ _ body, i, h => by
    simp only [vars] at h
    simp only [max_var]
    exact vars_le_max_var body i h

theorem vars_list_le_max_var : ∀ (l : List expr) (i : Nat), i ∈ vars_list l →
    i ≤ max_var_list l
  | [], i, h => by simp [vars_list] at h
  | x :: xs, i, h => by
    simp only [vars_list, List.mem_append] at h
    simp only [max_var_list]
    rcases h with h | h
    · exact le_trans (vars_le_max_var x i h) (le_max_left _ _)
    · exact le_trans (vars_list_le_max_var xs i h) (le_max_right _ _)
end

/-- A rule has at most as many distinct variables as its maximum variable index plus one. -/
theorem var_count_le (r : rule) : r.var_count ≤ get_max_rule_var r + 1 := by
  have hsub : (vars r.head ++ vars_list (r.tail.map Prod.fst)).dedup ⊆
      List.range (get_max_rule_var r + 1) := by
    intro i hi
    rw [List.mem_dedup, List.mem_append] at hi
    rw [List.mem_range, get_max_rule_var]
    rcases hi with hi | hi
    · have := vars_le_max_var _ _ hi
      have := le_max_left (max_var r.head) (max_var_list (r.tail.map Prod.fst))
      omega
    · have := vars_list_le_max_var _ _ hi
      have := le_max_right (max_var r.head) (max_var_list (r.tail.map Prod.fst))
      omega
  have := ((List.nodup_dedup _).subperm hsub).length_le
  simpa [rule.var_count] using this

/-- The passes through `start` after the first one are the passes of the run that starts
where the first pass jumps back. -/
theorem working_rule_succ (s : mk_interp_tail_simplifier σ) (k : Nat) :
    ∀ (st : simplifier_state σ) (r : rule),
    s.working_rule st r (k + 1) =
      match s.pass st r with
      | .restart st1 r1 => s.working_rule st1 r1 k
      | .finished _ _ => none := by
  induction k with
  | zero =>
    intro st r
    simp only [mk_interp_tail_simplifier.working_rule]
  | succ k ih =>
    intro st r
    rw [mk_interp_tail_simplifier.working_rule, ih]
    cases hp : s.pass st r with
    | restart st1 r1 => simp only [mk_interp_tail_simplifier.working_rule]
    | finished res st1 => rfl

/-- When the fuel does not suffice, the loop passes through `start` once more. -/
theorem working_rule_of_no_fuel (s : mk_interp_tail_simplifier σ) (fuel : Nat) :
    ∀ (st : simplifier_state σ) (r : rule),
    s.transform_rule_from_start fuel st r = none → (s.working_rule st r fuel).isSome = true := by
  induction fuel with
  | zero => intro st r _; rfl
  | succ fuel ih =>
    intro st r h
    rw [transform_rule_from_start_succ] at h
    rw [working_rule_succ]
    cases hp : s.pass st r with
    | restart st1 r1 =>
      rw [hp] at h
      exact ih st1 r1 h
    | finished res st1 =>
      rw [hp] at h
      simp at h

theorem working_rule_var_count (s : mk_interp_tail_simplifier σ) (st : simplifier_state σ)
    (r : rule)
    (hdec : ∀ k st1 r1 st2 r2, s.working_rule st r k = some (st1, r1) →
      s.working_rule st r (k + 1) = some (st2, r2) → r2.var_count < r1.var_count)
    (k : Nat) :
    ∀ st1 r1, s.working_rule st r k = some (st1, r1) → r1.var_count + k ≤ r.var_count := by
  induction k with
  | zero =>
    intro st1 r1 h
    simp only [mk_interp_tail_simplifier.working_rule, Option.some.injEq, Prod.mk.injEq] at h
    rw [h.2]
    exact le_refl _
  | succ k ih =>
    intro st2 r2 h
    cases hk : s.working_rule st r k with
    | none => simp [mk_interp_tail_simplifier.working_rule, hk] at h
    | some p =>
      obtain ⟨st1, r1⟩ := p
      have h1 := ih st1 r1 hk
      have h2 := hdec k st1 r1 st2 r2 hk h
      omega

/-- C18 (as stated, refuted): the rule `H(x0) :- A(x0), x0 = 5` has no quantifiers and the
maximum variable index V = 0; with a unifier that binds `x0` to 5 and a local simplifier
that rewrites `5 = 5` to true, the loop of `transform_rule` passes through `start` a second
time, with the rule `H(5) :- A(5), 5 = 5`, whose maximum variable index is 0 as well and not
strictly smaller; one pass does not suffice for the call to return, two passes do. -/
theorem transform_rule_needs_second_pass :
    sample_rule_eq.has_quantifiers = false ∧
    get_max_rule_var sample_rule_eq = 0 ∧
    binding_simplifier.working_rule ⟨[], none, 1⟩ sample_rule_eq (0 + 1) =
      some (⟨[(0, mk_numeral 5)], some sample_rule_eq, 2⟩,
        ⟨1, .app (.uninterp 0 .bool) [mk_numeral 5],
          [(.app (.uninterp 1 .bool) [mk_numeral 5], false),
           (.app (.eq_decl (.other 0)) [mk_numeral 5, mk_numeral 5], false)], 1⟩) ∧
    get_max_rule_var ⟨1, .app (.uninterp 0 .bool) [mk_numeral 5],
          [(.app (.uninterp 1 .bool) [mk_numeral 5], false),
           (.app (.eq_decl (.other 0)) [mk_numeral 5, mk_numeral 5], false)], 1⟩ = 0 ∧
    binding_simplifier.transform_rule (0 + 1) ⟨[], none, 1⟩ sample_rule_eq = none ∧
    binding_simplifier.transform_rule (0 + 2) ⟨[], none, 1⟩ sample_rule_eq =
      some (.keep ⟨2, .app (.uninterp 0 .bool) [mk_numeral 5],
          [(.app (.uninterp 1 .bool) [mk_numeral 5], false)], 1⟩,
        ⟨[(0, mk_numeral 5)], some sample_rule_eq, 3⟩) := by
  obtain ⟨hq, hpass1, hpass2⟩ :=
    propagates_binding_passes binding_simplifier ⟨[], none, 1⟩ sample_rule_eq
      [(0, mk_numeral 5)] 0 (.app (.uninterp 0 .bool) [.var 0 (.other 0)]) (.uninterp 1 .bool)
      0 (.other 0) (mk_numeral 5) rfl rfl rfl rfl rfl rfl rfl rfl rfl
      (apply_bindings_app _) rfl
  refine ⟨hq, by decide, ?_, by decide, ?_, ?_⟩
  · rw [working_rule_succ, hpass1]
    rfl
  · simp only [mk_interp_tail_simplifier.transform_rule, hq, Bool.false_eq_true, if_false]
    rw [transform_rule_of_restart _ 0 _ _ _ _ hpass1]
    rfl
  · simp only [mk_interp_tail_simplifier.transform_rule, hq, Bool.false_eq_true, if_false]
    rw [transform_rule_of_restart _ (0 + 1) _ _ _ _ hpass1, transform_rule_from_start_succ,
      hpass2]
    rfl

theorem working_rule_none_add (s : mk_interp_tail_simplifier σ) (st : simplifier_state σ)
    (r : rule) (k : Nat) (h : s.working_rule st r k = none) (j : Nat) :
    s.working_rule st r (k + j) = none := by
  induction j with
  | zero => exact h
  | succ j ih =>
    rw [← Nat.add_assoc, mk_interp_tail_simplifier.working_rule, ih]

/-! ## Soundness of the dispatch of the propagator -/

theorem eval_list_eq_map (v : expr → Bool) (l : List expr) :
    eval_list v l = l.map (eval v) := by
  induction l with
  | nil => rfl
  | cons x xs ih => simp [eval_list, ih]

theorem well_sorted_list_eq_all (l : List expr) :
    well_sorted_list l = l.all well_sorted := by
  induction l with
  | nil => rfl
  | cons x xs ih => simp [well_sorted_list, ih]

theorem well_sorted_mk_not {x : expr} (h : well_sorted (.app .not_decl [x]) = true) :
    is_bool x = true ∧ well_sorted x = true := by
  simpa [well_sorted, sorts_ok, well_sorted_list] using h

/-- The loop that removes the negations of an argument of an equivalence keeps the parity:
the truth value of the stripped term, corrected by the flag, is that of the argument. -/
theorem strip_nots_sound (v : expr → Bool) (e : expr) (neg : Bool) :
    is_bool e = true → well_sorted e = true →
    is_bool (strip_nots e neg).1 = true ∧ well_sorted (strip_nots e neg).1 = true ∧
    (eval v (strip_nots e neg).1 != (strip_nots e neg).2) = (eval v e != neg) := by
  induction e, neg using strip_nots.induct with
  | case1 x neg ih =>
    intro _ hw
    obtain ⟨hbx, hwx⟩ := well_sorted_mk_not hw
    obtain ⟨h1, h2, h3⟩ := ih hbx hwx
    have he : eval v (.app .not_decl [x]) = !eval v x := eval_mk_not v x
    rw [strip_nots, he]
    refine ⟨h1, h2, ?_⟩
    rw [h3]
    cases eval v x <;> cases neg <;> rfl
  | case2 e neg h =>
    intro hb hw
    have hs : strip_nots e neg = (e, neg) := by
      unfold strip_nots
      split
      · exact absurd rfl (fun hh => h _ hh)
      · rfl
    rw [hs]
    exact ⟨hb, hw, rfl⟩

theorem term_value_of_bool (b : expr → Bool) (val : expr → Nat) (x y : expr)
    (hx : is_bool x = true) (hy : is_bool y = true)
    (h : eval (atom_truth b val) x = eval (atom_truth b val) y) :
    term_value b val x = term_value b val y := by
  simp [term_value, hx, hy, h]

theorem eval_true_of_is_true (v : expr → Bool) (e : expr) (h : is_true e = true)
    (hw : well_sorted e = true) : eval v e = true := by
  cases e with
  | var _ _ => simp [is_true, is_app_of] at h
  | quantifier _ _ _ => simp [is_true, is_app_of] at h
  | app f args =>
    simp only [is_true, is_app_of, beq_iff_eq] at h
    subst h
    simp only [well_sorted, sorts_ok, Bool.and_eq_true, List.isEmpty_iff] at hw
    rw [hw.1]
    rfl

theorem eval_false_of_is_false (v : expr → Bool) (e : expr) (h : is_false e = true)
    (hw : well_sorted e = true) : eval v e = false := by
  cases e with
  | var _ _ => simp [is_false, is_app_of] at h
  | quantifier _ _ _ => simp [is_false, is_app_of] at h
  | app f args =>
    simp only [is_false, is_app_of, beq_iff_eq] at h
    subst h
    simp only [well_sorted, sorts_ok, Bool.and_eq_true, List.isEmpty_iff] at hw
    rw [hw.1]
    rfl

theorem match_binary_eq_some {f : func_decl} {t a1 a2 : expr}
    (h : match_binary f t = some (a1, a2)) : t = .app f [a1, a2] := by
  unfold match_binary at h
  split at h
  · split_ifs at h with hg
    simp only [Option.some.injEq, Prod.mk.injEq] at h
    rw [hg, h.1, h.2]
  · cases h

theorem match_flex_eq_some {neg : Bool} {t a1 a2 : expr}
    (h : match_flex_eq neg t = some (a1, a2)) :
    neg = false ∧ ∃ s, t = .app (.eq_decl s) [a1, a2] := by
  unfold match_flex_eq at h
  split_ifs at h with hn
  have hn2 : neg = false := by simpa using hn
  refine ⟨hn2, ?_⟩
  split at h
  · next x y heq =>
    split_ifs at h
    simp only [Option.some.injEq, Prod.mk.injEq] at h
    unfold is_eq_args at heq
    split at heq
    · simp only [Option.some.injEq, Prod.mk.injEq] at heq
      exact ⟨_, by rw [← h.1, ← h.2, heq.1, heq.2]⟩
    · cases heq
  · cases h

/-- The literals of a true conjunction are true, boolean and well sorted. -/
theorem eval_and_args (v : expr → Bool) (t : expr) (h : is_and t = true)
    (hw : well_sorted t = true) (ht : eval v t = true) :
    ∀ x ∈ get_args t, is_bool x = true ∧ well_sorted x = true ∧ eval v x = true := by
  cases t with
  | var _ _ => simp [is_and, is_app_of] at h
  | quantifier _ _ _ => simp [is_and, is_app_of] at h
  | app f args =>
    simp only [is_and, is_app_of, beq_iff_eq] at h
    subst h
    simp only [well_sorted, sorts_ok, Bool.and_eq_true, List.all_eq_true,
      well_sorted_list_eq_all] at hw
    simp only [eval, interp, eval_list_eq_map, List.all_eq_true, List.mem_map, id,
      forall_exists_index, and_imp, forall_apply_eq_imp_iff₂] at ht
    intro x hx
    exact ⟨hw.1 x hx, hw.2 x hx, ht x hx⟩

/-- An equality between two terms that is true makes both terms have the same value. -/
theorem term_value_of_eq (b : expr → Bool) (val : expr → Nat) (s : sort) (a1 a2 : expr)
    (hw : well_sorted (.app (.eq_decl s) [a1, a2]) = true)
    (ht : eval (atom_truth b val) (.app (.eq_decl s) [a1, a2]) = true) :
    term_value b val a1 = term_value b val a2 := by
  simp only [well_sorted, sorts_ok, Bool.and_eq_true, List.all_eq_true, List.mem_cons,
    List.mem_singleton, List.not_mem_nil, or_false, forall_eq_or_imp, forall_eq,
    beq_iff_eq] at hw
  obtain ⟨⟨-, h1, h2⟩, -⟩ := hw
  cases s with
  | bool =>
    have hb1 : is_bool a1 = true := by simp [is_bool, h1]
    have hb2 : is_bool a2 = true := by simp [is_bool, h2]
    apply term_value_of_bool b val a1 a2 hb1 hb2
    simpa [eval, eval_list, interp] using ht
  | other n =>
    have hb1 : is_bool a1 = false := by simp [is_bool, h1]
    have hb2 : is_bool a2 = false := by simp [is_bool, h2]
    have : val a1 = val a2 := by
      simpa [eval, eval_list, interp, atom_truth] using ht
    simp [term_value, hb1, hb2, this]

theorem parity_of_strip (A B A1 B1 neg n1 n2 : Bool) (h1 : (A1 != n1) = (A != neg))
    (h2 : (B1 != n2) = (B != n1)) (h3 : (A == B) = !neg) : (A1 == B1) = !n2 := by
  cases A <;> cases B <;> cases A1 <;> cases B1 <;> cases neg <;> cases n1 <;> cases n2 <;>
    simp_all

/-- One pass of the loop body: the literals it adds to the work-list are true, and the pairs
it passes to `unify` have the same value, when the popped literal is true. -/
theorem propagate_step_calls_sound (b : expr → Bool) (val : expr → Nat) (leqs : List expr)
    (t0 : expr) (hb : is_bool t0 = true) (hw : well_sorted t0 = true)
    (ht : eval (atom_truth b val) t0 = true) :
    (∀ t ∈ (propagate_step_calls leqs t0).1,
      is_bool t = true ∧ well_sorted t = true ∧ eval (atom_truth b val) t = true) ∧
    (∀ p ∈ (propagate_step_calls leqs t0).2.1,
      term_value b val p.1 = term_value b val p.2) := by
  obtain ⟨neg, t, hs, hbt, hwt, het⟩ : ∃ neg t, strip_not t0 = (neg, t) ∧ is_bool t = true ∧
      well_sorted t = true ∧ eval (atom_truth b val) t = !neg := by
    rcases strip_not_cases t0 with ⟨x, hx, hsx⟩ | ⟨_, hsx⟩
    · subst hx
      obtain ⟨hbx, hwx⟩ := well_sorted_mk_not hw
      refine ⟨true, x, hsx, hbx, hwx, ?_⟩
      have he : eval (atom_truth b val) (.app .not_decl [x]) = !eval (atom_truth b val) x :=
        eval_mk_not _ x
      rw [he] at ht
      simpa using ht
    · exact ⟨false, t0, hsx, hb, hw, by simpa using ht⟩
  have htrue : term_value b val mk_true = .inl true := rfl
  have hfalse : term_value b val mk_false = .inl false := rfl
  unfold propagate_step_calls
  rw [hs]
  simp only
  split
  · -- a bare variable
    refine ⟨by simp, ?_⟩
    intro p hp
    simp only [List.mem_singleton] at hp
    subst hp
    cases neg <;> simp only [Bool.false_eq_true, if_false, if_true, htrue, hfalse] <;>
      simp [term_value, hbt, het]
  · split
    · -- a conjunction
      next hand =>
      simp only [Bool.and_eq_true, Bool.not_eq_true'] at hand
      rw [hand.1] at het
      exact ⟨eval_and_args _ t hand.2 hwt (by simpa using het), by simp⟩
    · split
      · -- an equality between two flexible terms
        next arg1 arg2 hflex =>
        obtain ⟨hn, s, rfl⟩ := match_flex_eq_some hflex
        rw [hn] at het
        refine ⟨by simp, ?_⟩
        intro p hp
        simp only [List.mem_singleton] at hp
        subst hp
        exact term_value_of_eq b val s arg1 arg2 hwt (by simpa using het)
      · split
        · -- an equivalence
          next arg1 arg2 hiff =>
          have hti := match_binary_eq_some hiff
          subst hti
          have hwi : (is_bool arg1 = true ∧ is_bool arg2 = true) ∧
              well_sorted arg1 = true ∧ well_sorted arg2 = true := by
            simpa [well_sorted, sorts_ok, well_sorted_list] using hwt
          obtain ⟨⟨hb1, hb2⟩, hw1, hw2⟩ := hwi
          have hei : (eval (atom_truth b val) arg1 == eval (atom_truth b val) arg2) = !neg := by
            rw [← het]
            simp [eval, eval_list, interp]
          obtain ⟨h1b, h1w, h1e⟩ := strip_nots_sound (atom_truth b val) arg1 neg hb1 hw1
          obtain ⟨h2b, h2w, h2e⟩ :=
            strip_nots_sound (atom_truth b val) arg2 (strip_nots arg1 neg).2 hb2 hw2
          have hkey := parity_of_strip _ _ _ _ _ _ _ h1e h2e hei
          clear h1e h2e hei
          generalize strip_nots arg2 (strip_nots arg1 neg).2 = r2 at *
          generalize strip_nots arg1 neg = r1 at *
          obtain ⟨e1, n1⟩ := r1
          obtain ⟨e2, n2⟩ := r2
          simp only at h1b h1w h2b h2w hkey ⊢
          have hsymm : (eval (atom_truth b val) e2 == eval (atom_truth b val) e1) = !n2 := by
            rw [← hkey]
            cases eval (atom_truth b val) e1 <;> cases eval (atom_truth b val) e2 <;> rfl
          by_cases hv : is_var e1 = true
          · simp only [hv, Bool.not_true, Bool.false_eq_true, if_false]
            split_ifs with c1 c2 c3 c4
            · simp
            · refine ⟨by simp, ?_⟩
              intro p hp
              simp only [List.mem_singleton] at hp
              subst hp
              apply term_value_of_bool b val e1 e2 h1b h2b
              have hn : n2 = false := by simpa using c2
              simpa [hn] using hkey
            · refine ⟨by simp, ?_⟩
              intro p hp
              simp only [List.mem_singleton] at hp
              subst hp
              rw [hfalse]
              simp only [Bool.and_eq_true] at c3
              have he2 := eval_true_of_is_true (atom_truth b val) e2 c3.2 h2w
              have hn : n2 = true := c3.1.2
              rw [he2, hn] at hkey
              have : eval (atom_truth b val) e1 = false := by simpa using hkey
              simp [term_value, h1b, this]
            · refine ⟨by simp, ?_⟩
              intro p hp
              simp only [List.mem_singleton] at hp
              subst hp
              rw [htrue]
              simp only [Bool.and_eq_true] at c4
              have he2 := eval_false_of_is_false (atom_truth b val) e2 c4.2 h2w
              have hn : n2 = true := c4.1.2
              rw [he2, hn] at hkey
              have : eval (atom_truth b val) e1 = true := by simpa using hkey
              simp [term_value, h1b, this]
            · simp
          · simp only [hv, Bool.not_false, if_true]
            split_ifs with c1 c2 c3 c4
            · simp
            · refine ⟨by simp, ?_⟩
              intro p hp
              simp only [List.mem_singleton] at hp
              subst hp
              apply term_value_of_bool b val e2 e1 h2b h1b
              have hn : n2 = false := by
                simp only [Bool.and_eq_true, Bool.not_eq_true'] at c2
                exact c2.2
              simpa [hn] using hsymm
            · refine ⟨by simp, ?_⟩
              intro p hp
              simp only [List.mem_singleton] at hp
              subst hp
              rw [hfalse]
              simp only [Bool.and_eq_true] at c3
              have he1 := eval_true_of_is_true (atom_truth b val) e1 c3.2 h1w
              have hn : n2 = true := c3.1.2
              rw [he1, hn] at hsymm
              have : eval (atom_truth b val) e2 = false := by simpa using hsymm
              simp [term_value, h2b, this]
            · refine ⟨by simp, ?_⟩
              intro p hp
              simp only [List.mem_singleton] at hp
              subst hp
              rw [htrue]
              simp only [Bool.and_eq_true] at c4
              have he1 := eval_false_of_is_false (atom_truth b val) e1 c4.2 h1w
              have hn : n2 = true := c4.1.2
              rw [he1, hn] at hsymm
              have : eval (atom_truth b val) e2 = true := by simpa using hsymm
              simp [term_value, h2b, this]
            · simp
        · split
          · simp
          · simp

theorem unify_calls_sound (b : expr → Bool) (val : expr → Nat) :
    ∀ (n : Nat) (todo leqs : List expr), todo_size todo ≤ n →
    (∀ t ∈ todo, is_bool t = true ∧ well_sorted t = true ∧
      eval (atom_truth b val) t = true) →
    ∀ p ∈ unify_calls todo leqs, term_value b val p.1 = term_value b val p.2 := by
  intro n
  induction n with
  | zero =>
    intro todo leqs h _ p hp
    cases todo with
    | nil => simp [unify_calls] at hp
    | cons t rest => simp [todo_size] at h
  | succ n ih =>
    intro todo leqs h hall p hp
    cases todo with
    | nil => simp [unify_calls] at hp
    | cons t rest =>
      obtain ⟨hbt, hwt, het⟩ := hall t (List.mem_cons_self _ _)
      obtain ⟨h1, h2⟩ := propagate_step_calls_sound b val leqs t hbt hwt het
      have hsz := propagate_step_calls_size leqs t
      rw [unify_calls, List.mem_append] at hp
      rcases hp with hp | hp
      · exact h2 p hp
      · refine ih _ _ ?_ ?_ p hp
        · rw [todo_size_append, todo_size_reverse]
          simp only [todo_size] at h
          omega
        · intro t1 ht1
          rw [List.mem_append, List.mem_reverse] at ht1
          rcases ht1 with ht1 | ht1
          · exact h1 t1 ht1
          · exact hall t1 (List.mem_cons_of_mem _ ht1)

/-- C20: the dispatch of the propagator is sound.  What `propagate_variable_equivalences`
does to the substitution and whether it reports a change is the effect of `TRY_UNIFY` on
the pairs of `propagate_calls`, and for every rule whose constraint literals are boolean
and well sorted, every such pair `(l, r)` is entailed by the constraint literals: under
every valuation that makes all of them true, `l` and `r` have the same value.  The cases
of a bare variable, of a conjunction, of an equality between flexible terms and of an
equivalence with the parity of its removed negations are all covered. -/
theorem propagate_variable_equivalences_dispatch_sound (s : mk_interp_tail_simplifier σ)
    (st : simplifier_state σ) (r : rule) (b : expr → Bool) (val : expr → Nat)
    (hne : r.get_uninterpreted_tail_size ≠ r.get_tail_size)
    (hws : ∀ l ∈ r.tail.drop r.get_uninterpreted_tail_size,
      is_bool l.1 = true ∧ well_sorted l.1 = true)
    (htrue : ∀ l ∈ r.tail.drop r.get_uninterpreted_tail_size,
      eval (atom_truth b val) l.1 = true) :
    (s.propagate_variable_equivalences st r =
      if !(s.unify_all r.propagate_calls (s.reset st r) false).2 then
        (none, (s.unify_all r.propagate_calls (s.reset st r) false).1)
      else
        ((s.get_result (s.unify_all r.propagate_calls (s.reset st r) false).1 r).1,
         (s.get_result (s.unify_all r.propagate_calls (s.reset st r) false).1 r).2)) ∧
    ∀ p ∈ r.propagate_calls, term_value b val p.1 = term_value b val p.2 := by
  refine ⟨propagate_variable_equivalences_trace s st r hne, ?_⟩
  unfold rule.propagate_calls
  simp only [hne, if_false]
  apply unify_calls_sound b val _ _ _ (le_refl _)
  intro t ht
  simp only [List.mem_reverse, List.mem_map] at ht
  obtain ⟨l, hl, rfl⟩ := ht
  exact ⟨(hws l hl).1, (hws l hl).2, htrue l hl⟩

theorem propagate_variable_equivalences_dispatch_sound_witness :
    sample_rule_dispatch.get_uninterpreted_tail_size ≠ sample_rule_dispatch.get_tail_size ∧
    (∀ l ∈ sample_rule_dispatch.tail.drop sample_rule_dispatch.get_uninterpreted_tail_size,
      is_bool l.1 = true ∧ well_sorted l.1 = true) ∧
    (∀ l ∈ sample_rule_dispatch.tail.drop sample_rule_dispatch.get_uninterpreted_tail_size,
      eval (atom_truth even_vars_true (fun _ => 0)) l.1 = true) ∧
    sample_rule_dispatch.propagate_calls =
      [(.var 6 .bool, mk_true), (.var 5 .bool, mk_false),
       (.var 0 (.other 0), mk_numeral 5), (.var 4 .bool, mk_true),
       (.var 3 .bool, mk_false), (.var 2 .bool, mk_true)] ∧
    ∀ p ∈ sample_rule_dispatch.propagate_calls,
      term_value even_vars_true (fun _ => 0) p.1 =
        term_value even_vars_true (fun _ => 0) p.2 :=
  have hcalls : sample_rule_dispatch.propagate_calls =
      [(.var 6 .bool, mk_true), (.var 5 .bool, mk_false),
       (.var 0 (.other 0), mk_numeral 5), (.var 4 .bool, mk_true),
       (.var 3 .bool, mk_false), (.var 2 .bool, mk_true)] := by
    simp [rule.propagate_calls, sample_rule_dispatch, rule.get_uninterpreted_tail_size,
      rule.get_tail_size, unify_calls, propagate_step_calls, mk_eq, mk_not, mk_and, mk_true,
      mk_false, mk_numeral, strip_not, strip_nots, is_not_arg, is_var, is_and, is_app_of,
      match_flex_eq, is_eq_args, match_binary, IS_FLEX, is_value, is_true, is_false,
      get_args, get_sort]
  ⟨by decide, by decide, by decide, hcalls,
    (propagate_variable_equivalences_dispatch_sound idle_simplifier ⟨(), none, 1⟩
      sample_rule_dispatch even_vars_true (fun _ => 0) (by decide) (by decide)
      (by decide)).2⟩

/-! ## Idempotence of the rule-set transformation -/

/-- One pass on a working rule with a non-empty constraint suffix, in terms of the values of
the local variables. -/
theorem pass_of_constraints (s : mk_interp_tail_simplifier σ) (st : simplifier_state σ)
    (r : rule) (hu : r.get_uninterpreted_tail_size ≠ r.get_tail_size) :
    s.pass st r =
      if !is_app (s.simplify_expr r.interpreted_tail) &&
          !is_bool (s.simplify_expr r.interpreted_tail) then
        .finished (.exception "simplification resulted in non-boolean non-function") st
      else if is_false (s.new_itail r) then .finished .drop st
      else
        match (s.propagate_variable_equivalences (s.rebuilt st r).2 (s.rebuilt st r).1).1 with
        | some r1 =>
          .restart (s.propagate_variable_equivalences (s.rebuilt st r).2 (s.rebuilt st r).1).2 r1
        | none =>
          .finished (.keep (s.rebuilt st r).1)
            (s.propagate_variable_equivalences (s.rebuilt st r).2 (s.rebuilt st r).1).2 := by
  unfold mk_interp_tail_simplifier.pass mk_interp_tail_simplifier.rebuilt
    mk_interp_tail_simplifier.is_modified mk_interp_tail_simplifier.new_tail
    mk_interp_tail_simplifier.new_itail
  simp only [hu, if_false]

theorem unify_all_subst (s : mk_interp_tail_simplifier σ) (calls : List (expr × expr)) :
    ∀ (st1 st2 : simplifier_state σ) (f : Bool), st1.m_subst = st2.m_subst →
    (s.unify_all calls st1 f).2 = (s.unify_all calls st2 f).2 := by
  induction calls with
  | nil => intro st1 st2 f _; rfl
  | cons c cs ih =>
    intro st1 st2 f h
    simp only [mk_interp_tail_simplifier.unify_all]
    have h1 : (s.unify st1 c.1 c.2).1 = (s.unify st2 c.1 c.2).1 := by
      simp [mk_interp_tail_simplifier.unify, h]
    have h2 : (s.unify st1 c.1 c.2).2.m_subst = (s.unify st2 c.1 c.2).2.m_subst := by
      simp [mk_interp_tail_simplifier.unify, h]
    rw [h1]
    exact ih _ _ _ h2

/-- Whether the propagator finds something does not depend on the state in which it is
called, when `reset` of the substitution forgets the old substitution. -/
theorem propagate_none_of_state (s : mk_interp_tail_simplifier σ)
    (hreset : ∀ u1 u2, s.subst_reset u1 = s.subst_reset u2)
    (st st2 : simplifier_state σ) (r : rule)
    (h : (s.propagate_variable_equivalences st r).1 = none) :
    (s.propagate_variable_equivalences st2 r).1 = none := by
  by_cases hu : r.get_uninterpreted_tail_size = r.get_tail_size
  · simp [mk_interp_tail_simplifier.propagate_variable_equivalences, hu]
  · rw [propagate_variable_equivalences_trace s _ r hu] at h ⊢
    have hs : (s.reset st r).m_subst = (s.reset st2 r).m_subst := by
      simp only [mk_interp_tail_simplifier.reset]
      rw [hreset st.m_subst st2.m_subst]
    rw [← unify_all_subst s _ _ _ false hs]
    split_ifs at h ⊢ with hf
    · rfl

theorem stable_of_out_of_scope (s : mk_interp_tail_simplifier σ) (r : rule)
    (h : r.has_quantifiers = true ∨ r.get_uninterpreted_tail_size = r.get_tail_size) :
    s.stable r := by
  intro fuel st
  refine ⟨st, ?_⟩
  by_cases hq : r.has_quantifiers = true
  · simp [mk_interp_tail_simplifier.transform_rule, hq]
  · have hu : r.get_uninterpreted_tail_size = r.get_tail_size := by
      rcases h with h | h
      · exact absurd h hq
      · exact h
    apply transform_rule_of_finished s fuel st st r _ (by simpa using hq)
    unfold mk_interp_tail_simplifier.pass
    simp only [hu, if_true]

theorem stable_of_unmodified (s : mk_interp_tail_simplifier σ)
    (hreset : ∀ u1 u2, s.subst_reset u1 = s.subst_reset u2)
    (st : simplifier_state σ) (r : rule)
    (hu : r.get_uninterpreted_tail_size ≠ r.get_tail_size)
    (hm : s.is_modified r = false)
    (hok : (!is_app (s.simplify_expr r.interpreted_tail) &&
      !is_bool (s.simplify_expr r.interpreted_tail)) = false)
    (hnf : is_false (s.new_itail r) = false)
    (hp : (s.propagate_variable_equivalences st r).1 = none) :
    s.stable r := by
  intro fuel st2
  by_cases hq : r.has_quantifiers = true
  · exact ⟨st2, by simp [mk_interp_tail_simplifier.transform_rule, hq]⟩
  · refine ⟨(s.propagate_variable_equivalences st2 r).2, ?_⟩
    apply transform_rule_of_finished s fuel st2 _ r _ (by simpa using hq)
    have hr : s.rebuilt st2 r = (r, st2) := by
      simp [mk_interp_tail_simplifier.rebuilt, hm]
    rw [pass_of_constraints s st2 r hu, hok, hnf, hr]
    simp only [Bool.false_eq_true, if_false]
    rw [propagate_none_of_state s hreset st st2 r hp]

theorem getD_append_singleton {α : Type} (l : List α) (a d : α) :
    (l ++ [a]).getD l.length d = a := by
  induction l with
  | nil => rfl
  | cons x xs ih => simp

/-- A rule whose single constraint literal the pipeline returns unchanged, and on which the
propagator finds nothing, is a fixpoint. -/
theorem stable_of_constraint_kept (s : mk_interp_tail_simplifier σ)
    (hreset : ∀ u1 u2, s.subst_reset u1 = s.subst_reset u2)
    (st : simplifier_state σ) (obj : Nat) (head : expr) (pre : List (expr × Bool))
    (lit : expr) (happ : is_app lit = true) (hs : s.simplify_expr lit = lit)
    (hnt : is_true lit = false) (hnf : is_false lit = false)
    (hp : (s.propagate_variable_equivalences st
      ⟨obj, head, pre ++ [(lit, false)], pre.length⟩).1 = none) :
    s.stable ⟨obj, head, pre ++ [(lit, false)], pre.length⟩ := by
  intro fuel st2
  by_cases hq : (rule.mk obj head (pre ++ [(lit, false)]) pre.length).has_quantifiers = true
  · exact ⟨st2, by simp [mk_interp_tail_simplifier.transform_rule, hq]⟩
  · refine ⟨(s.propagate_variable_equivalences st2
      ⟨obj, head, pre ++ [(lit, false)], pre.length⟩).2, ?_⟩
    apply transform_rule_of_finished s fuel st2 _ _ _ (by simpa using hq)
    have hl : (rule.mk obj head (pre ++ [(lit, false)]) pre.length).get_tail
        (rule.mk obj head (pre ++ [(lit, false)]) pre.length).get_uninterpreted_tail_size =
        lit := by
      simp [rule.get_tail, rule.get_uninterpreted_tail_size, getD_append_singleton]
    rw [pass_unmodified s st2 _ (by simp [rule.get_uninterpreted_tail_size, rule.get_tail_size])
      (by rw [hl]; exact happ) (by rw [hl]; exact hs) (by rw [hl]; exact hnt)
      (by rw [hl]; exact hnf)]
    rw [propagate_none_of_state s hreset st st2 _ hp]

/-- On a rule whose single constraint literal is `x = true` for a boolean variable `x` the
propagator finds something, when the unifier can bind a boolean variable to true. -/
theorem propagate_finds_bool_var (s : mk_interp_tail_simplifier σ)
    (hvar : ∀ st r i, (s.unify (s.reset st r) (.var i .bool) mk_true).1 = true)
    (st : simplifier_state σ) (obj : Nat) (head : expr) (pre : List (expr × Bool))
    (i : Nat) :
    (s.propagate_variable_equivalences st
      ⟨obj, head, pre ++ [(mk_eq (.var i .bool) mk_true, false)], pre.length⟩).1 ≠ none := by
  have hcalls : (rule.mk obj head (pre ++ [(mk_eq (.var i .bool) mk_true, false)])
      pre.length).propagate_calls = [(.var i .bool, mk_true)] := by
    simp [rule.propagate_calls, rule.get_uninterpreted_tail_size, rule.get_tail_size,
      unify_calls, propagate_step_calls, mk_eq, mk_true, strip_not, is_not_arg, is_var,
      is_and, is_app_of, match_flex_eq, is_eq_args, IS_FLEX, is_value, get_sort]
  rw [propagate_variable_equivalences_trace s st _
    (by simp [rule.get_uninterpreted_tail_size, rule.get_tail_size]), hcalls]
  simp [mk_interp_tail_simplifier.unify_all, hvar]

theorem has_quantifiers_of_mem (r : rule) (l : expr × Bool) (hl : l ∈ r.tail)
    (h : contains_quantifier l.1 = true) : r.has_quantifiers = true := by
  simp only [rule.has_quantifiers, List.any_eq_true]
  exact ⟨l, hl, h⟩

theorem rule_manager_mk_constraint (is_predicate : func_decl → Bool) (obj : Nat) (head : expr)
    (pre : List (expr × Bool)) (lit : expr × Bool)
    (h : ∀ l ∈ pre, is_relational is_predicate l = true)
    (hl : is_relational is_predicate lit = false) :
    rule_manager.mk is_predicate obj head (pre ++ [lit]) =
      { obj := obj, head := head, tail := pre ++ [lit], uninterp_cnt := pre.length } := by
  have h1 : pre.filter (is_relational is_predicate) = pre := List.filter_eq_self.mpr h
  have h2 : pre.filter (fun l => !is_relational is_predicate l) = [] := by
    rw [List.filter_eq_nil_iff]
    intro l hl
    simp [h l hl]
  simp [rule_manager.mk, List.filter_append, h1, h2, List.filter, hl]

/-- The rule that a pass returns with Keep is a fixpoint of `transform_rule`. -/
theorem stable_of_finished (s : mk_interp_tail_simplifier σ)
    (hidem : ∀ e, s.simplify_expr (s.simplify_expr e) = s.simplify_expr e)
    (hreset : ∀ u1 u2, s.subst_reset u1 = s.subst_reset u2)
    (hvar : ∀ st r i, (s.unify (s.reset st r) (.var i .bool) mk_true).1 = true)
    (st st1 : simplifier_state σ) (r t : rule)
    (hwf : r.well_formed s.is_predicate = true)
    (h : s.pass st r = .finished (.keep t) st1) : s.stable t := by
  have hpre : ∀ l ∈ r.tail.take r.get_uninterpreted_tail_size,
      is_relational s.is_predicate l = true := by
    simpa [rule.well_formed] using hwf
  by_cases hu : r.get_uninterpreted_tail_size = r.get_tail_size
  · have ht : t = r := by
      unfold mk_interp_tail_simplifier.pass at h
      simp only [hu, if_true, pass_result.finished.injEq, transform_result.keep.injEq] at h
      exact h.1.symm
    rw [ht]
    exact stable_of_out_of_scope s r (Or.inr hu)
  · rw [pass_of_constraints s st r hu] at h
    split_ifs at h with c1 c2
    · simp at h
    · simp at h
    · cases hp : (s.propagate_variable_equivalences (s.rebuilt st r).2 (s.rebuilt st r).1).1 with
      | some r1 => rw [hp] at h; simp at h
      | none =>
        rw [hp] at h
        simp only [pass_result.finished.injEq, transform_result.keep.injEq] at h
        have ht : t = (s.rebuilt st r).1 := h.1.symm
        have hok : (!is_app (s.simplify_expr r.interpreted_tail) &&
            !is_bool (s.simplify_expr r.interpreted_tail)) = false := by simpa using c1
        have hnf : is_false (s.new_itail r) = false := by simpa using c2
        by_cases hm : s.is_modified r = true
        · -- the rule was rebuilt
          have hreb : s.rebuilt st r = s.mk_rule st r.head (s.new_tail r) := by
            simp [mk_interp_tail_simplifier.rebuilt, hm]
          rw [hreb] at hp ht
          simp only [mk_interp_tail_simplifier.mk_rule] at hp ht
          by_cases htr : is_true (s.new_itail r) = true
          · have hnt : s.new_tail r = r.tail.take r.get_uninterpreted_tail_size := by
              simp [mk_interp_tail_simplifier.new_tail, htr]
            rw [hnt, rule_manager_mk_relational _ _ _ _ hpre] at ht
            rw [ht]
            exact stable_of_out_of_scope s _ (Or.inr rfl)
          · have hnt : s.new_tail r =
                r.tail.take r.get_uninterpreted_tail_size ++ [(s.new_itail r, false)] := by
              simp [mk_interp_tail_simplifier.new_tail, htr]
            rw [hnt] at hp ht
            by_cases hrel : is_relational s.is_predicate (s.new_itail r, false) = true
            · rw [rule_manager_mk_relational _ _ _ _ (by
                intro l hl
                rcases List.mem_append.1 hl with hl | hl
                · exact hpre l hl
                · rw [List.mem_singleton.1 hl]; exact hrel)] at ht
              rw [ht]
              exact stable_of_out_of_scope s _ (Or.inr rfl)
            · rw [rule_manager_mk_constraint _ _ _ _ _ hpre (by simpa using hrel)] at hp ht
              rw [ht]
              by_cases happ : is_app (s.simplify_expr r.interpreted_tail) = true
              · have hit : s.new_itail r = s.simplify_expr r.interpreted_tail := by
                  simp [mk_interp_tail_simplifier.new_itail, happ]
                apply stable_of_constraint_kept s hreset _ _ _ _ _ (by rw [hit]; exact happ)
                  (by rw [hit]; exact hidem _) (by simpa using htr) hnf hp
              · have hit : s.new_itail r =
                    mk_eq (s.simplify_expr r.interpreted_tail) mk_true := by
                  simp [mk_interp_tail_simplifier.new_itail, happ]
                have hbool : is_bool (s.simplify_expr r.interpreted_tail) = true := by
                  simpa [happ] using hok
                rw [hit] at hp ⊢
                cases hsr : s.simplify_expr r.interpreted_tail with
                | app f args => rw [hsr] at happ; simp [is_app] at happ
                | var i srt =>
                  rw [hsr] at hbool hp
                  have hsrt : srt = .bool := by simpa [is_bool, get_sort] using hbool
                  subst hsrt
                  exact absurd hp (propagate_finds_bool_var s hvar _ _ _ _ _)
                | quantifier fa n body =>
                  apply stable_of_out_of_scope s _ (Or.inl _)
                  apply has_quantifiers_of_mem _
                    (mk_eq (.quantifier fa n body) mk_true, false)
                  · simp
                  · simp [mk_eq, contains_quantifier, contains_quantifier_list]
        · -- the rule was not rebuilt
          have hm2 : s.is_modified r = false := by simpa using hm
          have hreb : s.rebuilt st r = (r, st) := by
            simp [mk_interp_tail_simplifier.rebuilt, hm2]
          rw [hreb] at hp ht
          rw [ht]
          exact stable_of_unmodified s hreset st r hu hm2 hok hnf hp

/-- The rule that `get_result` builds is well formed, when the renumbering of the variables
keeps the relational literals relational and the others not. -/
theorem get_result_well_formed (s : mk_interp_tail_simplifier σ)
    (hnorm : ∀ h t, (s.norm_vars h t).2.map (is_relational s.is_predicate) =
      t.map (is_relational s.is_predicate))
    (st : simplifier_state σ) (r : rule) :
    (s.get_result st r).1.well_formed s.is_predicate = true := by
  simp only [rule.well_formed, mk_interp_tail_simplifier.get_result,
    mk_interp_tail_simplifier.mk_rule, rule_manager.mk, rule.get_uninterpreted_tail_size,
    List.all_eq_true]
  intro l hl
  have hm := List.mem_map_of_mem (is_relational s.is_predicate) hl
  rw [List.map_take, hnorm, List.map_append, List.take_left' (List.length_map _ _)] at hm
  obtain ⟨l2, hl2, he⟩ := List.mem_map.1 hm
  rw [← he]
  exact (List.mem_filter.1 hl2).2

theorem propagate_some_is_result (s : mk_interp_tail_simplifier σ) (st : simplifier_state σ)
    (r r1 : rule) (h : (s.propagate_variable_equivalences st r).1 = some r1) :
    ∃ st1, r1 = (s.get_result st1 r).1 := by
  unfold mk_interp_tail_simplifier.propagate_variable_equivalences at h
  simp only at h
  split_ifs at h
  simp only [Option.some.injEq] at h
  exact ⟨_, h.symm⟩

theorem well_formed_of_restart (s : mk_interp_tail_simplifier σ)
    (hnorm : ∀ h t, (s.norm_vars h t).2.map (is_relational s.is_predicate) =
      t.map (is_relational s.is_predicate))
    (st st1 : simplifier_state σ) (r r1 : rule) (h : s.pass st r = .restart st1 r1) :
    r1.well_formed s.is_predicate = true := by
  by_cases hu : r.get_uninterpreted_tail_size = r.get_tail_size
  · unfold mk_interp_tail_simplifier.pass at h
    simp [hu] at h
  · rw [pass_of_constraints s st r hu] at h
    split_ifs at h
    cases hp : (s.propagate_variable_equivalences (s.rebuilt st r).2 (s.rebuilt st r).1).1 with
    | none => rw [hp] at h; simp at h
    | some r2 =>
      rw [hp] at h
      simp only [pass_result.restart.injEq] at h
      obtain ⟨st2, hr2⟩ := propagate_some_is_result s _ _ _ hp
      rw [← h.2, hr2]
      exact get_result_well_formed s hnorm _ _

theorem stable_of_from_start (s : mk_interp_tail_simplifier σ)
    (hidem : ∀ e, s.simplify_expr (s.simplify_expr e) = s.simplify_expr e)
    (hreset : ∀ u1 u2, s.subst_reset u1 = s.subst_reset u2)
    (hvar : ∀ st r i, (s.unify (s.reset st r) (.var i .bool) mk_true).1 = true)
    (hnorm : ∀ h t, (s.norm_vars h t).2.map (is_relational s.is_predicate) =
      t.map (is_relational s.is_predicate))
    (fuel : Nat) :
    ∀ (st st1 : simplifier_state σ) (r t : rule), r.well_formed s.is_predicate = true →
    s.transform_rule_from_start fuel st r = some (.keep t, st1) → s.stable t := by
  induction fuel with
  | zero =>
    intro st st1 r t _ h
    simp [mk_interp_tail_simplifier.transform_rule_from_start] at h
  | succ fuel ih =>
    intro st st1 r t hwf h
    rw [transform_rule_from_start_succ] at h
    cases hp : s.pass st r with
    | restart st2 r2 =>
      rw [hp] at h
      exact ih st2 st1 r2 t (well_formed_of_restart s hnorm st st2 r r2 hp) h
    | finished res st2 =>
      rw [hp] at h
      simp only [Option.some.injEq, Prod.mk.injEq] at h
      rw [h.1] at hp
      exact stable_of_finished s hidem hreset hvar st st2 r t hwf hp

theorem stable_of_transform_rule (s : mk_interp_tail_simplifier σ)
    (hidem : ∀ e, s.simplify_expr (s.simplify_expr e) = s.simplify_expr e)
    (hreset : ∀ u1 u2, s.subst_reset u1 = s.subst_reset u2)
    (hvar : ∀ st r i, (s.unify (s.reset st r) (.var i .bool) mk_true).1 = true)
    (hnorm : ∀ h t, (s.norm_vars h t).2.map (is_relational s.is_predicate) =
      t.map (is_relational s.is_predicate))
    (fuel : Nat) (st st1 : simplifier_state σ) (r t : rule)
    (hwf : r.well_formed s.is_predicate = true)
    (h : s.transform_rule fuel st r = some (.keep t, st1)) : s.stable t := by
  unfold mk_interp_tail_simplifier.transform_rule at h
  split_ifs at h with hq
  · simp only [Option.some.injEq, Prod.mk.injEq, transform_result.keep.injEq] at h
    rw [← h.1]
    exact stable_of_out_of_scope s r (Or.inl hq)
  · exact stable_of_from_start s hidem hreset hvar hnorm fuel st st1 r t hwf h

theorem stable_of_loop (s : mk_interp_tail_simplifier σ)
    (hidem : ∀ e, s.simplify_expr (s.simplify_expr e) = s.simplify_expr e)
    (hreset : ∀ u1 u2, s.subst_reset u1 = s.subst_reset u2)
    (hvar : ∀ st r i, (s.unify (s.reset st r) (.var i .bool) mk_true).1 = true)
    (hnorm : ∀ h t, (s.norm_vars h t).2.map (is_relational s.is_predicate) =
      t.map (is_relational s.is_predicate))
    (fuel : Nat) (orig : List rule) :
    ∀ (st st1 : simplifier_state σ) (modified modified1 : Bool) (tgt tgt1 : List rule),
    (∀ r ∈ orig, r.well_formed s.is_predicate = true) → (∀ t ∈ tgt, s.stable t) →
    s.transform_rules_loop fuel orig st modified tgt = some (.returned modified1 tgt1, st1) →
    ∀ t ∈ tgt1, s.stable t := by
  induction orig with
  | nil =>
    intro st st1 modified modified1 tgt tgt1 _ htgt h
    simp only [mk_interp_tail_simplifier.transform_rules_loop, Option.some.injEq,
      Prod.mk.injEq, transform_rules_result.returned.injEq] at h
    rw [← h.1.2]
    exact htgt
  | cons rit rest ih =>
    intro st st1 modified modified1 tgt tgt1 hwf htgt h
    simp only [mk_interp_tail_simplifier.transform_rules_loop] at h
    cases hr : s.transform_rule fuel st rit with
    | none => rw [hr] at h; simp at h
    | some p =>
      obtain ⟨res, st2⟩ := p
      rw [hr] at h
      cases res with
      | exception msg => simp at h
      | drop =>
        exact ih st2 st1 _ _ _ _ (fun r hr => hwf r (List.mem_cons_of_mem _ hr)) htgt h
      | keep new_rule =>
        refine ih st2 st1 _ _ _ _ (fun r hr => hwf r (List.mem_cons_of_mem _ hr)) ?_ h
        intro t ht
        rcases List.mem_append.1 ht with ht | ht
        · exact htgt t ht
        · rw [List.mem_singleton.1 ht]
          exact stable_of_transform_rule s hidem hreset hvar hnorm fuel st st2 rit new_rule
            (hwf rit (List.mem_cons_self _ _)) hr

theorem loop_of_stable (s : mk_interp_tail_simplifier σ) (fuel : Nat) (orig : List rule) :
    ∀ (st : simplifier_state σ) (modified : Bool) (tgt : List rule),
    (∀ t ∈ orig, s.stable t) →
    ∃ st1, s.transform_rules_loop (fuel + 1) orig st modified tgt =
      some (.returned modified (tgt ++ orig), st1) := by
  induction orig with
  | nil =>
    intro st modified tgt _
    exact ⟨st, by simp [mk_interp_tail_simplifier.transform_rules_loop]⟩
  | cons t rest ih =>
    intro st modified tgt h
    obtain ⟨st1, h1⟩ := h t (List.mem_cons_self _ _) fuel st
    obtain ⟨st2, h2⟩ := ih st1 modified (tgt ++ [t])
      (fun t1 ht1 => h t1 (List.mem_cons_of_mem _ ht1))
    refine ⟨st2, ?_⟩
    simp only [mk_interp_tail_simplifier.transform_rules_loop, h1, bne_self_eq_false,
      Bool.or_false, h2, List.append_assoc, List.singleton_append]

/-- C19: idempotence.  For every set `S` of well-formed rules on which the rule-set
transformation returns with an output set `T`, transforming `T` again, from any state,
returns "not modified" with the set `T` itself: every rule of `T` is kept as the same
object and none is dropped, and the top-level operator returns no rule set.  This holds
for a simplification pipeline that returns its own outputs unchanged, a substitution whose
`reset` forgets the old bindings, a unifier that can bind a boolean variable to true, and a
renumbering of variables that keeps relational literals relational and the others not. -/
theorem transform_rules_idempotent (s : mk_interp_tail_simplifier σ) (fuel fuel2 : Nat)
    (st st1 st2 : simplifier_state σ) (S T : List rule) (modified : Bool)
    (hidem : ∀ e, s.simplify_expr (s.simplify_expr e) = s.simplify_expr e)
    (hreset : ∀ u1 u2, s.subst_reset u1 = s.subst_reset u2)
    (hvar : ∀ st r i, (s.unify (s.reset st r) (.var i .bool) mk_true).1 = true)
    (hnorm : ∀ h t, (s.norm_vars h t).2.map (is_relational s.is_predicate) =
      t.map (is_relational s.is_predicate))
    (hwf : ∀ r ∈ S, r.well_formed s.is_predicate = true)
    (h : s.transform_rules fuel st S = some (.returned modified T, st1)) :
    ∃ st3, s.transform_rules (fuel2 + 1) st2 T = some (.returned false T, st3) ∧
      s.run (fuel2 + 1) st2 T = some (.ok none, st3) := by
  have hstable : ∀ t ∈ T, s.stable t :=
    stable_of_loop s hidem hreset hvar hnorm fuel S st st1 false modified [] T hwf
      (fun t ht => absurd ht (List.not_mem_nil t)) h
  obtain ⟨st3, h3⟩ := loop_of_stable s fuel2 T st2 false [] hstable
  have h4 : s.transform_rules (fuel2 + 1) st2 T = some (.returned false T, st3) := by
    simpa [mk_interp_tail_simplifier.transform_rules] using h3
  refine ⟨st3, h4, ?_⟩
  unfold mk_interp_tail_simplifier.run
  rw [h4]
  cases T with
  | nil =>
    simp only [mk_interp_tail_simplifier.transform_rules,
      mk_interp_tail_simplifier.transform_rules_loop, Option.some.injEq, Prod.mk.injEq] at h4
    simp [h4.2]
  | cons t rest => simp

theorem fold_trivial_eq_idem (e : expr) :
    fold_trivial_eq (fold_trivial_eq e) = fold_trivial_eq e := by
  by_cases h : ∃ srt a b, e = .app (.eq_decl srt) [a, b]
  · obtain ⟨srt, a, b, rfl⟩ := h
    by_cases hab : a = b
    · simp [fold_trivial_eq, hab, mk_true]
    · simp [fold_trivial_eq, hab]
  · have hfix : fold_trivial_eq e = e := by
      unfold fold_trivial_eq
      split
      · next srt a b => exact absurd ⟨srt, a, b, rfl⟩ h
      · rfl
    rw [hfix, hfix]

theorem binding_simplifier_contract :
    (∀ e, binding_simplifier.simplify_expr (binding_simplifier.simplify_expr e) =
      binding_simplifier.simplify_expr e) ∧
    (∀ u1 u2, binding_simplifier.subst_reset u1 = binding_simplifier.subst_reset u2) ∧
    (∀ st r i, (binding_simplifier.unify (binding_simplifier.reset st r)
      (.var i .bool) mk_true).1 = true) ∧
    (∀ h t, (binding_simplifier.norm_vars h t).2.map
        (is_relational binding_simplifier.is_predicate) =
      t.map (is_relational binding_simplifier.is_predicate)) := by
  refine ⟨?_, fun _ _ => rfl, ?_, fun _ _ => rfl⟩
  · intro e
    simp [mk_interp_tail_simplifier.simplify_expr, binding_simplifier, fold_trivial_eq_idem]
  · intro st r i
    simp [mk_interp_tail_simplifier.unify, mk_interp_tail_simplifier.reset, binding_simplifier,
      apply_bindings, apply_bindings_list, mk_true, bind_flat, is_value]

theorem transform_rules_idempotent_witness :
    (∀ e, binding_simplifier.simplify_expr (binding_simplifier.simplify_expr e) =
      binding_simplifier.simplify_expr e) ∧
    (∀ u1 u2, binding_simplifier.subst_reset u1 = binding_simplifier.subst_reset u2) ∧
    (∀ st r i, (binding_simplifier.unify (binding_simplifier.reset st r)
      (.var i .bool) mk_true).1 = true) ∧
    (∀ h t, (binding_simplifier.norm_vars h t).2.map
        (is_relational binding_simplifier.is_predicate) =
      t.map (is_relational binding_simplifier.is_predicate)) ∧
    (∀ r ∈ [sample_rule_eq, sample_rule_le_second],
      r.well_formed binding_simplifier.is_predicate = true) ∧
    binding_simplifier.transform_rules 2 ⟨[], none, 11⟩
        [sample_rule_eq, sample_rule_le_second] =
      some (.returned true
        [⟨12, .app (.uninterp 0 .bool) [mk_numeral 5],
            [(.app (.uninterp 1 .bool) [mk_numeral 5], false)], 1⟩, sample_rule_le_second],
        ⟨[], some sample_rule_le_second, 13⟩) ∧
    ∃ st3, binding_simplifier.transform_rules (0 + 1) ⟨[], none, 20⟩
        [⟨12, .app (.uninterp 0 .bool) [mk_numeral 5],
            [(.app (.uninterp 1 .bool) [mk_numeral 5], false)], 1⟩, sample_rule_le_second] =
        some (.returned false
          [⟨12, .app (.uninterp 0 .bool) [mk_numeral 5],
              [(.app (.uninterp 1 .bool) [mk_numeral 5], false)], 1⟩, sample_rule_le_second],
          st3) ∧
      binding_simplifier.run (0 + 1) ⟨[], none, 20⟩
        [⟨12, .app (.uninterp 0 .bool) [mk_numeral 5],
            [(.app (.uninterp 1 .bool) [mk_numeral 5], false)], 1⟩, sample_rule_le_second] =
        some (.ok none, st3) :=
  have hp := propagates_binding_passes binding_simplifier ⟨[], none, 11⟩ sample_rule_eq
      [(0, mk_numeral 5)] 0 (.app (.uninterp 0 .bool) [.var 0 (.other 0)]) (.uninterp 1 .bool)
      0 (.other 0) (mk_numeral 5) rfl rfl rfl rfl rfl rfl rfl rfl rfl
      (apply_bindings_app _) rfl
  have h1 : binding_simplifier.transform_rule 2 ⟨[], none, 11⟩ sample_rule_eq =
      some (.keep ⟨12, .app (.uninterp 0 .bool) [mk_numeral 5],
          [(.app (.uninterp 1 .bool) [mk_numeral 5], false)], 1⟩,
        ⟨[(0, mk_numeral 5)], some sample_rule_eq, 13⟩) := by
    simp only [mk_interp_tail_simplifier.transform_rule, hp.1, Bool.false_eq_true, if_false]
    rw [transform_rule_of_restart _ (0 + 1) _ _ _ _ hp.2.1, transform_rule_from_start_succ,
      hp.2.2]
    rfl
  have hpr : binding_simplifier.propagate_variable_equivalences
      ⟨[(0, mk_numeral 5)], some sample_rule_eq, 13⟩ sample_rule_le_second =
      (none, ⟨[], some sample_rule_le_second, 13⟩) := by
    simp [mk_interp_tail_simplifier.propagate_variable_equivalences, sample_rule_le_second,
      sample_rule_le, rule.get_uninterpreted_tail_size, rule.get_tail_size,
      mk_interp_tail_simplifier.propagate_loop, mk_interp_tail_simplifier.propagate_step,
      mk_interp_tail_simplifier.reset, binding_simplifier,
      strip_not, is_not_arg, is_var, is_and, is_app_of, mk_le, match_flex_eq, is_eq_args,
      match_binary, match_le_ge]
  have h2 : binding_simplifier.transform_rule 2 ⟨[(0, mk_numeral 5)], some sample_rule_eq, 13⟩
      sample_rule_le_second =
      some (.keep sample_rule_le_second, ⟨[], some sample_rule_le_second, 13⟩) := by
    apply transform_rule_of_finished binding_simplifier 1 _ _ _ _ (by decide)
    rw [pass_unmodified binding_simplifier _ sample_rule_le_second (by decide) (by decide)
      (by decide) (by decide) (by decide), hpr]
  have hfirst : binding_simplifier.transform_rules 2 ⟨[], none, 11⟩
      [sample_rule_eq, sample_rule_le_second] =
      some (.returned true
        [⟨12, .app (.uninterp 0 .bool) [mk_numeral 5],
            [(.app (.uninterp 1 .bool) [mk_numeral 5], false)], 1⟩, sample_rule_le_second],
        ⟨[], some sample_rule_le_second, 13⟩) := by
    simp only [mk_interp_tail_simplifier.transform_rules,
      mk_interp_tail_simplifier.transform_rules_loop, h1, h2]
    rfl
  have hwf : ∀ r ∈ [sample_rule_eq, sample_rule_le_second],
      r.well_formed binding_simplifier.is_predicate = true := by decide
  ⟨binding_simplifier_contract.1, binding_simplifier_contract.2.1,
    binding_simplifier_contract.2.2.1, binding_simplifier_contract.2.2.2, hwf, hfirst,
    transform_rules_idempotent binding_simplifier 2 0 ⟨[], none, 11⟩ _ ⟨[], none, 20⟩
      [sample_rule_eq, sample_rule_le_second] _ true
      binding_simplifier_contract.1 binding_simplifier_contract.2.1
      binding_simplifier_contract.2.2.1 binding_simplifier_contract.2.2.2 hwf hfirst⟩

/-! ## The collapse scan `detect_equivalences` -/

theorem collapse_segments_nil (d : Bool) : collapse_segments d [] = [] := by
  simp [collapse_segments]

theorem collapse_segments_single (d : Bool) (e : expr) :
    collapse_segments d [e] = [.kept e] := by
  simp [collapse_segments]

theorem collapse_segments_some (d : Bool) (e1 e2 neq : expr) (l : List expr)
    (h : collapse_pair d e1 e2 = some neq) :
    collapse_segments d (e1 :: e2 :: l) = .collapsed e1 e2 neq :: collapse_segments d l := by
  rw [collapse_segments]
  simp [h]

theorem collapse_segments_none (d : Bool) (e1 e2 : expr) (l : List expr)
    (h : collapse_pair d e1 e2 = none) :
    collapse_segments d (e1 :: e2 :: l) = .kept e1 :: collapse_segments d (e2 :: l) := by
  rw [collapse_segments]
  simp [h]

theorem segments_input_collapse_segments (d : Bool) (v : List expr) :
    segments_input (collapse_segments d v) = v := by
  induction v using collapse_segments.induct d with
  | case1 => simp [collapse_segments, segments_input]
  | case2 e1 => simp [collapse_segments, segments_input, scan_segment.input]
  | case3 e1 e2 rest neq h ih =>
    rw [collapse_segments_some d e1 e2 neq rest h]
    simp [segments_input, scan_segment.input, ih]
  | case4 e1 e2 rest h ih =>
    rw [collapse_segments_none d e1 e2 rest h]
    simp [segments_input, scan_segment.input, ih]

theorem collapse_segments_justified (d : Bool) (v : List expr) :
    ∀ s ∈ collapse_segments d v, s.justified d = true := by
  induction v using collapse_segments.induct d with
  | case1 => simp [collapse_segments]
  | case2 e1 => simp [collapse_segments, scan_segment.justified]
  | case3 e1 e2 rest neq h ih =>
    rw [collapse_segments_some d e1 e2 neq rest h]
    intro s hs
    rcases List.mem_cons.1 hs with rfl | hs
    · simp [scan_segment.justified, h]
    · exact ih s hs
  | case4 e1 e2 rest h ih =>
    rw [collapse_segments_none d e1 e2 rest h]
    intro s hs
    rcases List.mem_cons.1 hs with rfl | hs
    · rfl
    · exact ih s hs

/-- Every collapse shortens the argument list by one. -/
theorem collapse_segments_length (d : Bool) (v : List expr) :
    ((collapse_segments d v).map scan_segment.output).length +
      (collapse_segments d v).countP scan_segment.is_collapse = v.length := by
  induction v using collapse_segments.induct d with
  | case1 => simp [collapse_segments]
  | case2 e1 => simp [collapse_segments, scan_segment.is_collapse]
  | case3 e1 e2 rest neq h ih =>
    rw [collapse_segments_some d e1 e2 neq rest h]
    simp only [List.map_cons, List.length_cons, List.length_map] at ih ⊢
    rw [List.countP_cons_of_pos _ _ (by rfl)]
    omega
  | case4 e1 e2 rest h ih =>
    rw [collapse_segments_none d e1 e2 rest h]
    simp only [List.map_cons, List.length_cons, List.length_map] at ih ⊢
    rw [List.countP_cons_of_neg _ _ (by simp [scan_segment.is_collapse])]
    omega

theorem match_arg_pair_eq_some {e : expr} {d : Bool} {p : arg_pair}
    (h : match_arg_pair e d = some p) :
    e = .app (if d then .and_decl else .or_decl) [p.1, p.2] := by
  unfold match_arg_pair at h
  cases d with
  | true => simpa using @match_binary_eq_some _ _ p.1 p.2 (by simpa using h)
  | false => simpa using @match_binary_eq_some _ _ p.1 p.2 (by simpa using h)

/-- The literal that `detect_equivalence` answers has the truth value of the two candidate
pairs it is found in. -/
theorem detect_equivalence_eval (a1 b1 a2 b2 lit : expr) (d : Bool)
    (h : detect_equivalence (a1, b1) (a2, b2) d = some lit) (v : expr → Bool) :
    eval v lit =
      if d then (eval v a1 && eval v b1) || (eval v a2 && eval v b2)
      else (eval v a1 || eval v b1) && (eval v a2 || eval v b2) := by
  rcases is_not_cases a1 with ⟨x1, e1, n1, i1⟩ | ⟨n1, i1⟩ <;>
  rcases is_not_cases a2 with ⟨x2, e2, n2, i2⟩ | ⟨n2, i2⟩ <;>
  rcases is_not_cases b1 with ⟨y1, e3, n3, i3⟩ | ⟨n3, i3⟩ <;>
  rcases is_not_cases b2 with ⟨y2, e4, n4, i4⟩ | ⟨n4, i4⟩ <;>
  simp [detect_equivalence, is_not_out, n1, i1, n2, i2, n3, i3, n4, i4] at h
  all_goals
    obtain ⟨ha, hb, ⟨hbx, hby⟩, hl⟩ := h
    subst_vars
    cases d <;> simp at hl <;> subst hl <;>
      simp only [eval_mk_eq _ _ _ hbx, eval_mk_not] <;>
      simp <;>
      cases eval v _ <;> cases eval v _ <;> rfl

theorem collapse_pair_eval (d : Bool) (e1 e2 neq : expr)
    (h : collapse_pair d e1 e2 = some neq) (v : expr → Bool) :
    eval v neq = if d then eval v e1 || eval v e2 else eval v e1 && eval v e2 := by
  unfold collapse_pair at h
  split at h
  · next p1 p2 h1 h2 =>
    have he1 := match_arg_pair_eq_some h1
    have he2 := match_arg_pair_eq_some h2
    rw [detect_equivalence_eval p1.1 p1.2 p2.1 p2.2 neq d h v, he1, he2]
    cases d <;> simp [eval, eval_list, interp]
  · cases h

theorem eval_junction_cons (d : Bool) (v : expr → Bool) (e : expr) (l : List expr) :
    eval v (.app (junction_decl d) (e :: l)) =
      if d then eval v e || eval v (.app (junction_decl d) l)
      else eval v e && eval v (.app (junction_decl d) l) := by
  cases d <;> simp [junction_decl, eval, eval_list, interp]

/-- The junction of the arguments that the segments leave has the truth value of the
junction of the scanned arguments. -/
theorem collapse_segments_eval (d : Bool) (v : List expr) (val : expr → Bool) :
    eval val (.app (junction_decl d) ((collapse_segments d v).map scan_segment.output)) =
      eval val (.app (junction_decl d) v) := by
  induction v using collapse_segments.induct d with
  | case1 => simp [collapse_segments]
  | case2 e1 => simp [collapse_segments, scan_segment.output]
  | case3 e1 e2 rest neq h ih =>
    rw [collapse_segments_some d e1 e2 neq rest h]
    simp only [List.map_cons, scan_segment.output, eval_junction_cons, ih,
      collapse_pair_eval d e1 e2 neq h val]
    cases d <;> simp [Bool.and_assoc, Bool.or_assoc]
  | case4 e1 e2 rest h ih =>
    rw [collapse_segments_none d e1 e2 rest h]
    simp only [List.map_cons, scan_segment.output, eval_junction_cons d val e1, ih]

theorem write_back_take_le (v : List expr) (w r : Nat) (e : expr) :
    (write_back v w r e).take w = v.take w := by
  unfold write_back
  split
  · rw [List.set_take, List.set_eq_of_length_le (List.length_take_le _ _)]
  · rfl

theorem write_back_getElem? (v : List expr) (w r : Nat) (hw : w ≤ r) (hr : r < v.length) :
    (write_back v w r v[r])[w]? = some v[r] := by
  unfold write_back
  by_cases h : w = r
  · subst h
    rw [if_neg (by simp)]
    exact List.getElem?_eq_getElem hr
  · rw [if_pos h, List.getElem?_set_self (by omega)]

theorem collapse_scan_nil (d : Bool) : collapse_scan d [] = [] := by
  simp [collapse_scan, collapse_segments]

theorem collapse_scan_single (d : Bool) (e : expr) : collapse_scan d [e] = [e] := by
  simp [collapse_scan, collapse_segments, scan_segment.output]

theorem collapse_scan_some (d : Bool) (e1 e2 neq : expr) (l : List expr)
    (h : collapse_pair d e1 e2 = some neq) :
    collapse_scan d (e1 :: e2 :: l) = neq :: collapse_scan d l := by
  simp [collapse_scan, collapse_segments_some d e1 e2 neq l h, scan_segment.output]

theorem collapse_scan_none (d : Bool) (e1 e2 : expr) (l : List expr)
    (h : collapse_pair d e1 e2 = none) :
    collapse_scan d (e1 :: e2 :: l) = e1 :: collapse_scan d (e2 :: l) := by
  simp [collapse_scan, collapse_segments_none d e1 e2 l h, scan_segment.output]

theorem collapse_pair_left_none (d : Bool) (e1 e2 : expr)
    (h : match_arg_pair e1 d = none) : collapse_pair d e1 e2 = none := by
  simp [collapse_pair, h]

theorem collapse_pair_right_none (d : Bool) (e1 e2 : expr)
    (h : match_arg_pair e2 d = none) : collapse_pair d e1 e2 = none := by
  unfold collapse_pair
  rw [h]
  cases match_arg_pair e1 d <;> rfl

theorem collapse_pair_of_pairs (d : Bool) (e1 e2 : expr) (p1 p2 : arg_pair)
    (h1 : match_arg_pair e1 d = some p1) (h2 : match_arg_pair e2 d = some p2) :
    collapse_pair d e1 e2 = detect_equivalence p1 p2 d := by
  simp [collapse_pair, h1, h2]

/-- An argument that is not a candidate pair is kept. -/
theorem collapse_scan_not_pair (d : Bool) (e : expr) (l : List expr)
    (h : match_arg_pair e d = none) : collapse_scan d (e :: l) = e :: collapse_scan d l := by
  cases l with
  | nil => rw [collapse_scan_single, collapse_scan_nil]
  | cons e2 l => exact collapse_scan_none d e e2 l (collapse_pair_left_none d e e2 h)

/-- The loop of `detect_equivalences` does the scan of the specification on what is still to
be read: without a pending pair it appends the scan of the rest to what is written, and with
the pending pair `ep`, written last at index `w`, the scan of `ep` followed by the rest. -/
theorem detect_equivalences_loop_eq (d : Bool) :
    ∀ (k : Nat) (v : List expr) (ppi : Nat) (ap : arg_pair) (rd : Nat),
    v.length - rd = k → rd ≤ v.length →
    (∀ wr, wr ≤ rd →
      (detect_equivalences_loop d v false ppi ap rd wr).2.1 = v.length ∧
      (detect_equivalences_loop d v false ppi ap rd wr).1.take
          (detect_equivalences_loop d v false ppi ap rd wr).2.2 =
        v.take wr ++ collapse_scan d (v.drop rd) ∧
      (detect_equivalences_loop d v false ppi ap rd wr).2.2 =
        wr + (collapse_scan d (v.drop rd)).length) ∧
    (∀ w ep, w + 1 ≤ rd → v[w]? = some ep → match_arg_pair ep d = some ap →
      (detect_equivalences_loop d v true w ap rd (w + 1)).2.1 = v.length ∧
      (detect_equivalences_loop d v true w ap rd (w + 1)).1.take
          (detect_equivalences_loop d v true w ap rd (w + 1)).2.2 =
        v.take w ++ collapse_scan d (ep :: v.drop rd) ∧
      (detect_equivalences_loop d v true w ap rd (w + 1)).2.2 =
        w + (collapse_scan d (ep :: v.drop rd)).length) := by
  intro k
  induction k with
  | zero =>
    intro v ppi ap rd hk hr
    have hrl : rd = v.length := by omega
    have hdrop : v.drop rd = [] := by rw [hrl]; exact List.drop_length v
    constructor
    · intro wr hw
      rw [detect_equivalences_loop, dif_neg (by omega), hdrop, collapse_scan_nil]
      simp [hrl]
    · intro w ep hw hep hap
      rw [detect_equivalences_loop, dif_neg (by omega), hdrop, collapse_scan_single]
      simp [hrl, List.take_succ, hep]
  | succ k ih =>
    intro v ppi ap rd hk hr
    have hlt : rd < v.length := by omega
    have hdrop : v.drop rd = v[rd] :: v.drop (rd + 1) := List.drop_eq_getElem_cons hlt
    constructor
    · intro wr hw
      rw [detect_equivalences_loop, dif_pos hlt, hdrop]
      cases hm : match_arg_pair v[rd] d with
      | none =>
        simp only [hm]
        obtain ⟨h1, h2, h3⟩ := (ih (write_back v wr rd v[rd]) ppi ap (rd + 1)
          (by simp; omega) (by simp; omega)).1 (wr + 1) (by omega)
        rw [h1, h2, h3, write_back_take v wr rd hw hlt, write_back_drop v wr rd _ hw,
          collapse_scan_not_pair d _ _ hm]
        simp
        omega
      | some new_ap =>
        simp only [hm, Bool.false_eq_true, if_false]
        obtain ⟨h1, h2, h3⟩ := (ih (write_back v wr rd v[rd]) wr new_ap (rd + 1)
          (by simp; omega) (by simp; omega)).2 wr v[rd] (by omega)
          (write_back_getElem? v wr rd hw hlt) hm
        rw [h1, h2, h3, write_back_take_le, write_back_drop v wr rd _ hw]
        simp
    · intro w ep hw hep hap
      have hwl : w < v.length := by omega
      have htake : v.take (w + 1) = v.take w ++ [ep] := by
        rw [List.take_succ, hep]; rfl
      rw [detect_equivalences_loop, dif_pos hlt, hdrop]
      cases hm : match_arg_pair v[rd] d with
      | none =>
        simp only [hm]
        obtain ⟨h1, h2, h3⟩ := (ih (write_back v (w + 1) rd v[rd]) w ap (rd + 1)
          (by simp; omega) (by simp; omega)).1 (w + 1 + 1) (by omega)
        rw [h1, h2, h3, write_back_take v (w + 1) rd hw hlt, write_back_drop v (w + 1) rd _ hw,
          collapse_scan_none d ep _ _ (collapse_pair_right_none d ep _ hm),
          collapse_scan_not_pair d _ _ hm, htake]
        simp
        omega
      | some new_ap =>
        simp only [hm, if_true]
        have hcp := collapse_pair_of_pairs d ep v[rd] ap new_ap hap hm
        cases hde : detect_equivalence ap new_ap d with
        | some neq =>
          simp only []
          obtain ⟨h1, h2, h3⟩ := (ih (v.set w neq) w ap (rd + 1)
            (by simp; omega) (by simp; omega)).1 (w + 1) (by omega)
          rw [h1, h2, h3, take_succ_set v w neq hwl, List.drop_set_of_lt neq v (by omega),
            collapse_scan_some d ep _ neq _ (by rw [hcp, hde])]
          simp
          omega
        | none =>
          simp only []
          obtain ⟨h1, h2, h3⟩ := (ih (write_back v (w + 1) rd v[rd]) (w + 1) new_ap (rd + 1)
            (by simp; omega) (by simp; omega)).2 (w + 1) v[rd] (by omega)
            (write_back_getElem? v (w + 1) rd hw hlt) hm
          rw [h1, h2, h3, write_back_take_le, write_back_drop v (w + 1) rd _ hw,
            collapse_scan_none d ep _ _ (by rw [hcp, hde]), htake]
          simp
          omega

theorem collapse_segments_any (d : Bool) (v : List expr) :
    (v.length != (collapse_scan d v).length) =
      (collapse_segments d v).any scan_segment.is_collapse := by
  have h := collapse_segments_length d v
  have hc : (collapse_segments d v).any scan_segment.is_collapse =
      decide (0 < (collapse_segments d v).countP scan_segment.is_collapse) := by
    rw [Bool.eq_iff_iff]
    simp [List.countP_pos_iff]
  rw [hc, collapse_scan, Bool.eq_iff_iff]
  simp only [bne_iff_ne, ne_eq, decide_eq_true_eq]
  omega

/-- The index loop of `detect_equivalences` computes the scan of the specification. -/
theorem detect_equivalences_eq (v : List expr) (d : Bool) :
    detect_equivalences v d =
      (collapse_scan d v, (collapse_segments d v).any scan_segment.is_collapse) := by
  obtain ⟨h1, h2, h3⟩ :=
    (detect_equivalences_loop_eq d _ v 0 (mk_true, mk_true) 0 rfl (Nat.zero_le _)).1 0
      (le_refl _)
  simp only [List.take_zero, List.nil_append, List.drop_zero, Nat.zero_add] at h2 h3
  rw [detect_equivalences]
  simp only [h1, h3, collapse_segments_any]
  rw [h3] at h2
  rw [h2]

theorem kept_args_sublist (segs : List scan_segment) :
    (segs.filterMap scan_segment.kept_arg).Sublist (segments_input segs) ∧
    (segs.filterMap scan_segment.kept_arg).Sublist (segs.map scan_segment.output) := by
  induction segs with
  | nil => simp [segments_input]
  | cons s ss ih =>
    cases s with
    | kept e =>
      simp only [List.filterMap_cons, scan_segment.kept_arg, segments_input,
        scan_segment.input, List.map_cons, scan_segment.output, List.singleton_append]
      exact ⟨ih.1.cons₂ e, ih.2.cons₂ e⟩
    | collapsed e1 e2 neq =>
      simp only [List.filterMap_cons, scan_segment.kept_arg, segments_input,
        scan_segment.input, List.map_cons, scan_segment.output, List.cons_append,
        List.nil_append]
      exact ⟨(ih.1.cons e2).cons e1, ih.2.cons neq⟩

theorem reduce_app_status (cfg : normalizer_cfg) (d : Bool) (args : List expr)
    (h : 2 ≤ args.length) :
    (cfg.reduce_app (junction_decl d) args).1 =
      if (detect_equivalences (remove_duplicates (std_sort (expr_cmp cfg.m) args)) d).2
      then .BR_REWRITE1 else .BR_DONE := by
  have hl : ¬ args.length < 2 := by omega
  cases d
  · have hb : (func_decl.and_decl == func_decl.or_decl) = false := rfl
    simp only [junction_decl, normalizer_cfg.reduce_app, Bool.false_eq_true, if_false,
      reduceCtorEq, ne_eq, not_true_eq_false, false_and, hl, hb]
    split_ifs <;> rfl
  · have hb : (func_decl.or_decl == func_decl.or_decl) = true := rfl
    simp only [junction_decl, normalizer_cfg.reduce_app, if_true,
      reduceCtorEq, ne_eq, not_true_eq_false, and_false, hl, if_false, hb]
    split_ifs <;> rfl

/-- C21: the collapse scan `detect_equivalences` preserves meaning and reports change
exactly.  For every argument list `v` of an AND (resp. OR) the scan cuts `v` into
consecutive segments, each one argument that is kept or two adjacent candidate pairs for
which `detect_equivalence` answers an equality literal, and leaves, in the same order, the
kept argument or the equality literal of every segment: the arguments not consumed by a
collapse keep their relative order, and the length drops by the number of collapses.  The
scan returns true exactly when at least one segment is a collapse, which is exactly when
`reduce_app` answers `BR_REWRITE1` for a junction of at least two arguments; and under
every boolean valuation the conjunction (resp. disjunction) of the list after the scan has
the truth value of that of `v`. -/
theorem detect_equivalences_preserves_meaning (cfg : normalizer_cfg) (v : List expr)
    (inside_disjunction : Bool) :
    segments_input (collapse_segments inside_disjunction v) = v ∧
    (detect_equivalences v inside_disjunction).1 =
      (collapse_segments inside_disjunction v).map scan_segment.output ∧
    (∀ s ∈ collapse_segments inside_disjunction v, s.justified inside_disjunction = true) ∧
    ((collapse_segments inside_disjunction v).filterMap scan_segment.kept_arg).Sublist v ∧
    ((collapse_segments inside_disjunction v).filterMap scan_segment.kept_arg).Sublist
      (detect_equivalences v inside_disjunction).1 ∧
    (detect_equivalences v inside_disjunction).1.length +
      (collapse_segments inside_disjunction v).countP scan_segment.is_collapse = v.length ∧
    ((detect_equivalences v inside_disjunction).2 = true ↔
      ∃ s ∈ collapse_segments inside_disjunction v, s.is_collapse = true) ∧
    (∀ val : expr → Bool,
      eval val (.app (junction_decl inside_disjunction)
          (detect_equivalences v inside_disjunction).1) =
        eval val (.app (junction_decl inside_disjunction) v)) ∧
    (∀ args : List expr, 2 ≤ args.length →
      ((cfg.reduce_app (junction_decl inside_disjunction) args).1 = .BR_REWRITE1 ↔
        (detect_equivalences (remove_duplicates (std_sort (expr_cmp cfg.m) args))
          inside_disjunction).2 = true)) := by
  have hk := kept_args_sublist (collapse_segments inside_disjunction v)
  rw [segments_input_collapse_segments] at hk
  rw [detect_equivalences_eq]
  refine ⟨segments_input_collapse_segments _ v, rfl, collapse_segments_justified _ v, hk.1,
    hk.2, collapse_segments_length _ v, by simp [List.any_eq_true],
    fun val => collapse_segments_eval _ v val, ?_⟩
  intro args hargs
  rw [reduce_app_status cfg inside_disjunction args hargs]
  split_ifs with hf <;> simp [hf]

/-- The scan on the arguments `x2, (x0 OR NOT x1), (NOT x0 OR x1), (x0 OR x1), x3` of a
conjunction: the two adjacent disjunctions collapse into `x0 = x1`, the other arguments are
kept in their order, and the scan returns true. -/
theorem detect_equivalences_sample :
    detect_equivalences sample_scan_args false =
      ([.var 2 .bool, mk_eq (.var 0 .bool) (.var 1 .bool),
        mk_or [.var 0 .bool, .var 1 .bool], .var 3 .bool], true) := by
  simp [detect_equivalences, detect_equivalences_loop, sample_scan_args, match_arg_pair,
    match_binary, mk_or, mk_not, mk_eq, write_back, detect_equivalence, is_not_out, is_not,
    is_not_arg, is_bool, get_sort]

/-! ## What the propagator reports -/

theorem mem_vars_list {i : Nat} {l : List expr} :
    i ∈ vars_list l ↔ ∃ e ∈ l, i ∈ vars e := by
  induction l with
  | nil => simp [vars_list]
  | cons x xs ih => simp [vars_list, ih]

theorem mem_rule_vars {i : Nat} {r : rule} :
    i ∈ r.var_list ↔ i ∈ vars r.head ∨ ∃ l ∈ r.tail, i ∈ vars l.1 := by
  simp only [rule.var_list, List.mem_append, mem_vars_list, List.mem_map]
  constructor
  · rintro (h | ⟨e, ⟨l, hl, rfl⟩, he⟩)
    · exact Or.inl h
    · exact Or.inr ⟨l, hl, he⟩
  · rintro (h | ⟨l, hl, he⟩)
    · exact Or.inl h
    · exact Or.inr ⟨l.1, ⟨l, hl, rfl⟩, he⟩

theorem var_count_eq (r : rule) : r.var_count = r.var_list.dedup.length := rfl

theorem dedup_length_le_of_subset {l1 l2 : List Nat} (h : ∀ i ∈ l1, i ∈ l2) :
    l1.dedup.length ≤ l2.dedup.length := by
  apply ((List.nodup_dedup l1).subperm _).length_le
  intro i hi
  exact List.mem_dedup.2 (h i (List.mem_dedup.1 hi))

theorem dedup_length_lt_of_subset {l1 l2 : List Nat} (i0 : Nat) (h : ∀ i ∈ l1, i ∈ l2)
    (h0 : i0 ∈ l2) (h1 : i0 ∉ l1) : l1.dedup.length < l2.dedup.length := by
  have hsub : l1.dedup ⊆ l2.dedup.erase i0 := by
    intro i hi
    have hi1 := List.mem_dedup.1 hi
    have hne : i ≠ i0 := fun hh => h1 (hh ▸ hi1)
    exact (List.mem_erase_of_ne hne).2 (List.mem_dedup.2 (h i hi1))
  have hle := ((List.nodup_dedup l1).subperm hsub).length_le
  have hlen := List.length_erase_of_mem (List.mem_dedup.2 h0)
  have hpos : 0 < l2.dedup.length := List.length_pos_of_mem (List.mem_dedup.2 h0)
  omega

theorem vars_strip_not (t0 : expr) : ∀ i ∈ vars (strip_not t0).2, i ∈ vars t0 := by
  rcases strip_not_cases t0 with ⟨x, hx, hs⟩ | ⟨_, hs⟩
  · rw [hs, hx]
    intro i hi
    simpa [vars, vars_list] using hi
  · rw [hs]
    exact fun i hi => hi

theorem vars_strip_nots (e : expr) (neg : Bool) :
    ∀ i ∈ vars (strip_nots e neg).1, i ∈ vars e := by
  induction e, neg using strip_nots.induct with
  | case1 x neg ih =>
    rw [strip_nots]
    intro i hi
    simpa [vars, vars_list] using ih i hi
  | case2 e neg h =>
    have hs : strip_nots e neg = (e, neg) := by
      unfold strip_nots
      split
      · exact absurd rfl (fun hh => h _ hh)
      · rfl
    rw [hs]
    exact fun i hi => hi

theorem vars_get_args (t : expr) : ∀ x ∈ get_args t, ∀ i ∈ vars x, i ∈ vars t := by
  cases t with
  | var _ _ => simp [get_args]
  | quantifier _ _ _ => simp [get_args]
  | app f args =>
    intro x hx i hi
    simp only [get_args] at hx
    simp only [vars]
    exact mem_vars_list.2 ⟨x, hx, hi⟩

theorem vars_pair_of_app (f : func_decl) (a1 a2 : expr) (i : Nat)
    (h : i ∈ vars a1 ∨ i ∈ vars a2) : i ∈ vars (.app f [a1, a2]) := by
  simpa [vars, vars_list] using h

/-- One pass of the loop body hands to the work-list and to the unifier only terms whose
variables are variables of the popped literal. -/
theorem propagate_step_calls_vars (leqs : List expr) (t0 : expr) :
    (∀ t ∈ (propagate_step_calls leqs t0).1, ∀ i ∈ vars t, i ∈ vars t0) ∧
    (∀ p ∈ (propagate_step_calls leqs t0).2.1, ∀ i, i ∈ vars p.1 ∨ i ∈ vars p.2 →
      i ∈ vars t0) := by
  have hst := vars_strip_not t0
  have htrue : vars mk_true = [] := rfl
  have hfalse : vars mk_false = [] := rfl
  unfold propagate_step_calls
  generalize (strip_not t0).2 = t at hst
  generalize (strip_not t0).1 = neg
  simp only
  split
  · refine ⟨by simp, ?_⟩
    intro p hp i hi
    simp only [List.mem_singleton] at hp
    subst hp
    cases neg <;> simp [htrue, hfalse] at hi <;> exact hst i hi
  · split
    · exact ⟨fun x hx i hi => hst i (vars_get_args t x hx i hi), by simp⟩
    · split
      · next arg1 arg2 hflex =>
        obtain ⟨_, s, rfl⟩ := match_flex_eq_some hflex
        refine ⟨by simp, ?_⟩
        intro p hp i hi
        simp only [List.mem_singleton] at hp
        subst hp
        exact hst i (vars_pair_of_app _ _ _ i hi)
      · split
        · next arg1 arg2 hiff =>
          have hti := match_binary_eq_some hiff
          subst hti
          have h1 := vars_strip_nots arg1 neg
          have h2 := vars_strip_nots arg2 (strip_nots arg1 neg).2
          generalize strip_nots arg2 (strip_nots arg1 neg).2 = r2 at *
          generalize strip_nots arg1 neg = r1 at *
          have ha : ∀ i ∈ vars r1.1, i ∈ vars t0 :=
            fun i hi => hst i (vars_pair_of_app _ _ _ i (Or.inl (h1 i hi)))
          have hb : ∀ i ∈ vars r2.1, i ∈ vars t0 :=
            fun i hi => hst i (vars_pair_of_app _ _ _ i (Or.inr (h2 i hi)))
          refine ⟨by split_ifs <;> simp, ?_⟩
          intro p hp i hi
          by_cases hv : is_var r1.1 = true
          · simp only [hv, Bool.not_true, Bool.false_eq_true, if_false] at hp
            split_ifs at hp <;> simp only [List.mem_singleton, List.not_mem_nil] at hp <;>
              subst hp <;> simp only [htrue, hfalse, List.not_mem_nil, or_false] at hi
            · rcases hi with hi | hi
              · exact ha i hi
              · exact hb i hi
            · exact ha i hi
            · exact ha i hi
          · simp only [hv, Bool.not_false, if_true] at hp
            split_ifs at hp <;> simp only [List.mem_singleton, List.not_mem_nil] at hp <;>
              subst hp <;> simp only [htrue, hfalse, List.not_mem_nil, or_false] at hi
            · rcases hi with hi | hi
              · exact hb i hi
              · exact ha i hi
            · exact hb i hi
            · exact hb i hi
        · split
          · simp
          · simp

theorem unify_calls_vars :
    ∀ (n : Nat) (todo leqs : List expr), todo_size todo ≤ n →
    ∀ p ∈ unify_calls todo leqs, ∀ i, i ∈ vars p.1 ∨ i ∈ vars p.2 →
      ∃ t ∈ todo, i ∈ vars t := by
  intro n
  induction n with
  | zero =>
    intro todo leqs h p hp
    cases todo with
    | nil => simp [unify_calls] at hp
    | cons t rest => simp [todo_size] at h
  | succ n ih =>
    intro todo leqs h p hp i hi
    cases todo with
    | nil => simp [unify_calls] at hp
    | cons t rest =>
      obtain ⟨h1, h2⟩ := propagate_step_calls_vars leqs t
      have hsz := propagate_step_calls_size leqs t
      rw [unify_calls, List.mem_append] at hp
      rcases hp with hp | hp
      · exact ⟨t, List.mem_cons_self _ _, h2 p hp i hi⟩
      · obtain ⟨t1, ht1, hi1⟩ := ih _ _ (by
          rw [todo_size_append, todo_size_reverse]
          simp only [todo_size] at h
          omega) p hp i hi
        rw [List.mem_append, List.mem_reverse] at ht1
        rcases ht1 with ht1 | ht1
        · exact ⟨t, List.mem_cons_self _ _, h1 t1 ht1 i hi1⟩
        · exact ⟨t1, List.mem_cons_of_mem _ ht1, hi1⟩

/-- One call of `unify` in a state in which the variable `i` is eliminated keeps it
eliminated, and brings in no variable outside of `R`, when the two terms have their
variables in `R`. -/
theorem unify_keeps_eliminated (s : mk_interp_tail_simplifier σ)
    (hc : s.propagation_contract) (R : Nat → Prop) (i : Nat) (st : simplifier_state σ)
    (x y : expr) (hx : ∀ j ∈ vars x, R j) (hy : ∀ j ∈ vars y, R j)
    (h1 : ∀ e, i ∉ vars (s.subst_apply st.m_subst e))
    (h2 : ∀ e, (∀ j ∈ vars e, R j) → ∀ j ∈ vars (s.subst_apply st.m_subst e), R j) :
    (∀ e, i ∉ vars (s.subst_apply (s.unify st x y).2.m_subst e)) ∧
    (∀ e, (∀ j ∈ vars e, R j) →
      ∀ j ∈ vars (s.subst_apply (s.unify st x y).2.m_subst e), R j) := by
  simp only [mk_interp_tail_simplifier.unify]
  by_cases hab : s.subst_apply st.m_subst x = s.subst_apply st.m_subst y
  · rw [hab]
    simp only [hc.unif_identical, hc.reset_cache_apply]
    exact ⟨h1, h2⟩
  · cases hr : (s.m_unif (s.subst_apply st.m_subst x) (s.subst_apply st.m_subst y)
        (s.subst_reset_cache st.m_subst)).1 with
    | false =>
      simp only [hc.unif_failure _ _ _ hr, hc.reset_cache_apply]
      exact ⟨h1, h2⟩
    | true =>
      obtain ⟨i1, -, -, h5⟩ := hc.unif_binds _ _ _ hab hr
      constructor
      · intro e hi
        rcases h5 e i hi with h | h | h
        · rw [hc.reset_cache_apply] at h
          exact h1 e h
        · exact h1 x h
        · exact h1 y h
      · intro e he j hj
        rcases h5 e j hj with h | h | h
        · rw [hc.reset_cache_apply] at h
          exact h2 e he j h
        · exact h2 x hx j h
        · exact h2 y hy j h

theorem unify_all_keeps_eliminated (s : mk_interp_tail_simplifier σ)
    (hc : s.propagation_contract) (R : Nat → Prop) (i : Nat) (cs : List (expr × expr)) :
    ∀ (st : simplifier_state σ) (f : Bool),
    (∀ p ∈ cs, ∀ j, j ∈ vars p.1 ∨ j ∈ vars p.2 → R j) →
    (∀ e, i ∉ vars (s.subst_apply st.m_subst e)) →
    (∀ e, (∀ j ∈ vars e, R j) → ∀ j ∈ vars (s.subst_apply st.m_subst e), R j) →
    (∀ e, i ∉ vars (s.subst_apply (s.unify_all cs st f).1.m_subst e)) ∧
    (∀ e, (∀ j ∈ vars e, R j) →
      ∀ j ∈ vars (s.subst_apply (s.unify_all cs st f).1.m_subst e), R j) := by
  induction cs with
  | nil => intro st f _ h1 h2; exact ⟨h1, h2⟩
  | cons c cs ih =>
    intro st f hv h1 h2
    have hx : ∀ j ∈ vars c.1, R j := fun j hj => hv c (List.mem_cons_self _ _) j (Or.inl hj)
    have hy : ∀ j ∈ vars c.2, R j := fun j hj => hv c (List.mem_cons_self _ _) j (Or.inr hj)
    obtain ⟨h3, h4⟩ := unify_keeps_eliminated s hc R i st c.1 c.2 hx hy h1 h2
    simp only [mk_interp_tail_simplifier.unify_all]
    exact ih _ _ (fun p hp => hv p (List.mem_cons_of_mem _ hp)) h3 h4

/-- When the calls of `unify` start from the empty substitution, no call is for two
identical terms, and one of them answers true, a variable of the call pairs is eliminated
by the substitution that the calls leave. -/
theorem unify_all_eliminates (s : mk_interp_tail_simplifier σ)
    (hc : s.propagation_contract) (R : Nat → Prop) (cs : List (expr × expr)) :
    ∀ (st : simplifier_state σ),
    (∀ p ∈ cs, p.1 ≠ p.2) →
    (∀ p ∈ cs, ∀ j, j ∈ vars p.1 ∨ j ∈ vars p.2 → R j) →
    (∀ e, s.subst_apply st.m_subst e = e) →
    (s.unify_all cs st false).2 = true →
    ∃ i, R i ∧ (∀ e, i ∉ vars (s.subst_apply (s.unify_all cs st false).1.m_subst e)) ∧
      (∀ e, (∀ j ∈ vars e, R j) →
        ∀ j ∈ vars (s.subst_apply (s.unify_all cs st false).1.m_subst e), R j) := by
  induction cs with
  | nil =>
    intro st _ _ _ hf
    simp [mk_interp_tail_simplifier.unify_all] at hf
  | cons c cs ih =>
    intro st hne hv hid hf
    have hcne : c.1 ≠ c.2 := hne c (List.mem_cons_self _ _)
    have hx : ∀ j ∈ vars c.1, R j := fun j hj => hv c (List.mem_cons_self _ _) j (Or.inl hj)
    have hy : ∀ j ∈ vars c.2, R j := fun j hj => hv c (List.mem_cons_self _ _) j (Or.inr hj)
    simp only [mk_interp_tail_simplifier.unify_all] at hf ⊢
    cases hr : (s.unify st c.1 c.2).1 with
    | false =>
      rw [hr] at hf
      simp only [Bool.false_eq_true, if_false] at hf ⊢
      refine ih _ (fun p hp => hne p (List.mem_cons_of_mem _ hp))
        (fun p hp => hv p (List.mem_cons_of_mem _ hp)) ?_ hf
      intro e
      simp only [mk_interp_tail_simplifier.unify] at hr ⊢
      rw [hc.unif_failure _ _ _ hr, hc.reset_cache_apply, hid]
    | true =>
      simp only [if_true]
      have hr2 : (s.m_unif c.1 c.2 (s.subst_reset_cache st.m_subst)).1 = true := by
        simpa [mk_interp_tail_simplifier.unify, hid] using hr
      obtain ⟨i, hi, h4, h5⟩ := hc.unif_binds _ _ _ hcne hr2
      have hst : (s.unify st c.1 c.2).2.m_subst =
          (s.m_unif c.1 c.2 (s.subst_reset_cache st.m_subst)).2 := by
        simp [mk_interp_tail_simplifier.unify, hid]
      have hRi : R i := by
        rcases hi with hi | hi
        · exact hx i hi
        · exact hy i hi
      have h6 : ∀ e, (∀ j ∈ vars e, R j) →
          ∀ j ∈ vars (s.subst_apply (s.unify st c.1 c.2).2.m_subst e), R j := by
        intro e he j hj
        rw [hst] at hj
        rcases h5 e j hj with h | h | h
        · rw [hc.reset_cache_apply, hid] at h
          exact he j h
        · exact hx j h
        · exact hy j h
      obtain ⟨h7, h8⟩ := unify_all_keeps_eliminated s hc R i cs (s.unify st c.1 c.2).2 true
        (fun p hp => hv p (List.mem_cons_of_mem _ hp)) (by rw [hst]; exact h4) h6
      exact ⟨i, hRi, h7, h8⟩

theorem mem_remove_duplicate_tails (t : List (expr × Bool)) :
    ∀ l ∈ remove_duplicate_tails t, l ∈ t := by
  induction t with
  | nil => simp [remove_duplicate_tails]
  | cons x xs ih =>
    intro l hl
    simp only [remove_duplicate_tails, List.mem_cons, List.mem_filter] at hl
    rcases hl with hl | hl
    · exact hl ▸ List.mem_cons_self _ _
    · exact List.mem_cons_of_mem _ (ih l hl.1)

theorem mem_rule_manager_mk (p : func_decl → Bool) (obj : Nat) (h : expr)
    (t : List (expr × Bool)) : ∀ l ∈ (rule_manager.mk p obj h t).tail, l ∈ t := by
  intro l hl
  simp only [rule_manager.mk, List.mem_append, List.mem_filter] at hl
  rcases hl with hl | hl
  · exact hl.1
  · exact hl.1

/-- The rule that `get_result` builds from a substitution that eliminates a variable of the
rule, and brings in no other variable, has fewer distinct variables than the rule. -/
theorem get_result_var_count (s : mk_interp_tail_simplifier σ)
    (hc : s.propagation_contract) (st : simplifier_state σ) (r : rule) (i : Nat)
    (hi : i ∈ r.var_list)
    (h1 : ∀ e, i ∉ vars (s.subst_apply st.m_subst e))
    (h2 : ∀ e, (∀ j ∈ vars e, j ∈ r.var_list) →
      ∀ j ∈ vars (s.subst_apply st.m_subst e), j ∈ r.var_list) :
    (s.get_result st r).1.var_count < r.var_count := by
  have hcount := hc.norm_vars_count
    (rule_manager.mk s.is_predicate st.next_obj (s.subst_apply st.m_subst r.head)
      (remove_duplicate_tails (r.tail.map (fun l => (s.subst_apply st.m_subst l.1, l.2))))).head
    (rule_manager.mk s.is_predicate st.next_obj (s.subst_apply st.m_subst r.head)
      (remove_duplicate_tails (r.tail.map (fun l => (s.subst_apply st.m_subst l.1, l.2))))).tail
  have hlt : (vars (rule_manager.mk s.is_predicate st.next_obj
        (s.subst_apply st.m_subst r.head)
        (remove_duplicate_tails
          (r.tail.map (fun l => (s.subst_apply st.m_subst l.1, l.2))))).head ++
      vars_list ((rule_manager.mk s.is_predicate st.next_obj
        (s.subst_apply st.m_subst r.head)
        (remove_duplicate_tails
          (r.tail.map (fun l => (s.subst_apply st.m_subst l.1, l.2))))).tail.map
            Prod.fst)).dedup.length < r.var_list.dedup.length := by
    apply dedup_length_lt_of_subset i _ hi
    · intro hmem
      rcases List.mem_append.1 hmem with hm | hm
      · exact h1 _ hm
      · obtain ⟨e, he, hie⟩ := mem_vars_list.1 hm
        obtain ⟨l, hl, rfl⟩ := List.mem_map.1 he
        have hl2 := mem_remove_duplicate_tails _ l (mem_rule_manager_mk _ _ _ _ l hl)
        obtain ⟨l0, _, rfl⟩ := List.mem_map.1 hl2
        exact h1 _ hie
    · intro j hmem
      rcases List.mem_append.1 hmem with hm | hm
      · exact h2 r.head (fun k hk => mem_rule_vars.2 (Or.inl hk)) j hm
      · obtain ⟨e, he, hje⟩ := mem_vars_list.1 hm
        obtain ⟨l, hl, rfl⟩ := List.mem_map.1 he
        have hl2 := mem_remove_duplicate_tails _ l (mem_rule_manager_mk _ _ _ _ l hl)
        obtain ⟨l0, hl0, rfl⟩ := List.mem_map.1 hl2
        exact h2 l0.1 (fun k hk => mem_rule_vars.2 (Or.inr ⟨l0, hl0, hk⟩)) j hje
  have hres : (s.get_result st r).1.var_count =
      (vars (s.norm_vars
          (rule_manager.mk s.is_predicate st.next_obj (s.subst_apply st.m_subst r.head)
            (remove_duplicate_tails
              (r.tail.map (fun l => (s.subst_apply st.m_subst l.1, l.2))))).head
          (rule_manager.mk s.is_predicate st.next_obj (s.subst_apply st.m_subst r.head)
            (remove_duplicate_tails
              (r.tail.map (fun l => (s.subst_apply st.m_subst l.1, l.2))))).tail).1 ++
        vars_list ((s.norm_vars
          (rule_manager.mk s.is_predicate st.next_obj (s.subst_apply st.m_subst r.head)
            (remove_duplicate_tails
              (r.tail.map (fun l => (s.subst_apply st.m_subst l.1, l.2))))).head
          (rule_manager.mk s.is_predicate st.next_obj (s.subst_apply st.m_subst r.head)
            (remove_duplicate_tails
              (r.tail.map (fun l => (s.subst_apply st.m_subst l.1, l.2))))).tail).2.map
            Prod.fst)).dedup.length := rfl
  rw [hres, var_count_eq]
  omega

theorem getD_mem_or_default {α : Type} (l : List α) (n : Nat) (d : α) :
    l.getD n d = d ∨ l.getD n d ∈ l := by
  by_cases h : n < l.length
  · right
    rw [List.getD_eq_getElem _ _ h]
    exact List.getElem_mem h
  · left
    exact List.getD_eq_default _ _ (by omega)

theorem vars_interpreted_tail (r : rule) :
    ∀ i ∈ vars r.interpreted_tail, i ∈ r.var_list := by
  intro i hi
  unfold rule.interpreted_tail at hi
  simp only at hi
  split_ifs at hi
  · rcases getD_mem_or_default r.tail r.get_uninterpreted_tail_size default with h | h
    · simp only [rule.get_tail, h] at hi
      exact absurd hi (List.not_mem_nil i)
    · exact mem_rule_vars.2 (Or.inr ⟨_, h, hi⟩)
  · simp only [mk_and, vars] at hi
    obtain ⟨e, he, hie⟩ := mem_vars_list.1 hi
    obtain ⟨l, hl, rfl⟩ := List.mem_map.1 he
    exact mem_rule_vars.2 (Or.inr ⟨l, List.mem_of_mem_drop hl, hie⟩)

theorem vars_new_itail (s : mk_interp_tail_simplifier σ) (hc : s.propagation_contract)
    (r : rule) : ∀ i ∈ vars (s.new_itail r), i ∈ r.var_list := by
  intro i hi
  apply vars_interpreted_tail r i
  apply hc.simplify_vars
  unfold mk_interp_tail_simplifier.new_itail at hi
  simp only at hi
  split_ifs at hi
  · exact hi
  · simpa [mk_eq, mk_true, vars, vars_list] using hi

/-- The rule that a pass hands to the propagator has no variable that the working rule does
not have. -/
theorem rebuilt_vars (s : mk_interp_tail_simplifier σ) (hc : s.propagation_contract)
    (st : simplifier_state σ) (r : rule) :
    ∀ i ∈ (s.rebuilt st r).1.var_list, i ∈ r.var_list := by
  intro i hi
  unfold mk_interp_tail_simplifier.rebuilt at hi
  split_ifs at hi
  · simp only [mk_interp_tail_simplifier.mk_rule] at hi
    rcases mem_rule_vars.1 hi with h | ⟨l, hl, hil⟩
    · exact mem_rule_vars.2 (Or.inl h)
    · have hl2 := mem_rule_manager_mk _ _ _ _ l hl
      unfold mk_interp_tail_simplifier.new_tail at hl2
      simp only at hl2
      split_ifs at hl2
      · rcases List.mem_append.1 hl2 with h | h
        · exact mem_rule_vars.2 (Or.inr ⟨l, List.mem_of_mem_take h, hil⟩)
        · rw [List.mem_singleton.1 h] at hil
          exact vars_new_itail s hc r i hil
      · exact mem_rule_vars.2 (Or.inr ⟨l, List.mem_of_mem_take hl2, hil⟩)
  · exact hi

theorem propagate_calls_vars (r : rule) :
    ∀ p ∈ r.propagate_calls, ∀ i, i ∈ vars p.1 ∨ i ∈ vars p.2 → i ∈ r.var_list := by
  intro p hp i hi
  unfold rule.propagate_calls at hp
  simp only at hp
  split_ifs at hp
  · exact absurd hp (List.not_mem_nil p)
  · obtain ⟨t, ht, hit⟩ := unify_calls_vars _ _ _ (le_refl _) p hp i hi
    rw [List.mem_reverse] at ht
    obtain ⟨l, hl, rfl⟩ := List.mem_map.1 ht
    exact mem_rule_vars.2 (Or.inr ⟨l, List.mem_of_mem_drop hl, hit⟩)

/-- A successful propagation on a rule for which no call of `unify` is for two identical
terms yields a rule with fewer distinct variables. -/
theorem propagate_var_count (s : mk_interp_tail_simplifier σ) (hc : s.propagation_contract)
    (st : simplifier_state σ) (r r1 : rule)
    (hclean : ∀ p ∈ r.propagate_calls, p.1 ≠ p.2)
    (h : (s.propagate_variable_equivalences st r).1 = some r1) :
    r1.var_count < r.var_count := by
  by_cases hu : r.get_uninterpreted_tail_size = r.get_tail_size
  · simp [mk_interp_tail_simplifier.propagate_variable_equivalences, hu] at h
  · rw [propagate_variable_equivalences_trace s st r hu] at h
    split_ifs at h with hf
    simp only [Option.some.injEq] at h
    have hf2 : (s.unify_all r.propagate_calls (s.reset st r) false).2 = true := by
      simpa using hf
    obtain ⟨i, hi, h1, h2⟩ := unify_all_eliminates s hc (fun j => j ∈ r.var_list)
      r.propagate_calls (s.reset st r) hclean (propagate_calls_vars r)
      (fun e => by simp only [mk_interp_tail_simplifier.reset]; exact hc.reset_apply _ _ e) hf2
    rw [← h]
    exact get_result_var_count s hc _ r i hi h1 h2

theorem propagate_calls_of_constraint (obj : Nat) (head : expr) (pre : List (expr × Bool))
    (lit : expr) :
    (rule.mk obj head (pre ++ [(lit, false)]) pre.length).propagate_calls =
      unify_calls [lit] [] := by
  simp [rule.propagate_calls, rule.get_uninterpreted_tail_size, rule.get_tail_size]

theorem propagate_calls_of_relational (obj : Nat) (head : expr) (pre : List (expr × Bool)) :
    (rule.mk obj head pre pre.length).propagate_calls = [] := by
  simp [rule.propagate_calls, rule.get_uninterpreted_tail_size, rule.get_tail_size]

theorem propagate_calls_of_single (r : rule)
    (h : r.get_uninterpreted_tail_size + 1 = r.get_tail_size) :
    r.propagate_calls = unify_calls [r.get_tail r.get_uninterpreted_tail_size] [] := by
  have hlt : r.get_uninterpreted_tail_size < r.tail.length := by
    simp only [rule.get_tail_size] at h; omega
  have hd : r.tail.drop r.get_uninterpreted_tail_size =
      [r.tail[r.get_uninterpreted_tail_size]] := by
    rw [List.drop_eq_getElem_cons hlt, List.drop_eq_nil_of_le]
    simp only [rule.get_tail_size] at h; omega
  have hne : r.get_uninterpreted_tail_size ≠ r.get_tail_size := by omega
  simp only [rule.propagate_calls, hne, if_false, hd, List.map_cons, List.map_nil,
    List.reverse_singleton, rule.get_tail, List.getD_eq_getElem _ _ hlt]

/-- The calls of the propagator for an equality of a non-application term with `true`. -/
theorem unify_calls_mk_eq_true (v : expr) (hv : is_app v = false) :
    ∀ p ∈ unify_calls [mk_eq v mk_true] [], p.1 ≠ p.2 := by
  cases v with
  | app f args => simp [is_app] at hv
  | var i srt =>
    intro p hp
    simp [unify_calls, propagate_step_calls, mk_eq, mk_true, strip_not, is_not_arg, is_var,
      is_and, is_app_of, match_flex_eq, is_eq_args, IS_FLEX, is_value, get_sort] at hp
    rw [hp]
    simp
  | quantifier fa n body =>
    intro p hp
    simp [unify_calls, propagate_step_calls, mk_eq, mk_true, strip_not, is_not_arg, is_var,
      is_and, is_app_of, match_flex_eq, is_eq_args, IS_FLEX, is_value, get_sort,
      match_binary, match_le_ge] at hp

/-- In the rule that a pass on a well-formed working rule hands to the propagator, no call
of `unify` is for two identical terms. -/
theorem rebuilt_calls_clean (s : mk_interp_tail_simplifier σ) (hc : s.propagation_contract)
    (st : simplifier_state σ) (r : rule) (hwf : r.well_formed s.is_predicate = true) :
    ∀ p ∈ (s.rebuilt st r).1.propagate_calls, p.1 ≠ p.2 := by
  have hpre : ∀ l ∈ r.tail.take r.get_uninterpreted_tail_size,
      is_relational s.is_predicate l = true := by
    simpa [rule.well_formed] using hwf
  by_cases hm : s.is_modified r = true
  · have hreb : (s.rebuilt st r).1 =
        rule_manager.mk s.is_predicate st.next_obj r.head (s.new_tail r) := by
      simp [mk_interp_tail_simplifier.rebuilt, hm, mk_interp_tail_simplifier.mk_rule]
    rw [hreb]
    by_cases htr : is_true (s.new_itail r) = true
    · have hnt : s.new_tail r = r.tail.take r.get_uninterpreted_tail_size := by
        simp [mk_interp_tail_simplifier.new_tail, htr]
      rw [hnt, rule_manager_mk_relational _ _ _ _ hpre, propagate_calls_of_relational]
      simp
    · have hnt : s.new_tail r =
          r.tail.take r.get_uninterpreted_tail_size ++ [(s.new_itail r, false)] := by
        simp [mk_interp_tail_simplifier.new_tail, htr]
      rw [hnt]
      by_cases hrel : is_relational s.is_predicate (s.new_itail r, false) = true
      · rw [rule_manager_mk_relational _ _ _ _ (by
          intro l hl
          rcases List.mem_append.1 hl with hl | hl
          · exact hpre l hl
          · rw [List.mem_singleton.1 hl]; exact hrel), propagate_calls_of_relational]
        simp
      · rw [rule_manager_mk_constraint _ _ _ _ _ hpre (by simpa using hrel),
          propagate_calls_of_constraint]
        by_cases happ : is_app (s.simplify_expr r.interpreted_tail) = true
        · have hit : s.new_itail r = s.simplify_expr r.interpreted_tail := by
            simp [mk_interp_tail_simplifier.new_itail, happ]
          rw [hit]
          exact hc.simplify_clean _
        · have hit : s.new_itail r =
              mk_eq (s.simplify_expr r.interpreted_tail) mk_true := by
            simp [mk_interp_tail_simplifier.new_itail, happ]
          rw [hit]
          exact unify_calls_mk_eq_true _ (by simpa using happ)
  · have hm2 : s.is_modified r = false := by simpa using hm
    have hreb : (s.rebuilt st r).1 = r := by
      simp [mk_interp_tail_simplifier.rebuilt, hm2]
    rw [hreb]
    unfold mk_interp_tail_simplifier.is_modified at hm2
    simp only at hm2
    split_ifs at hm2 with h1 h2
    · simp only [Bool.false_or, bne_eq_false_iff_eq] at hm2
      have hit : r.interpreted_tail = r.get_tail r.get_uninterpreted_tail_size := by
        simp [rule.interpreted_tail, h2]
      rw [propagate_calls_of_single r h2, ← hit, hm2]
      exact hc.simplify_clean _
    · simp at hm2

/-- Every restart of the loop of `transform_rule` is with a rule that has fewer distinct
variables than the working rule of the pass, and that is well formed again. -/
theorem restart_var_count (s : mk_interp_tail_simplifier σ) (hc : s.propagation_contract)
    (st st1 : simplifier_state σ) (r r1 : rule)
    (hwf : r.well_formed s.is_predicate = true)
    (h : s.pass st r = .restart st1 r1) :
    r1.var_count < r.var_count ∧ r1.well_formed s.is_predicate = true := by
  refine ⟨?_, well_formed_of_restart s hc.norm_vars_relational st st1 r r1 h⟩
  by_cases hu : r.get_uninterpreted_tail_size = r.get_tail_size
  · unfold mk_interp_tail_simplifier.pass at h
    simp [hu] at h
  · rw [pass_of_constraints s st r hu] at h
    split_ifs at h
    cases hp : (s.propagate_variable_equivalences (s.rebuilt st r).2 (s.rebuilt st r).1).1 with
    | none => rw [hp] at h; simp at h
    | some r2 =>
      rw [hp] at h
      simp only [pass_result.restart.injEq] at h
      have h1 := propagate_var_count s hc _ _ r2 (rebuilt_calls_clean s hc st r hwf) hp
      have h2 : (s.rebuilt st r).1.var_count ≤ r.var_count :=
        dedup_length_le_of_subset (rebuilt_vars s hc st r)
      rw [← h.2]
      omega

theorem working_rule_restart (s : mk_interp_tail_simplifier σ) (st : simplifier_state σ)
    (r : rule) (k : Nat) (st1 st2 : simplifier_state σ) (r1 r2 : rule)
    (h1 : s.working_rule st r k = some (st1, r1))
    (h2 : s.working_rule st r (k + 1) = some (st2, r2)) :
    s.pass st1 r1 = .restart st2 r2 := by
  rw [mk_interp_tail_simplifier.working_rule, h1] at h2
  simp only at h2
  cases hp : s.pass st1 r1 with
  | finished res st3 => rw [hp] at h2; simp at h2
  | restart st3 r3 =>
    rw [hp] at h2
    simp only [Option.some.injEq, Prod.mk.injEq] at h2
    rw [h2.1, h2.2]

theorem working_rule_well_formed (s : mk_interp_tail_simplifier σ)
    (hc : s.propagation_contract) (st : simplifier_state σ) (r : rule)
    (hwf : r.well_formed s.is_predicate = true) (k : Nat) :
    ∀ st1 r1, s.working_rule st r k = some (st1, r1) →
      r1.well_formed s.is_predicate = true := by
  induction k with
  | zero =>
    intro st1 r1 h
    simp only [mk_interp_tail_simplifier.working_rule, Option.some.injEq, Prod.mk.injEq] at h
    rw [← h.2]
    exact hwf
  | succ k ih =>
    intro st2 r2 h
    cases hk : s.working_rule st r k with
    | none => simp [mk_interp_tail_simplifier.working_rule, hk] at h
    | some p =>
      obtain ⟨st1, r1⟩ := p
      exact (restart_var_count s hc st1 st2 r1 r2 (ih st1 r1 hk)
        (working_rule_restart s st r k st1 st2 r1 r2 hk h)).2

/-- C18 (amended): for every well-formed rule without quantifiers whose initial maximum
variable index is V, the loop of `transform_rule` passes through `start` at most V+2 times,
and with that many passes the call returns, because every successful propagation yields a
rule with strictly fewer distinct variables than the working rule of the pass, of which a
rule of maximum variable index V has at most V+1.  The collaborators that are not part of
the sources are taken to meet their contract `propagation_contract`: the pipeline adds no
variable and leaves no two identical terms to unify, and a successful unification of two
different terms eliminates one of their variables. -/
theorem transform_rule_terminates (s : mk_interp_tail_simplifier σ) (st : simplifier_state σ)
    (r : rule) (hc : s.propagation_contract) (hq : r.has_quantifiers = false)
    (hwf : r.well_formed s.is_predicate = true) :
    (∀ k st1 r1 st2 r2, s.working_rule st r k = some (st1, r1) →
      s.working_rule st r (k + 1) = some (st2, r2) → r2.var_count < r1.var_count) ∧
    s.working_rule st r (get_max_rule_var r + 2) = none ∧
    ∃ res, s.transform_rule (get_max_rule_var r + 2) st r = some res := by
  have hdec : ∀ k st1 r1 st2 r2, s.working_rule st r k = some (st1, r1) →
      s.working_rule st r (k + 1) = some (st2, r2) → r2.var_count < r1.var_count := by
    intro k st1 r1 st2 r2 h1 h2
    exact (restart_var_count s hc st1 st2 r1 r2
      (working_rule_well_formed s hc st r hwf k st1 r1 h1)
      (working_rule_restart s st r k st1 st2 r1 r2 h1 h2)).1
  have hnone : s.working_rule st r (get_max_rule_var r + 2) = none := by
    cases hw : s.working_rule st r (get_max_rule_var r + 2) with
    | none => rfl
    | some p =>
      obtain ⟨st1, r1⟩ := p
      have h1 := working_rule_var_count s st r hdec _ st1 r1 hw
      have h2 := var_count_le r
      omega
  refine ⟨hdec, hnone, ?_⟩
  cases ht : s.transform_rule (get_max_rule_var r + 2) st r with
  | some res => exact ⟨res, rfl⟩
  | none =>
    simp only [mk_interp_tail_simplifier.transform_rule, hq, Bool.false_eq_true, if_false] at ht
    have := working_rule_of_no_fuel s _ st r ht
    rw [hnone] at this
    simp at this

/-! ## A simplifier object that meets the contract -/

theorem subst_vars_list_eq_map (f : Nat → sort → expr) (l : List expr) :
    subst_vars_list f l = l.map (subst_vars f) := by
  induction l with
  | nil => rfl
  | cons x xs ih => simp [subst_vars_list, ih]

mutual
theorem subst_vars_id : ∀ (e : expr), subst_vars (fun idx srt => .var idx srt) e = e
  | .var _ _ => rfl
  | .app g args => by rw [subst_vars, subst_vars_list_id args]
  | .quantifier _ _ body => by rw [subst_vars, subst_vars_id body]

theorem subst_vars_list_id : ∀ (l : List expr),
    subst_vars_list (fun idx srt => .var idx srt) l = l
  | [] => rfl
  | x :: xs => by rw [subst_vars_list, subst_vars_id x, subst_vars_list_id xs]
end

mutual
/-- A variable of the result of a replacement is a variable of one of the terms put in, or
one that `T` allows; the terms put in by `f1` are compared with those put in by `f2`. -/
theorem vars_subst_vars (f1 f2 : Nat → sort → expr) (T : Nat → Prop)
    (h : ∀ k srt j, j ∈ vars (f1 k srt) → j ∈ vars (f2 k srt) ∨ T j) :
    ∀ (e : expr) (j : Nat), j ∈ vars (subst_vars f1 e) → j ∈ vars (subst_vars f2 e) ∨ T j
  | .var k srt, j, hj => h k srt j hj
  | .app g args, j, hj => by
    simp only [subst_vars, vars] at hj ⊢
    exact vars_subst_vars_list f1 f2 T h args j hj
  | .quantifier _ _ body, j, hj => by
    simp only [subst_vars, vars] at hj ⊢
    exact vars_subst_vars f1 f2 T h body j hj

theorem vars_subst_vars_list (f1 f2 : Nat → sort → expr) (T : Nat → Prop)
    (h : ∀ k srt j, j ∈ vars (f1 k srt) → j ∈ vars (f2 k srt) ∨ T j) :
    ∀ (l : List expr) (j : Nat), j ∈ vars_list (subst_vars_list f1 l) →
      j ∈ vars_list (subst_vars_list f2 l) ∨ T j
  | [], j, hj => by simp [subst_vars_list, vars_list] at hj
  | x :: xs, j, hj => by
    simp only [subst_vars_list, vars_list, List.mem_append] at hj ⊢
    rcases hj with hj | hj
    · rcases vars_subst_vars f1 f2 T h x j hj with h1 | h1
      · exact Or.inl (Or.inl h1)
      · exact Or.inr h1
    · rcases vars_subst_vars_list f1 f2 T h xs j hj with h1 | h1
      · exact Or.inl (Or.inr h1)
      · exact Or.inr h1
end

mutual
/-- A variable that occurs in none of the terms put in does not occur in the result. -/
theorem not_mem_vars_subst_vars (f : Nat → sort → expr) (i : Nat)
    (h : ∀ k srt, i ∉ vars (f k srt)) : ∀ (e : expr), i ∉ vars (subst_vars f e)
  | .var k srt => h k srt
  | .app g args => by
    simp only [subst_vars, vars]
    exact not_mem_vars_subst_vars_list f i h args
  | .quantifier _ _ body => by
    simp only [subst_vars, vars]
    exact not_mem_vars_subst_vars f i h body

theorem not_mem_vars_subst_vars_list (f : Nat → sort → expr) (i : Nat)
    (h : ∀ k srt, i ∉ vars (f k srt)) : ∀ (l : List expr), i ∉ vars_list (subst_vars_list f l)
  | [] => by simp [subst_vars_list, vars_list]
  | x :: xs => by
    simp only [subst_vars_list, vars_list, List.mem_append, not_or]
    exact ⟨not_mem_vars_subst_vars f i h x, not_mem_vars_subst_vars_list f i h xs⟩
end

theorem lookup_map_snd (F : expr → expr) (k : Nat) (b : List (Nat × expr)) :
    (b.map (fun p => (p.1, F p.2))).lookup k = (b.lookup k).map F := by
  induction b with
  | nil => rfl
  | cons p ps ih =>
    obtain ⟨k1, t1⟩ := p
    simp only [List.map_cons, List.lookup_cons]
    cases h : (k == k1)
    · simpa using ih
    · rfl

theorem vars_subst_one (i : Nat) (t x : expr) (j : Nat) (h : j ∈ vars (subst_one i t x)) :
    j ∈ vars x ∨ j ∈ vars t := by
  have h1 := vars_subst_vars (fun idx srt => if idx = i then t else .var idx srt)
    (fun idx srt => .var idx srt) (fun j => j ∈ vars t) (by
      intro k srt j hj
      by_cases hk : k = i
      · right; simpa [hk] using hj
      · left; simpa [hk] using hj) x j h
  rwa [subst_vars_id] at h1

theorem not_mem_vars_subst_one (i : Nat) (t x : expr) (h : i ∉ vars t) :
    i ∉ vars (subst_one i t x) := by
  apply not_mem_vars_subst_vars
  intro k srt
  by_cases hk : k = i
  · simpa [hk] using h
  · simp only [hk, if_false, vars, List.mem_singleton]
    exact fun hh => hk hh.symm

/-- The variable bound by `bind_var` occurs in no term to which the substitution is
applied. -/
theorem bind_var_eliminates (i : Nat) (t : expr) (b : List (Nat × expr)) (h : i ∉ vars t) :
    ∀ e, i ∉ vars (apply_resolved (bind_var i t b) e) := by
  intro e
  apply not_mem_vars_subst_vars
  intro k srt
  simp only [bind_var, List.lookup_cons]
  cases hk : (k == i)
  · simp only [lookup_map_snd]
    cases hl : b.lookup k with
    | none =>
      simp only [Option.map_none', Option.getD_none, vars, List.mem_singleton]
      intro hh
      rw [hh] at hk
      simp at hk
    | some x =>
      simp only [Option.map_some', Option.getD_some]
      exact not_mem_vars_subst_one i t x h
  · simpa using h

/-- The substitution extended by `bind_var` brings in no variable other than those of the
bound term. -/
theorem bind_var_vars (i : Nat) (t : expr) (b : List (Nat × expr)) :
    ∀ e j, j ∈ vars (apply_resolved (bind_var i t b) e) →
      j ∈ vars (apply_resolved b e) ∨ j ∈ vars t := by
  apply vars_subst_vars
  intro k srt j hj
  simp only [bind_var, List.lookup_cons] at hj
  cases hk : (k == i)
  · rw [hk] at hj
    simp only [lookup_map_snd] at hj
    cases hl : b.lookup k with
    | none =>
      rw [hl] at hj
      left
      simpa using hj
    | some x =>
      rw [hl] at hj
      simp only [Option.map_some', Option.getD_some] at hj ⊢
      exact vars_subst_one i t x j hj
  · rw [hk] at hj
    right
    simpa using hj

theorem vars_of_is_value (t : expr) (h : is_value t = true) : vars t = [] := by
  unfold is_value at h
  split at h
  · simp [vars, vars_list]
  · simp [vars, vars_list]
  · simp [vars, vars_list]
  · simp at h

theorem bind_resolved_shape (a b : expr) (u : List (Nat × expr)) :
    (a = b ∧ bind_resolved a b u = (true, u)) ∨ bind_resolved a b u = (false, u) ∨
    (a ≠ b ∧ ∃ i t, bind_resolved a b u = (true, bind_var i t u) ∧ i ∉ vars t ∧
        (i ∈ vars a ∨ i ∈ vars b) ∧ ∀ j ∈ vars t, j ∈ vars a ∨ j ∈ vars b) := by
  by_cases hab : a = b
  · left
    exact ⟨hab, by simp [bind_resolved, hab]⟩
  · right
    unfold bind_resolved
    rw [if_neg hab]
    split
    · next e1 e2 idx srt =>
      by_cases h2 : ((is_value b || is_var b) && !(vars b).contains idx) = true
      · right
        rw [if_pos h2]
        simp only [Bool.and_eq_true, Bool.not_eq_true', List.contains_eq_any_beq,
          List.any_eq_false, beq_iff_eq] at h2
        refine ⟨hab, idx, b, rfl, ?_, Or.inl (by simp [vars]), fun j hj => Or.inr hj⟩
        intro hmem
        exact h2.2 idx hmem rfl
      · left
        rw [if_neg h2]
    · next e1 e2 idx srt hnv =>
      by_cases h2 : is_value a = true
      · right
        rw [if_pos h2]
        refine ⟨hab, idx, a, rfl, ?_, Or.inr (by simp [vars]), fun j hj => Or.inl hj⟩
        rw [vars_of_is_value a h2]
        simp
      · left
        rw [if_neg h2]
    · left
      rfl

/-- What the unifier `bind_resolved` answers: identical terms unify with the substitution
unchanged, a failure leaves it unchanged, and a success on different terms binds a variable
of one of them to the other, in which the variable does not occur. -/
theorem bind_resolved_cases (a b : expr) (u : List (Nat × expr)) :
    (a = b → (bind_resolved a b u).2 = u) ∧
    ((bind_resolved a b u).1 = false → (bind_resolved a b u).2 = u) ∧
    (a ≠ b → (bind_resolved a b u).1 = true →
      ∃ i t, (bind_resolved a b u).2 = bind_var i t u ∧ i ∉ vars t ∧
        (i ∈ vars a ∨ i ∈ vars b) ∧ ∀ j ∈ vars t, j ∈ vars a ∨ j ∈ vars b) := by
  rcases bind_resolved_shape a b u with ⟨h1, h2⟩ | h2 | ⟨h1, i, t, h2, h3⟩
  · rw [h2]
    exact ⟨fun _ => rfl, fun _ => rfl, fun hne => absurd h1 hne⟩
  · rw [h2]
    exact ⟨fun _ => rfl, fun _ => rfl, fun _ hh => by simp at hh⟩
  · rw [h2]
    exact ⟨fun hh => absurd hh h1, fun hh => by simp at hh, fun _ _ => ⟨i, t, rfl, h3⟩⟩

theorem drop_trivial_list_eq_map (l : List expr) :
    drop_trivial_list l = l.map drop_trivial := by
  induction l with
  | nil => simp [drop_trivial_list]
  | cons x xs ih => simp [drop_trivial_list, ih]

theorem propagate_step_calls_and (leqs : List expr) (args : List expr) :
    propagate_step_calls leqs (.app .and_decl args) = (args, [], leqs) := by
  simp [propagate_step_calls, strip_not, is_not_arg, is_var, is_and, is_app_of, get_args]

theorem propagate_step_calls_true (leqs : List expr) :
    propagate_step_calls leqs mk_true = ([], [], leqs) := by
  simp [propagate_step_calls, mk_true, strip_not, is_not_arg, is_var, is_and, is_app_of,
    match_flex_eq, is_eq_args, match_binary, match_le_ge]

/-- Only a conjunction puts literals on the work-list. -/
theorem propagate_step_calls_pushed (leqs : List expr) (t0 : expr)
    (h : ∀ args, t0 ≠ .app .and_decl args) : (propagate_step_calls leqs t0).1 = [] := by
  unfold propagate_step_calls
  simp only
  split
  · rfl
  · split
    · next hv hand =>
      exfalso
      simp only [Bool.and_eq_true, Bool.not_eq_true'] at hand
      obtain ⟨hneg, ha⟩ := hand
      unfold strip_not at hneg ha
      cases hn : is_not_arg t0 with
      | some x => rw [hn] at hneg; simp at hneg
      | none =>
        rw [hn] at ha
        simp only at ha
        cases t0 with
        | var i srt => simp [is_and, is_app_of] at ha
        | app f args =>
          simp only [is_and, is_app_of, beq_iff_eq] at ha
          exact h args (by rw [ha])
        | quantifier a b c => simp [is_and, is_app_of] at ha
    · split
      · rfl
      · split
        · split_ifs <;> rfl
        · split
          · simp
          · rfl

/-- The pairs passed to `unify` for one literal do not depend on `leqs`. -/
theorem propagate_step_calls_leqs (leqs : List expr) (t0 : expr) :
    (propagate_step_calls leqs t0).2.1 = (propagate_step_calls [] t0).2.1 := by
  unfold propagate_step_calls
  simp only
  split
  · rfl
  · split
    · rfl
    · split
      · rfl
      · split
        · split_ifs <;> rfl
        · split
          · simp
          · rfl

/-- The result of `drop_trivial` is a conjunction of such results, the constant `true`, or
a literal that is not a conjunction and for which no two identical terms are unified. -/
theorem drop_trivial_shape (e : expr) :
    (∃ args : List expr, drop_trivial e = .app .and_decl (args.map drop_trivial)) ∨
    drop_trivial e = mk_true ∨
    ((∀ args, drop_trivial e ≠ .app .and_decl args) ∧
      has_trivial_call (drop_trivial e) = false) := by
  have hl : ∀ x : expr, (∀ args, x ≠ .app .and_decl args) →
      drop_trivial_literal x = mk_true ∨
      ((∀ args, drop_trivial_literal x ≠ .app .and_decl args) ∧
        has_trivial_call (drop_trivial_literal x) = false) := by
    intro x hx
    unfold drop_trivial_literal
    by_cases ht : has_trivial_call x = true
    · left; rw [if_pos ht]
    · right
      rw [if_neg ht]
      exact ⟨hx, by simpa using ht⟩
  cases e with
  | var i srt =>
    right
    rw [drop_trivial]
    exact hl _ (fun args hh => by cases hh)
  | app f args =>
    rw [drop_trivial]
    by_cases hf : f = .and_decl
    · left
      rw [if_pos hf, drop_trivial_list_eq_map]
      exact ⟨args, rfl⟩
    · right
      rw [if_neg hf]
      exact hl _ (fun args1 hh => by cases hh; exact hf rfl)
  | quantifier a b c =>
    right
    rw [drop_trivial]
    exact hl _ (fun args hh => by cases hh)

/-- The work-list loop on results of `drop_trivial` passes no two identical terms to
`unify`. -/
theorem unify_calls_drop_trivial :
    ∀ (n : Nat) (todo leqs : List expr), todo_size todo ≤ n →
    (∀ x ∈ todo, ∃ e, x = drop_trivial e) →
    ∀ p ∈ unify_calls todo leqs, p.1 ≠ p.2 := by
  intro n
  induction n with
  | zero =>
    intro todo leqs h _ p hp
    cases todo with
    | nil => simp [unify_calls] at hp
    | cons t rest => simp [todo_size] at h
  | succ n ih =>
    intro todo leqs h hd p hp
    cases todo with
    | nil => simp [unify_calls] at hp
    | cons t rest =>
      have hsz := propagate_step_calls_size leqs t
      have hrest : ∀ x ∈ rest, ∃ e, x = drop_trivial e :=
        fun x hx => hd x (List.mem_cons_of_mem _ hx)
      have hbound : todo_size ((propagate_step_calls leqs t).1.reverse ++ rest) ≤ n := by
        rw [todo_size_append, todo_size_reverse]
        simp only [todo_size] at h
        omega
      obtain ⟨e, he⟩ := hd t (List.mem_cons_self _ _)
      rw [unify_calls, List.mem_append] at hp
      rcases drop_trivial_shape e with ⟨args, hs⟩ | hs | ⟨hs1, hs2⟩
      · rw [he, hs, propagate_step_calls_and] at hp hbound
        rcases hp with hp | hp
        · simp at hp
        · refine ih _ _ hbound ?_ p hp
          intro x hx
          rw [List.mem_append, List.mem_reverse, List.mem_map] at hx
          rcases hx with ⟨y, _, hy⟩ | hx
          · exact ⟨y, hy.symm⟩
          · exact hrest x hx
      · rw [he, hs, propagate_step_calls_true] at hp hbound
        rcases hp with hp | hp
        · simp at hp
        · exact ih _ _ hbound (by simpa using hrest) p hp
      · rw [← he] at hs1 hs2
        rcases hp with hp | hp
        · rw [propagate_step_calls_leqs] at hp
          simp only [has_trivial_call, List.any_eq_false, decide_eq_true_eq] at hs2
          exact hs2 p hp
        · rw [propagate_step_calls_pushed leqs t hs1] at hp hbound
          exact ih _ _ hbound (by simpa using hrest) p hp

mutual
theorem vars_drop_trivial : ∀ (e : expr) (j : Nat), j ∈ vars (drop_trivial e) → j ∈ vars e
  | .var i srt, j, h => by
    rw [drop_trivial, drop_trivial_literal] at h
    split_ifs at h
    · simp [mk_true, vars, vars_list] at h
    · exact h
  | .app f args, j, h => by
    rw [drop_trivial] at h
    split_ifs at h
    · simp only [vars] at h ⊢
      exact vars_drop_trivial_list args j h
    · rw [drop_trivial_literal] at h
      split_ifs at h
      · simp [mk_true, vars, vars_list] at h
      · exact h
  | .quantifier a b c, j, h => by
    rw [drop_trivial, drop_trivial_literal] at h
    split_ifs at h
    · simp [mk_true, vars, vars_list] at h
    · exact h
theorem vars_drop_trivial_list : ∀ (l : List expr) (j : Nat),
    j ∈ vars_list (drop_trivial_list l) → j ∈ vars_list l
  | [], j, h => by simpa [drop_trivial_list] using h
  | x :: xs, j, h => by
    simp only [drop_trivial_list, vars_list, List.mem_append] at h ⊢
    rcases h with h | h
    · exact Or.inl (vars_drop_trivial x j h)
    · exact Or.inr (vars_drop_trivial_list xs j h)
end

/-- The simplifier object `resolving_simplifier` meets the contract of the propagation. -/
theorem resolving_simplifier_contract : resolving_simplifier.propagation_contract where
  simplify_vars := by
    intro e i h
    exact vars_drop_trivial e i (vars_drop_trivial _ i h)
  simplify_clean := by
    intro e
    exact unify_calls_drop_trivial _ _ _ (le_refl _) (by
      intro x hx
      simp only [List.mem_singleton] at hx
      exact ⟨_, hx⟩)
  reset_apply := by
    intro u n e
    exact subst_vars_id e
  reset_cache_apply := fun _ _ => rfl
  unif_failure := by
    intro a b u h e
    have h1 := (bind_resolved_cases a b u).2.1 h
    show apply_resolved (bind_resolved a b u).2 e = apply_resolved u e
    rw [h1]
  unif_identical := by
    intro a u e
    have h1 := (bind_resolved_cases a a u).1 rfl
    show apply_resolved (bind_resolved a a u).2 e = apply_resolved u e
    rw [h1]
  unif_binds := by
    intro a b u hne h
    obtain ⟨i, t, h1, h2, h3, h4⟩ := (bind_resolved_cases a b u).2.2 hne h
    refine ⟨i, h3, ?_, ?_⟩
    · intro e
      show i ∉ vars (apply_resolved (bind_resolved a b u).2 e)
      rw [h1]
      exact bind_var_eliminates i t u h2 e
    · intro e j hj
      change j ∈ vars (apply_resolved (bind_resolved a b u).2 e) at hj
      rw [h1] at hj
      rcases bind_var_vars i t u e j hj with hh | hh
      · exact Or.inl hh
      · exact Or.inr (h4 j hh)
  norm_vars_relational := fun _ _ => rfl
  norm_vars_count := fun _ _ => le_refl _

theorem apply_resolved_app (b : List (Nat × expr)) (f : func_decl) (args : List expr) :
    resolving_simplifier.subst_apply b (.app f args) =
      .app f (args.map (resolving_simplifier.subst_apply b)) := by
  simp [resolving_simplifier, apply_resolved, subst_vars, subst_vars_list_eq_map]

/-- The run of `transform_rule` with the simplifier object `resolving_simplifier`, which
meets the contract, on the rule `H(x0) :- A(x0), x0 = 5`, which is well formed and has no
quantifier and whose maximum variable index is 0: the loop passes through `start` a second
time (with a rule without variables), not a third time, and the call returns within two
passes. -/
theorem transform_rule_terminates_witness :
    resolving_simplifier.propagation_contract ∧
    sample_rule_eq.has_quantifiers = false ∧
    sample_rule_eq.well_formed resolving_simplifier.is_predicate = true ∧
    resolving_simplifier.working_rule ⟨[], none, 1⟩ sample_rule_eq 1 =
      some (⟨[(0, mk_numeral 5)], some sample_rule_eq, 2⟩,
        ⟨1, .app (.uninterp 0 .bool) [mk_numeral 5],
          [(.app (.uninterp 1 .bool) [mk_numeral 5], false),
           (.app (.eq_decl (.other 0)) [mk_numeral 5, mk_numeral 5], false)], 1⟩) ∧
    ((∀ k st1 r1 st2 r2,
        resolving_simplifier.working_rule ⟨[], none, 1⟩ sample_rule_eq k = some (st1, r1) →
        resolving_simplifier.working_rule ⟨[], none, 1⟩ sample_rule_eq (k + 1) =
          some (st2, r2) →
        r2.var_count < r1.var_count) ∧
      resolving_simplifier.working_rule ⟨[], none, 1⟩ sample_rule_eq
        (get_max_rule_var sample_rule_eq + 2) = none ∧
      ∃ res, resolving_simplifier.transform_rule (get_max_rule_var sample_rule_eq + 2)
        ⟨[], none, 1⟩ sample_rule_eq = some res) := by
  have hs1 : resolving_simplifier.simplify_expr (mk_eq (.var 0 (.other 0)) (mk_numeral 5)) =
      mk_eq (.var 0 (.other 0)) (mk_numeral 5) := by
    simp [mk_interp_tail_simplifier.simplify_expr, resolving_simplifier, drop_trivial,
      drop_trivial_literal, has_trivial_call, propagate_step_calls, mk_eq, mk_numeral,
      strip_not, is_not_arg, is_var, is_and, is_app_of, match_flex_eq, is_eq_args, IS_FLEX,
      is_value, get_sort]
  have hs2 : resolving_simplifier.simplify_expr
      (.app (.eq_decl (.other 0)) [mk_numeral 5, mk_numeral 5]) = mk_true := by
    simp [mk_interp_tail_simplifier.simplify_expr, resolving_simplifier, drop_trivial,
      drop_trivial_literal, has_trivial_call, propagate_step_calls, mk_numeral, mk_true,
      strip_not, is_not_arg, is_var, is_and, is_app_of, match_flex_eq, is_eq_args, IS_FLEX,
      is_value, match_binary, match_le_ge]
  have hu : resolving_simplifier.unify
      (resolving_simplifier.reset ⟨[], none, 1⟩ sample_rule_eq) (.var 0 (.other 0))
      (mk_numeral 5) = (true, ⟨[(0, mk_numeral 5)], some sample_rule_eq, 1⟩) := by
    simp [mk_interp_tail_simplifier.unify, mk_interp_tail_simplifier.reset,
      resolving_simplifier, apply_resolved, subst_vars, subst_vars_list, bind_resolved,
      bind_var, mk_numeral, is_value, is_var, vars, vars_list]
  have hx : resolving_simplifier.subst_apply [(0, mk_numeral 5)] (.var 0 (.other 0)) =
      mk_numeral 5 := by
    simp [resolving_simplifier, apply_resolved, subst_vars]
  have hcc : resolving_simplifier.subst_apply [(0, mk_numeral 5)] (mk_numeral 5) =
      mk_numeral 5 := by
    simp [resolving_simplifier, apply_resolved, subst_vars, subst_vars_list, mk_numeral]
  obtain ⟨hq, hpass1, _⟩ :=
    propagates_binding_passes resolving_simplifier ⟨[], none, 1⟩ sample_rule_eq
      [(0, mk_numeral 5)] 0 (.app (.uninterp 0 .bool) [.var 0 (.other 0)]) (.uninterp 1 .bool)
      0 (.other 0) (mk_numeral 5) rfl rfl rfl rfl hs1 hs2 hu hx hcc
      (apply_resolved_app _) rfl
  refine ⟨resolving_simplifier_contract, hq, by decide, ?_,
    transform_rule_terminates resolving_simplifier ⟨[], none, 1⟩ sample_rule_eq
      resolving_simplifier_contract hq (by decide)⟩
  rw [working_rule_succ, hpass1]
  simp [mk_interp_tail_simplifier.working_rule, apply_resolved_app, hcc, hx]

end datalog
